import Mathlib

/-!
Shallow embedding of the LRU cache from `src/LruCache/src/lib.rs` together
with proofs about its behaviour.

Modelling conventions:

* `usize` indices become `Nat`.
* The arena `Box<[Option<Node<V>>]>` becomes `List (Option (Node V))`;
  indexing panics in Rust when the index is out of bounds, so every indexed
  access goes through `bufRead` / `bufWrite`, which return
  `Except String _` with the error standing for the Rust panic.  Likewise
  `Option::expect` / `Option::unwrap` become `expectSome`.
* `HashMap<String, Index>` is modelled as an association list with distinct
  keys; `mapLookup`, `mapInsert` and `mapRemove` model `get`/`contains_key`,
  `insert` and `remove` (order of entries is never observed by the code).
* `Vec<Index>` used as a stack (`push`/`pop` at the growing end) is modelled
  as a `List Nat` whose head is the growing end: `push` is `cons`, `pop`
  takes the head.
* Every fallible operation returns `Except String α`; an `.error` result
  models a Rust panic, and a panicking call produces no successor state.
-/

namespace LruSpec

/-- Mirrors `struct Node<V>` of the source: one occupied arena slot. -/
structure Node (V : Type) where
  previous : Option Nat
  next : Option Nat
  key : String
  value : V
deriving DecidableEq

/-- Mirrors `struct LruCache<V>` of the source. -/
structure LruCache (V : Type) where
  map : List (String × Nat)
  buffer : List (Option (Node V))
  head_index : Nat
  tail_index : Nat
  len : Nat
  capacity : Nat
  free : List Nat
deriving DecidableEq

/-- Mirrors `struct LruCacheIter<'a, V>` of the source. -/
structure LruCacheIter (V : Type) where
  current_idx : Option Nat
  buffer : List (Option (Node V))
deriving DecidableEq

/-- Association-list model of `HashMap::get` (also used for `contains_key`). -/
def mapLookup : List (String × Nat) → String → Option Nat
  | [], _ => none
  | p :: rest, k => if p.1 = k then some p.2 else mapLookup rest k

/-- Association-list model of `HashMap::remove`. -/
def mapRemove : List (String × Nat) → String → List (String × Nat)
  | [], _ => []
  | p :: rest, k => if p.1 = k then mapRemove rest k else p :: mapRemove rest k

/-- Association-list model of `HashMap::insert` (replacing semantics). -/
def mapInsert (m : List (String × Nat)) (k : String) (i : Nat) :
    List (String × Nat) :=
  (k, i) :: mapRemove m k

/-- Rust slice read `buffer[i]`: panics (errors) when out of bounds. -/
def bufRead (buf : List (Option (Node V))) (i : Nat) :
    Except String (Option (Node V)) :=
  match buf[i]? with
  | some s => .ok s
  | none => .error "index out of bounds"

/-- Rust slice write `buffer[i] = s`: panics (errors) when out of bounds. -/
def bufWrite (buf : List (Option (Node V))) (i : Nat) (s : Option (Node V)) :
    Except String (List (Option (Node V))) :=
  if i < buf.length then .ok (buf.set i s) else .error "index out of bounds"

/-- Rust `Option::expect` / `Option::unwrap`: panics (errors) on `None`. -/
def expectSome : Option α → String → Except String α
  | some a, _ => .ok a
  | none, msg => .error msg

/-- Mirrors `LruCache::new`. -/
def LruCache.new (V : Type) (size : Nat) : LruCache V :=
  { map := []
    buffer := List.replicate size none
    head_index := 0
    tail_index := 0
    len := 0
    capacity := size
    free := [] }

/-- Mirrors `LruCache::iter`. -/
def LruCache.iter (c : LruCache V) : LruCacheIter V :=
  { current_idx := some c.head_index, buffer := c.buffer }

/-- Mirrors `Iterator::next` for `LruCacheIter`. -/
def LruCacheIter.next (it : LruCacheIter V) :
    Except String (Option V × LruCacheIter V) :=
  match it.current_idx with
  | none => .ok (none, it)
  | some index =>
    match it.buffer[index]? with
    | none => .error "index out of bounds"
    | some none => .ok (none, it)
    | some (some current_node) =>
      .ok (some current_node.value, { it with current_idx := current_node.next })

/-- Mirrors `LruCache::replace_at_index`. -/
def LruCache.replace_at_index (c : LruCache V) (index : Nat) (value : V) :
    Except String (LruCache V) :=
  match bufRead c.buffer index with
  | .error e => .error e
  | .ok none => .ok c
  | .ok (some node) =>
    .ok { c with buffer := c.buffer.set index (some { node with value := value }) }

/-- Mirrors `LruCache::new_head_node`. -/
def LruCache.new_head_node (c : LruCache V) (key : String) (value : V) :
    Node V :=
  if c.len = 0 then
    { previous := none, next := none, key := key, value := value }
  else
    { previous := none, next := some c.head_index, key := key, value := value }

/-- The common final section of `LruCache::push_front` (source lines 151-164):
it looks up the freshly written head node and, when the head has a `next`
slot, rewires that slot's `previous` to the new head, then returns the head
index together with the evicted key. -/
def LruCache.attach_second (c : LruCache V) (old_key : Option String) :
    Except String (LruCache V × Nat × Option String) :=
  match bufRead c.buffer c.head_index with
  | .error e => .error e
  | .ok none => .error "The head node should be a valid node and not None."
  | .ok (some head_node) =>
    match head_node.next with
    | none => .ok (c, c.head_index, old_key)
    | some next_node_index =>
      match bufRead c.buffer next_node_index with
      | .error e => .error e
      | .ok none => .error "The next node should be a valid Node and not None."
      | .ok (some next_node) =>
        .ok ({ c with buffer := (c.buffer.set next_node_index
                  (some { next_node with previous := some c.head_index })) },
             c.head_index, old_key)

/-- Mirrors `LruCache::push_front`.  The three branches are, in order:
sequential fill while `len < capacity`, reuse of a popped free-list slot, and
eviction of the slot at `tail_index`. -/
def LruCache.push_front (c : LruCache V) (key : String) (value : V) :
    Except String (LruCache V × Nat × Option String) :=
  let node := c.new_head_node key value
  if c.len < c.capacity then
    match bufWrite c.buffer c.len (some node) with
    | .error e => .error e
    | .ok buf =>
      LruCache.attach_second
        { c with head_index := c.len, len := c.len + 1, buffer := buf } none
  else
    match c.free with
    | idx :: rest =>
      match bufWrite c.buffer idx (some node) with
      | .error e => .error e
      | .ok buf =>
        LruCache.attach_second
          { c with head_index := idx, buffer := buf, free := rest } none
    | [] =>
      match bufRead c.buffer c.tail_index with
      | .error e => .error e
      | .ok none => .error "Tail node should be a valid node and not None."
      | .ok (some old_node) =>
        let step : Except String (LruCache V) :=
          match old_node.previous with
          | some new_tail =>
            match bufRead c.buffer new_tail with
            | .error e => .error e
            | .ok none =>
              .error "The tail nodes previous node should be a valid Node and not None."
            | .ok (some tail_node) =>
              .ok { c with
                    head_index := c.tail_index
                    tail_index := new_tail
                    buffer := (c.buffer.set new_tail
                      (some { tail_node with next := none })) }
          | none => .ok { c with head_index := c.tail_index }
        match step with
        | .error e => .error e
        | .ok c1 =>
          match bufRead c1.buffer c1.head_index with
          | .error e => .error e
          | .ok cur =>
            match bufWrite c1.buffer c1.head_index (some node) with
            | .error e => .error e
            | .ok buf2 =>
              LruCache.attach_second { c1 with buffer := buf2 }
                (cur.map (fun n => n.key))

/-- Mirrors `LruCache::set`. -/
def LruCache.set (c : LruCache V) (key : String) (value : V) :
    Except String (LruCache V) :=
  if (mapLookup c.map key).isSome then
    match mapLookup c.map key with
    | some existing_index => c.replace_at_index existing_index value
    | none => .error "The expected node was not found"
  else
    match c.push_front key value with
    | .error e => .error e
    | .ok (c1, new_index, removed_key) =>
      let c2 := { c1 with map := mapInsert c1.map key new_index }
      match removed_key with
      | some old_key => .ok { c2 with map := mapRemove c2.map old_key }
      | none => .ok c2

/-- Mirrors `LruCache::get_node`. -/
def LruCache.get_node (c : LruCache V) (index : Option Nat) :
    Except String (Option (Node V)) :=
  match index with
  | some idx => bufRead c.buffer idx
  | none => .ok none

/-- Mirrors `LruCache::remove`.  Takes the node out of the slot, pushes the
slot index on the free stack, and splices the two neighbour links (four
cases).  The second neighbour update in the interior case sees the buffer
already updated by the first, exactly as the sequential Rust code does. -/
def LruCache.remove (c : LruCache V) (index : Nat) :
    Except String (LruCache V × Option (String × V)) :=
  match bufRead c.buffer index with
  | .error e => .error e
  | .ok slot =>
    let c1 : LruCache V :=
      { c with buffer := c.buffer.set index none, free := index :: c.free }
    match slot with
    | none => .ok (c1, none)
    | some node =>
      match c1.get_node node.previous, c1.get_node node.next with
      | .error e, _ => .error e
      | .ok _, .error e => .error e
      | .ok none, .ok none => .ok (c1, some (node.key, node.value))
      | .ok none, .ok (some _) =>
        match node.next with
        | none => .error "called unwrap on a None value"
        | some j =>
          match bufRead c1.buffer j with
          | .error e => .error e
          | .ok none => .error "called unwrap on a None value"
          | .ok (some nnode) =>
            .ok ({ c1 with buffer := (c1.buffer.set j
                     (some { nnode with previous := none })) },
                 some (node.key, node.value))
      | .ok (some _), .ok none =>
        match node.previous with
        | none => .error "called unwrap on a None value"
        | some j =>
          match bufRead c1.buffer j with
          | .error e => .error e
          | .ok none => .error "called unwrap on a None value"
          | .ok (some pnode) =>
            .ok ({ c1 with buffer := (c1.buffer.set j
                     (some { pnode with next := none })) },
                 some (node.key, node.value))
      | .ok (some _), .ok (some _) =>
        match node.previous, node.next with
        | some pj, some nj =>
          match bufRead c1.buffer pj with
          | .error e => .error e
          | .ok none => .error "called unwrap on a None value"
          | .ok (some pnode) =>
            let buf2 := c1.buffer.set pj (some { pnode with next := node.next })
            match bufRead buf2 nj with
            | .error e => .error e
            | .ok none => .error "called unwrap on a None value"
            | .ok (some nnode) =>
              .ok ({ c1 with buffer := (buf2.set nj
                       (some { nnode with previous := node.previous })) },
                   some (node.key, node.value))
        | _, _ => .error "called unwrap on a None value"

/-- Mirrors `LruCache::get`. -/
def LruCache.get (c : LruCache V) (key : String) :
    Except String (Option V × LruCache V) :=
  match mapLookup c.map key with
  | none => .ok (none, c)
  | some index =>
    match c.remove index with
    | .error e => .error e
    | .ok (c1, removed) =>
      match removed with
      | none => .error "called unwrap on a None value"
      | some (k, v) =>
        match c1.push_front k v with
        | .error e => .error e
        | .ok (c2, new_index, _old_key) =>
          let c3 := { c2 with map := mapInsert c2.map k new_index }
          match bufRead c3.buffer new_index with
          | .error e => .error e
          | .ok slot => .ok (slot.map (fun n => n.value), c3)

/-- Cache states reachable from `new` by successful `set`/`get` calls.
A panicking (erroring) call produces no successor state. -/
inductive Reachable {V : Type} : LruCache V → Prop
  | base (size : Nat) : Reachable (LruCache.new V size)
  | set_step (c c' : LruCache V) (k : String) (v : V) :
      Reachable c → c.set k v = .ok c' → Reachable c'
  | get_step (c c' : LruCache V) (k : String) (r : Option V) :
      Reachable c → c.get k = .ok (r, c') → Reachable c'

/-- Cache states reachable from `new` by successful `set` calls alone. -/
inductive SetReachable {V : Type} : LruCache V → Prop
  | base (size : Nat) : SetReachable (LruCache.new V size)
  | set_step (c c' : LruCache V) (k : String) (v : V) :
      SetReachable c → c.set k v = .ok c' → SetReachable c'

/-- Driving the iterator: calls `next` up to `n` times, collecting yielded
values, stopping early when `next` yields nothing. -/
def iterN (it : LruCacheIter V) : Nat → Except String (List V × LruCacheIter V)
  | 0 => .ok ([], it)
  | n + 1 =>
    match it.next with
    | .error e => .error e
    | .ok (none, it1) => .ok ([], it1)
    | .ok (some v, it1) =>
      match iterN it1 n with
      | .error e => .error e
      | .ok (vs, it2) => .ok (v :: vs, it2)

/-- The `next` slot index stored at slot `i`, when `i` holds a node. -/
def nextOf (buf : List (Option (Node V))) (i : Nat) : Option Nat :=
  match buf[i]? with
  | some (some n) => n.next
  | _ => none

/-- The `previous` slot index stored at slot `i`, when `i` holds a node. -/
def prevOf (buf : List (Option (Node V))) (i : Nat) : Option Nat :=
  match buf[i]? with
  | some (some n) => n.previous
  | _ => none

/-- Follow `next` links starting from an optional slot index for at most `n`
steps, listing the visited slots. -/
def walkNext (buf : List (Option (Node V))) : Option Nat → Nat → List Nat
  | _, 0 => []
  | none, _ + 1 => []
  | some i, n + 1 => i :: walkNext buf (nextOf buf i) n

/-- Follow `previous` links starting from an optional slot index for at most
`n` steps, listing the visited slots. -/
def walkPrev (buf : List (Option (Node V))) : Option Nat → Nat → List Nat
  | _, 0 => []
  | none, _ + 1 => []
  | some i, n + 1 => i :: walkPrev buf (prevOf buf i) n

/-! ### Basic observations on buffers and the key index -/

/-- Slot `i` of `buf` holds exactly the node `node`. -/
def NodeAt (buf : List (Option (Node V))) (i : Nat) (node : Node V) : Prop :=
  buf[i]? = some (some node)

/-- The key stored at slot `i`, when the slot holds a node. -/
def keyAt (buf : List (Option (Node V))) (i : Nat) : Option String :=
  match buf[i]? with
  | some (some n) => some n.key
  | _ => none

/-- The value stored at slot `i`, when the slot holds a node. -/
def valAt (buf : List (Option (Node V))) (i : Nat) : Option V :=
  match buf[i]? with
  | some (some n) => some n.value
  | _ => none

theorem keyAt_eq_some_iff (buf : List (Option (Node V))) (i : Nat) (k : String) :
    keyAt buf i = some k ↔ ∃ node, NodeAt buf i node ∧ node.key = k := by
  unfold keyAt NodeAt
  cases h : buf[i]? with
  | none => simp
  | some s =>
    cases s with
    | none => simp
    | some n =>
      constructor
      · intro hk
        exact ⟨n, rfl, by simpa using hk⟩
      · rintro ⟨node, hn, hk⟩
        cases hn
        simpa using hk

theorem keyAt_of_nodeAt (buf : List (Option (Node V))) (i : Nat) (node : Node V)
    (h : NodeAt buf i node) : keyAt buf i = some node.key := by
  unfold keyAt
  rw [h]

theorem valAt_of_nodeAt (buf : List (Option (Node V))) (i : Nat) (node : Node V)
    (h : NodeAt buf i node) : valAt buf i = some node.value := by
  unfold valAt
  rw [h]

theorem nodeAt_lt_length (buf : List (Option (Node V))) (i : Nat) (node : Node V)
    (h : NodeAt buf i node) : i < buf.length := by
  by_contra hge
  have : buf[i]? = none := List.getElem?_eq_none (by omega)
  rw [NodeAt] at h
  rw [this] at h
  exact Option.noConfusion h

theorem nodeAt_set_self (buf : List (Option (Node V))) (i : Nat) (node : Node V)
    (h : i < buf.length) : NodeAt (buf.set i (some node)) i node := by
  unfold NodeAt
  rw [List.getElem?_set_self (by simpa using h)]

theorem nodeAt_set_ne (buf : List (Option (Node V))) (i j : Nat)
    (s : Option (Node V)) (node : Node V) (h : i ≠ j) :
    NodeAt (buf.set i s) j node ↔ NodeAt buf j node := by
  unfold NodeAt
  rw [List.getElem?_set_ne h]

theorem keyAt_set_ne (buf : List (Option (Node V))) (i j : Nat)
    (s : Option (Node V)) (h : i ≠ j) : keyAt (buf.set i s) j = keyAt buf j := by
  unfold keyAt
  rw [List.getElem?_set_ne h]

theorem valAt_set_ne (buf : List (Option (Node V))) (i j : Nat)
    (s : Option (Node V)) (h : i ≠ j) : valAt (buf.set i s) j = valAt buf j := by
  unfold valAt
  rw [List.getElem?_set_ne h]

theorem keyAt_set_self (buf : List (Option (Node V))) (i : Nat) (node : Node V)
    (h : i < buf.length) : keyAt (buf.set i (some node)) i = some node.key := by
  unfold keyAt
  rw [List.getElem?_set_self (by simpa using h)]

theorem valAt_set_self (buf : List (Option (Node V))) (i : Nat) (node : Node V)
    (h : i < buf.length) : valAt (buf.set i (some node)) i = some node.value := by
  unfold valAt
  rw [List.getElem?_set_self (by simpa using h)]

theorem keyAt_set_none (buf : List (Option (Node V))) (i : Nat)
    (h : i < buf.length) : keyAt (buf.set i none) i = none := by
  unfold keyAt
  rw [List.getElem?_set_self (by simpa using h)]

/-! ### Key-index (association list) lemmas -/

theorem mapLookup_remove_self (m : List (String × Nat)) (k : String) :
    mapLookup (mapRemove m k) k = none := by
  induction m with
  | nil => rfl
  | cons p rest ih =>
    by_cases h : p.1 = k
    · simpa [mapRemove, h] using ih
    · simpa [mapRemove, h, mapLookup] using ih

theorem mapLookup_remove_ne (m : List (String × Nat)) (k k' : String)
    (h : k' ≠ k) : mapLookup (mapRemove m k) k' = mapLookup m k' := by
  induction m with
  | nil => rfl
  | cons p rest ih =>
    by_cases hp : p.1 = k
    · have hp' : ¬ p.1 = k' := by
        rw [hp]
        exact fun hh => h hh.symm
      rw [mapRemove, if_pos hp, mapLookup, if_neg hp', ih]
    · by_cases hk : p.1 = k'
      · rw [mapRemove, if_neg hp, mapLookup, if_pos hk, mapLookup, if_pos hk]
      · rw [mapRemove, if_neg hp, mapLookup, if_neg hk, mapLookup, if_neg hk, ih]

theorem mapLookup_insert_self (m : List (String × Nat)) (k : String) (i : Nat) :
    mapLookup (mapInsert m k i) k = some i := by
  simp [mapInsert, mapLookup]

theorem mapLookup_insert_ne (m : List (String × Nat)) (k k' : String) (i : Nat)
    (h : k' ≠ k) : mapLookup (mapInsert m k i) k' = mapLookup m k' := by
  have : k ≠ k' := fun hh => h hh.symm
  simp [mapInsert, mapLookup, this]
  exact mapLookup_remove_ne m k k' h

theorem mapLookup_none_not_mem (m : List (String × Nat)) (k : String)
    (h : mapLookup m k = none) : ∀ p ∈ m, p.1 ≠ k := by
  induction m with
  | nil => intro p hp; cases hp
  | cons q rest ih =>
    intro p hp
    rcases List.mem_cons.mp hp with hq | hq
    · subst hq
      intro hk
      rw [mapLookup, if_pos hk] at h
      exact Option.noConfusion h
    · by_cases hq1 : q.1 = k
      · rw [mapLookup, if_pos hq1] at h
        exact Option.noConfusion h
      · rw [mapLookup, if_neg hq1] at h
        exact ih h p hq

theorem mapRemove_of_lookup_none (m : List (String × Nat)) (k : String)
    (h : mapLookup m k = none) : mapRemove m k = m := by
  induction m with
  | nil => rfl
  | cons p rest ih =>
    by_cases hp : p.1 = k
    · rw [mapLookup, if_pos hp] at h
      exact Option.noConfusion h
    · rw [mapLookup, if_neg hp] at h
      rw [mapRemove, if_neg hp, ih h]

theorem mem_mapRemove (m : List (String × Nat)) (k : String) (p : String × Nat)
    (h : p ∈ mapRemove m k) : p ∈ m := by
  induction m with
  | nil => cases h
  | cons q rest ih =>
    by_cases hq : q.1 = k
    · rw [mapRemove, if_pos hq] at h
      exact List.mem_cons_of_mem q (ih h)
    · rw [mapRemove, if_neg hq] at h
      rcases List.mem_cons.mp h with hh | hh
      · exact hh ▸ List.mem_cons_self q rest
      · exact List.mem_cons_of_mem q (ih hh)

theorem mem_lookup_of_some (m : List (String × Nat)) (k : String) (i : Nat)
    (h : mapLookup m k = some i) : ∃ p ∈ m, p.1 = k := by
  induction m with
  | nil => cases h
  | cons q rest ih =>
    by_cases hq : q.1 = k
    · exact ⟨q, List.mem_cons_self q rest, hq⟩
    · rw [mapLookup, if_neg hq] at h
      rcases ih h with ⟨w, hw, hwk⟩
      exact ⟨w, List.mem_cons_of_mem q hw, hwk⟩

theorem length_mapRemove_of_lookup_some (m : List (String × Nat)) (k : String)
    (i : Nat) (hnd : (m.map Prod.fst).Nodup) (h : mapLookup m k = some i) :
    (mapRemove m k).length + 1 = m.length := by
  induction m with
  | nil => cases h
  | cons p rest ih =>
    rw [List.map_cons, List.nodup_cons] at hnd
    by_cases hp : p.1 = k
    · have hrest : mapRemove rest k = rest := by
        apply mapRemove_of_lookup_none
        cases hl : mapLookup rest k with
        | none => rfl
        | some j =>
          exfalso
          rcases mem_lookup_of_some rest k j hl with ⟨q, hq, hqk⟩
          exact hnd.1 (hp ▸ hqk ▸ (List.mem_map_of_mem Prod.fst hq))
      rw [mapRemove, if_pos hp, hrest, List.length_cons]
    · rw [mapLookup, if_neg hp] at h
      rw [mapRemove, if_neg hp, List.length_cons, List.length_cons,
        ih hnd.2 h]

theorem keys_nodup_mapRemove (m : List (String × Nat)) (k : String)
    (hnd : (m.map Prod.fst).Nodup) : ((mapRemove m k).map Prod.fst).Nodup := by
  induction m with
  | nil => exact List.nodup_nil
  | cons p rest ih =>
    rw [List.map_cons, List.nodup_cons] at hnd
    by_cases hp : p.1 = k
    · rw [mapRemove, if_pos hp]
      exact ih hnd.2
    · rw [mapRemove, if_neg hp, List.map_cons, List.nodup_cons]
      refine ⟨?_, ih hnd.2⟩
      intro hmem
      rcases List.mem_map.mp hmem with ⟨q, hq, hqk⟩
      exact hnd.1 (hqk ▸ (List.mem_map_of_mem Prod.fst (mem_mapRemove rest k q hq)))

theorem not_mem_mapRemove_key (m : List (String × Nat)) (k : String)
    (q : String × Nat) (hq : q ∈ mapRemove m k) : q.1 ≠ k := by
  induction m with
  | nil => cases hq
  | cons p rest ih =>
    by_cases hp : p.1 = k
    · rw [mapRemove, if_pos hp] at hq
      exact ih hq
    · rw [mapRemove, if_neg hp] at hq
      rcases List.mem_cons.mp hq with hh | hh
      · exact hh ▸ hp
      · exact ih hh

theorem not_mem_keys_mapRemove (m : List (String × Nat)) (k : String) :
    k ∉ (mapRemove m k).map Prod.fst := by
  intro hmem
  rcases List.mem_map.mp hmem with ⟨q, hq, hqk⟩
  exact not_mem_mapRemove_key m k q hq hqk

theorem keys_nodup_mapInsert (m : List (String × Nat)) (k : String) (i : Nat)
    (hnd : (m.map Prod.fst).Nodup) : ((mapInsert m k i).map Prod.fst).Nodup := by
  rw [mapInsert, List.map_cons, List.nodup_cons]
  exact ⟨not_mem_keys_mapRemove m k, keys_nodup_mapRemove m k hnd⟩

/-! ### Reduction lemmas for the pieces of `push_front` -/

theorem attach_second_next_none (c : LruCache V) (ok0 : Option String)
    (hn : Node V) (hhead : NodeAt c.buffer c.head_index hn)
    (hnext : hn.next = none) :
    c.attach_second ok0 = .ok (c, c.head_index, ok0) := by
  have h1 : c.buffer[c.head_index]? = some (some hn) := hhead
  simp only [LruCache.attach_second, bufRead, h1, hnext]

theorem attach_second_next_some (c : LruCache V) (ok0 : Option String)
    (hn nj : Node V) (j : Nat) (hhead : NodeAt c.buffer c.head_index hn)
    (hnext : hn.next = some j) (hj : NodeAt c.buffer j nj) :
    c.attach_second ok0 = .ok
      ({ c with buffer := (c.buffer.set j
          (some { nj with previous := some c.head_index })) },
       c.head_index, ok0) := by
  have h1 : c.buffer[c.head_index]? = some (some hn) := hhead
  have h2 : c.buffer[j]? = some (some nj) := hj
  simp only [LruCache.attach_second, bufRead, h1, hnext, h2]

theorem attach_second_next_missing (c : LruCache V) (ok0 : Option String)
    (hn : Node V) (j : Nat) (hhead : NodeAt c.buffer c.head_index hn)
    (hnext : hn.next = some j) (hj : c.buffer[j]? = some none) :
    c.attach_second ok0 =
      .error "The next node should be a valid Node and not None." := by
  have h1 : c.buffer[c.head_index]? = some (some hn) := hhead
  simp only [LruCache.attach_second, bufRead, h1, hnext, hj]

theorem push_front_fill_reduce (c : LruCache V) (key : String) (value : V)
    (hlt : c.len < c.capacity) (hwb : c.len < c.buffer.length) :
    c.push_front key value =
      LruCache.attach_second
        { c with
          head_index := c.len
          len := c.len + 1
          buffer := c.buffer.set c.len (some (c.new_head_node key value)) }
        none := by
  rw [LruCache.push_front]
  simp only [bufWrite, if_pos hlt, if_pos hwb]

theorem push_front_pop_reduce (c : LruCache V) (key : String) (value : V)
    (idx : Nat) (rest : List Nat) (hge : ¬ c.len < c.capacity)
    (hfree : c.free = idx :: rest) (hidx : idx < c.buffer.length) :
    c.push_front key value =
      LruCache.attach_second
        { c with
          head_index := idx
          buffer := c.buffer.set idx (some (c.new_head_node key value))
          free := rest }
        none := by
  rw [LruCache.push_front]
  simp only [bufWrite, if_neg hge, hfree, if_pos hidx]

theorem push_front_evict_none_reduce (c : LruCache V) (key : String) (value : V)
    (tnode : Node V) (hge : ¬ c.len < c.capacity) (hfree : c.free = [])
    (ht : NodeAt c.buffer c.tail_index tnode) (hprev : tnode.previous = none) :
    c.push_front key value =
      LruCache.attach_second
        { c with
          head_index := c.tail_index
          buffer := c.buffer.set c.tail_index (some (c.new_head_node key value)) }
        (some tnode.key) := by
  have h1 : c.buffer[c.tail_index]? = some (some tnode) := ht
  have hlt : c.tail_index < c.buffer.length := nodeAt_lt_length _ _ _ ht
  rw [LruCache.push_front]
  simp only [bufWrite, bufRead, if_neg hge, hfree, h1, hprev, hlt, if_pos]
  rfl

theorem push_front_evict_some_reduce (c : LruCache V) (key : String) (value : V)
    (tnode mnode : Node V) (m : Nat) (hge : ¬ c.len < c.capacity)
    (hfree : c.free = []) (ht : NodeAt c.buffer c.tail_index tnode)
    (hprev : tnode.previous = some m) (hm : NodeAt c.buffer m mnode) :
    c.push_front key value =
      LruCache.attach_second
        { c with
          head_index := c.tail_index
          tail_index := m
          buffer := ((c.buffer.set m (some { mnode with next := none })).set
            c.tail_index (some (c.new_head_node key value))) }
        (some tnode.key) := by
  have h1 : c.buffer[c.tail_index]? = some (some tnode) := ht
  have h2 : c.buffer[m]? = some (some mnode) := hm
  have hlt : c.tail_index < c.buffer.length := nodeAt_lt_length _ _ _ ht
  have hlt2 : c.tail_index < (c.buffer.set m (some { mnode with next := none })).length := by
    simpa using hlt
  have hcur : (c.buffer.set m (some { mnode with next := none }))[c.tail_index]? =
      some (some (if m = c.tail_index then { mnode with next := none } else tnode)) := by
    by_cases hmt : m = c.tail_index
    · rw [if_pos hmt, hmt, List.getElem?_set_self (by simpa using hlt)]
    · rw [if_neg hmt, List.getElem?_set_ne hmt, h1]
  have hkey : (if m = c.tail_index then { mnode with next := none } else tnode).key
      = tnode.key := by
    by_cases hmt : m = c.tail_index
    · rw [if_pos hmt]
      have hmn : mnode = tnode := by
        have h3 := hm
        rw [NodeAt, hmt, h1] at h3
        injection h3 with h4
        injection h4 with h5
        exact h5.symm
      rw [hmn]
    · rw [if_neg hmt]
  rw [LruCache.push_front]
  simp only [bufWrite, bufRead, if_neg hge, hfree, h1, hprev, h2, hcur,
    if_pos hlt2]
  rw [show (Option.map (fun n => n.key) (some (if m = c.tail_index then { mnode with next := none } else tnode))) = some tnode.key from by simp only [Option.map]; rw [hkey]]

/-! ### The key-index/occupancy invariant

This invariant holds in every reachable state, including the states whose
recency links have been corrupted by `get` (see the theorems about stale
`head_index`/`tail_index` below); it speaks only about the key index, slot
occupancy, the free stack, and bounds of stored links. -/

structure MapInv (c : LruCache V) : Prop where
  buf_cap : c.buffer.length = c.capacity
  len_le : c.len ≤ c.capacity
  map_occ : ∀ k i, mapLookup c.map k = some i → keyAt c.buffer i = some k
  occ_map : ∀ i node, NodeAt c.buffer i node → mapLookup c.map node.key = some i
  keys_nd : (c.map.map Prod.fst).Nodup
  occ_lt : ∀ i node, NodeAt c.buffer i node → i < c.len
  free_lt : ∀ i, i ∈ c.free → i < c.len
  free_empty : ∀ i, i ∈ c.free → c.buffer[i]? = some none
  free_nd : c.free.Nodup
  parti : ∀ i, i < c.len → (∃ node, NodeAt c.buffer i node) ∨ i ∈ c.free
  count : c.map.length + c.free.length = c.len
  link_prev : ∀ i node j, NodeAt c.buffer i node → node.previous = some j →
    j < c.buffer.length
  link_next : ∀ i node j, NodeAt c.buffer i node → node.next = some j →
    j < c.buffer.length
  head_occ : 0 < c.len → ∃ node, NodeAt c.buffer c.head_index node
  tail_lt : 0 < c.len → c.tail_index < c.buffer.length
  len0_tail : c.len = 0 → c.tail_index = 0

theorem nodeAt_unique (buf : List (Option (Node V))) (i : Nat)
    (n1 n2 : Node V) (h1 : NodeAt buf i n1) (h2 : NodeAt buf i n2) : n1 = n2 := by
  rw [NodeAt] at h1 h2
  rw [h1] at h2
  injection h2 with h3
  injection h3

theorem not_nodeAt_of_none (buf : List (Option (Node V))) (i : Nat)
    (h : buf[i]? = some none) (node : Node V) : ¬ NodeAt buf i node := by
  intro hn
  rw [NodeAt, h] at hn
  injection hn with h3
  exact Option.noConfusion h3

theorem mapInv_new (V : Type) (size : Nat) : MapInv (LruCache.new V size) := by
  have hb : ∀ i node, ¬ NodeAt (LruCache.new V size).buffer i node := by
    intro i node h
    rw [NodeAt] at h
    by_cases hi : i < size
    · rw [show (LruCache.new V size).buffer = List.replicate size none from rfl,
        List.getElem?_replicate, if_pos hi] at h
      injection h with h3
      exact Option.noConfusion h3
    · rw [show (LruCache.new V size).buffer = List.replicate size none from rfl,
        List.getElem?_eq_none (by simpa using hi)] at h
      exact Option.noConfusion h
  refine ⟨?_, ?_, ?_, ?_, ?_, ?_, ?_, ?_, ?_, ?_, ?_, ?_, ?_, ?_, ?_, ?_⟩
  · simp [LruCache.new]
  · simp [LruCache.new]
  · intro k i h
    cases h
  · intro i node h
    exact absurd h (hb i node)
  · exact List.nodup_nil
  · intro i node h
    exact absurd h (hb i node)
  · intro i h
    cases h
  · intro i h
    cases h
  · exact List.nodup_nil
  · intro i h
    cases h
  · rfl
  · intro i node j h
    exact absurd h (hb i node)
  · intro i node j h
    exact absurd h (hb i node)
  · intro h
    cases h
  · intro h
    cases h
  · intro h
    rfl

/-! ### Effect of `remove` -/

/-- `buf1` is `buf` with slot `S` cleared and, possibly, some still-occupied
slots relinked: their keys and values are untouched while their links may
have been rewritten to `none` or to the spare links `pl`/`nl` of the removed
node. -/
def RemovedBuf (buf buf1 : List (Option (Node V))) (S : Nat)
    (pl nl : Option Nat) : Prop :=
  buf1.length = buf.length ∧
  buf1[S]? = some none ∧
  (∀ j, j ≠ S → keyAt buf1 j = keyAt buf j) ∧
  (∀ j, j ≠ S → valAt buf1 j = valAt buf j) ∧
  (∀ j, j ≠ S → (buf1[j]? = some none ↔ buf[j]? = some none)) ∧
  (∀ j node1, NodeAt buf1 j node1 → ∃ node0, NodeAt buf j node0 ∧
     node1.key = node0.key ∧ node1.value = node0.value ∧
     (node1.previous = node0.previous ∨ node1.previous = none ∨
       node1.previous = pl) ∧
     (node1.next = node0.next ∨ node1.next = none ∨ node1.next = nl))

theorem removedBuf_base (buf : List (Option (Node V))) (S : Nat)
    (pl nl : Option Nat) (hS : S < buf.length) :
    RemovedBuf buf (buf.set S none) S pl nl := by
  refine ⟨by simp, ?_, ?_, ?_, ?_, ?_⟩
  · rw [List.getElem?_set_self (by simpa using hS)]
  · intro j hj
    exact keyAt_set_ne buf S j none (fun h => hj h.symm)
  · intro j hj
    exact valAt_set_ne buf S j none (fun h => hj h.symm)
  · intro j hj
    rw [List.getElem?_set_ne (fun h => hj h.symm)]
  · intro j node1 h
    have hne : S ≠ j := by
      intro hh
      subst hh
      exact not_nodeAt_of_none _ _ (List.getElem?_set_self (by simpa using hS)) _ h
    rw [nodeAt_set_ne _ _ _ _ _ hne] at h
    exact ⟨node1, h, rfl, rfl, Or.inl rfl, Or.inl rfl⟩

theorem removedBuf_step (buf buf1 : List (Option (Node V))) (S : Nat)
    (pl nl : Option Nat) (h : RemovedBuf buf buf1 S pl nl) (j : Nat)
    (jn upd : Node V) (hj : NodeAt buf1 j jn) (hkey : upd.key = jn.key)
    (hval : upd.value = jn.value)
    (hprev : upd.previous = jn.previous ∨ upd.previous = none ∨ upd.previous = pl)
    (hnext : upd.next = jn.next ∨ upd.next = none ∨ upd.next = nl) :
    RemovedBuf buf (buf1.set j (some upd)) S pl nl := by
  obtain ⟨hlen, hsS, hkeys, hvals, hocc, hdesc⟩ := h
  have hjS : j ≠ S := by
    intro hh
    subst hh
    exact not_nodeAt_of_none _ _ hsS _ hj
  have hjlt : j < buf1.length := nodeAt_lt_length _ _ _ hj
  refine ⟨by simpa using hlen, ?_, ?_, ?_, ?_, ?_⟩
  · rw [List.getElem?_set_ne hjS]
    exact hsS
  · intro j' hj'
    by_cases hjj : j' = j
    · subst hjj
      rw [keyAt_set_self _ _ _ hjlt, hkey, ← hkeys j' hj']
      exact (keyAt_of_nodeAt _ _ _ hj).symm
    · rw [keyAt_set_ne _ _ _ _ (fun hh => hjj hh.symm), hkeys j' hj']
  · intro j' hj'
    by_cases hjj : j' = j
    · subst hjj
      rw [valAt_set_self _ _ _ hjlt, hval, ← hvals j' hj']
      exact (valAt_of_nodeAt _ _ _ hj).symm
    · rw [valAt_set_ne _ _ _ _ (fun hh => hjj hh.symm), hvals j' hj']
  · intro j' hj'
    by_cases hjj : j' = j
    · subst hjj
      rw [List.getElem?_set_self (by simpa using hjlt)]
      constructor
      · intro hh
        injection hh with hh2
        exact Option.noConfusion hh2
      · intro hh
        exfalso
        exact not_nodeAt_of_none _ _ ((hocc j' hj').mpr hh) _ hj
    · rw [List.getElem?_set_ne (fun hh => hjj hh.symm)]
      exact hocc j' hj'
  · intro j' node1 h1
    by_cases hjj : j' = j
    · rw [hjj] at h1 ⊢
      have hupd : node1 = upd :=
        nodeAt_unique _ _ _ _ h1 (nodeAt_set_self _ _ _ hjlt)
      subst hupd
      rcases hdesc j jn hj with ⟨node0, hn0, hk0, hv0, hp0, hn0x⟩
      refine ⟨node0, hn0, hkey.trans hk0, hval.trans hv0, ?_, ?_⟩
      · rcases hprev with hh | hh | hh
        · rw [hh]
          exact hp0
        · exact Or.inr (Or.inl hh)
        · exact Or.inr (Or.inr hh)
      · rcases hnext with hh | hh | hh
        · rw [hh]
          exact hn0x
        · exact Or.inr (Or.inl hh)
        · exact Or.inr (Or.inr hh)
    · rw [nodeAt_set_ne _ _ _ _ _ (fun hh => hjj hh.symm)] at h1
      exact hdesc j' node1 h1

theorem removedBuf_occ (buf buf1 : List (Option (Node V))) (S : Nat)
    (pl nl : Option Nat) (h : RemovedBuf buf buf1 S pl nl) (j : Nat)
    (n0 : Node V) (hj : NodeAt buf j n0) (hne : j ≠ S) :
    ∃ n1, NodeAt buf1 j n1 ∧ n1.key = n0.key ∧ n1.value = n0.value := by
  obtain ⟨hlen, hsS, hkeys, hvals, hocc, hdesc⟩ := h
  have hjlt : j < buf1.length := by
    rw [hlen]
    exact nodeAt_lt_length _ _ _ hj
  rcases List.getElem?_eq_some_iff.mpr ⟨hjlt, rfl⟩ with hsome
  cases hs : buf1[j]? with
  | none =>
    exfalso
    rw [List.getElem?_eq_none_iff] at hs
    omega
  | some s =>
    cases s with
    | none =>
      exfalso
      exact not_nodeAt_of_none _ _ ((hocc j hne).mp hs) _ hj
    | some n1 =>
      have h1 : NodeAt buf1 j n1 := hs
      have hk := hkeys j hne
      rw [keyAt_of_nodeAt _ _ _ h1, keyAt_of_nodeAt _ _ _ hj] at hk
      have hv := hvals j hne
      rw [valAt_of_nodeAt _ _ _ h1, valAt_of_nodeAt _ _ _ hj] at hv
      injection hk with hk2
      injection hv with hv2
      exact ⟨n1, h1, hk2, hv2⟩

theorem remove_spec (c : LruCache V) (S : Nat) (node : Node V)
    (inv : MapInv c) (hS : NodeAt c.buffer S node) :
    ∃ c1, c.remove S = .ok (c1, some (node.key, node.value)) ∧
      c1.map = c.map ∧ c1.len = c.len ∧ c1.capacity = c.capacity ∧
      c1.head_index = c.head_index ∧ c1.tail_index = c.tail_index ∧
      c1.free = S :: c.free ∧
      RemovedBuf c.buffer c1.buffer S node.previous node.next := by
  have hlt : S < c.buffer.length := nodeAt_lt_length _ _ _ hS
  have hread : c.buffer[S]? = some (some node) := hS
  have hbase : RemovedBuf c.buffer (c.buffer.set S none) S
      node.previous node.next := removedBuf_base _ _ _ _ hlt
  have hSempty : (c.buffer.set S none)[S]? = some none :=
    List.getElem?_set_self (by simpa using hlt)
  cases hprev : node.previous with
  | none =>
    rw [hprev] at hbase
    cases hnext : node.next with
    | none =>
      rw [hnext] at hbase
      refine ⟨{ c with buffer := c.buffer.set S none, free := S :: c.free },
        ?_, rfl, rfl, rfl, rfl, rfl, rfl, hbase⟩
      simp only [LruCache.remove, bufRead, hread, LruCache.get_node, hprev, hnext]
    | some nj =>
      rw [hnext] at hbase
      have hnjlt : nj < c.buffer.length := inv.link_next S node nj hS hnext
      by_cases hnjS : nj = S
      · refine ⟨{ c with buffer := c.buffer.set S none, free := S :: c.free },
          ?_, rfl, rfl, rfl, rfl, rfl, rfl, hbase⟩
        have hnj : (c.buffer.set S none)[nj]? = some none := by
          rw [hnjS]
          exact hSempty
        simp only [LruCache.remove, bufRead, hread, LruCache.get_node, hprev,
          hnext, hnj]
      · cases hnjv : (c.buffer.set S none)[nj]? with
        | none =>
          exfalso
          rw [List.getElem?_eq_none_iff] at hnjv
          simp at hnjv
          omega
        | some s =>
          cases s with
          | none =>
            refine ⟨{ c with buffer := c.buffer.set S none, free := S :: c.free },
              ?_, rfl, rfl, rfl, rfl, rfl, rfl, hbase⟩
            simp only [LruCache.remove, bufRead, hread, LruCache.get_node, hprev,
              hnext, hnjv]
          | some nn =>
            refine ⟨{ c with
                buffer := ((c.buffer.set S none).set nj
                  (some { nn with previous := none }))
                free := S :: c.free },
              ?_, rfl, rfl, rfl, rfl, rfl, rfl, ?_⟩
            · simp only [LruCache.remove, bufRead, hread, LruCache.get_node,
                hprev, hnext, hnjv]
            · exact removedBuf_step _ _ _ _ _ hbase nj nn _ hnjv rfl rfl
                (Or.inr (Or.inl rfl)) (Or.inl rfl)
  | some pj =>
    rw [hprev] at hbase
    have hpjlt : pj < c.buffer.length := inv.link_prev S node pj hS hprev
    have hpjv0 : (c.buffer.set S none)[pj]? = some none ∨
        ∃ pn, (c.buffer.set S none)[pj]? = some (some pn) := by
      by_cases hpjS : pj = S
      · exact Or.inl (by rw [hpjS]; exact hSempty)
      · cases hv : (c.buffer.set S none)[pj]? with
        | none =>
          exfalso
          rw [List.getElem?_eq_none_iff] at hv
          simp at hv
          omega
        | some s =>
          cases s with
          | none => exact Or.inl rfl
          | some pn => exact Or.inr ⟨pn, rfl⟩
    cases hnext : node.next with
    | none =>
      rw [hnext] at hbase
      rcases hpjv0 with hpjv | ⟨pn, hpjv⟩
      · refine ⟨{ c with buffer := c.buffer.set S none, free := S :: c.free },
          ?_, rfl, rfl, rfl, rfl, rfl, rfl, hbase⟩
        simp only [LruCache.remove, bufRead, hread, LruCache.get_node, hprev,
          hnext, hpjv]
      · refine ⟨{ c with
            buffer := ((c.buffer.set S none).set pj
              (some { pn with next := none }))
            free := S :: c.free },
          ?_, rfl, rfl, rfl, rfl, rfl, rfl, ?_⟩
        · simp only [LruCache.remove, bufRead, hread, LruCache.get_node, hprev,
            hnext, hpjv]
        · exact removedBuf_step _ _ _ _ _ hbase pj pn _ hpjv rfl rfl
            (Or.inl rfl) (Or.inr (Or.inl rfl))
    | some nj =>
      rw [hnext] at hbase
      have hnjlt : nj < c.buffer.length := inv.link_next S node nj hS hnext
      have hnjv0 : (c.buffer.set S none)[nj]? = some none ∨
          ∃ nn, (c.buffer.set S none)[nj]? = some (some nn) := by
        by_cases hnjS : nj = S
        · exact Or.inl (by rw [hnjS]; exact hSempty)
        · cases hv : (c.buffer.set S none)[nj]? with
          | none =>
            exfalso
            rw [List.getElem?_eq_none_iff] at hv
            simp at hv
            omega
          | some s =>
            cases s with
            | none => exact Or.inl rfl
            | some nn => exact Or.inr ⟨nn, rfl⟩
      rcases hpjv0 with hpjv | ⟨pn, hpjv⟩
      · rcases hnjv0 with hnjv | ⟨nn, hnjv⟩
        · refine ⟨{ c with buffer := c.buffer.set S none, free := S :: c.free },
            ?_, rfl, rfl, rfl, rfl, rfl, rfl, hbase⟩
          simp only [LruCache.remove, bufRead, hread, LruCache.get_node, hprev,
            hnext, hpjv, hnjv]
        · refine ⟨{ c with
              buffer := ((c.buffer.set S none).set nj
                (some { nn with previous := none }))
              free := S :: c.free },
            ?_, rfl, rfl, rfl, rfl, rfl, rfl, ?_⟩
          · simp only [LruCache.remove, bufRead, hread, LruCache.get_node, hprev,
              hnext, hpjv, hnjv]
          · exact removedBuf_step _ _ _ _ _ hbase nj nn _ hnjv rfl rfl
              (Or.inr (Or.inl rfl)) (Or.inl rfl)
      · rcases hnjv0 with hnjv | ⟨nn, hnjv⟩
        · refine ⟨{ c with
              buffer := ((c.buffer.set S none).set pj
                (some { pn with next := none }))
              free := S :: c.free },
            ?_, rfl, rfl, rfl, rfl, rfl, rfl, ?_⟩
          · simp only [LruCache.remove, bufRead, hread, LruCache.get_node, hprev,
              hnext, hpjv, hnjv]
          · exact removedBuf_step _ _ _ _ _ hbase pj pn _ hpjv rfl rfl
              (Or.inl rfl) (Or.inr (Or.inl rfl))
        · have hs2 : ∀ s2, ((c.buffer.set S none).set pj
              (some { pn with next := some nj }))[nj]? = s2 →
              (nj = pj → s2 = some (some { pn with next := some nj })) ∧
              (nj ≠ pj → s2 = some (some nn)) := by
            intro s2 hs2v
            constructor
            · intro hnp
              rw [← hs2v, hnp, List.getElem?_set_self (by simpa using hpjlt)]
            · intro hnp
              rw [← hs2v, List.getElem?_set_ne (fun hh => hnp hh.symm), hnjv]
          by_cases hnp : nj = pj
          · have hs2v := (hs2 _ rfl).1 hnp
            refine ⟨{ c with
                buffer := (((c.buffer.set S none).set pj
                  (some { pn with next := some nj })).set nj
                  (some (Node.mk (some pj) (some nj) pn.key pn.value)))
                free := S :: c.free },
              ?_, rfl, rfl, rfl, rfl, rfl, rfl, ?_⟩
            · simp only [LruCache.remove, bufRead, hread, LruCache.get_node,
                hprev, hnext, hpjv, hnjv, hs2v]
            · refine removedBuf_step _ _ _ _ _ ?_ nj _ _ hs2v rfl rfl
                (Or.inr (Or.inr rfl)) (Or.inl rfl)
              exact removedBuf_step _ _ _ _ _ hbase pj pn _ hpjv rfl rfl
                (Or.inl rfl) (Or.inr (Or.inr rfl))
          · have hs2v := (hs2 _ rfl).2 hnp
            refine ⟨{ c with
                buffer := (((c.buffer.set S none).set pj
                  (some { pn with next := some nj })).set nj
                  (some { nn with previous := some pj }))
                free := S :: c.free },
              ?_, rfl, rfl, rfl, rfl, rfl, rfl, ?_⟩
            · simp only [LruCache.remove, bufRead, hread, LruCache.get_node,
                hprev, hnext, hpjv, hnjv, hs2v]
            · refine removedBuf_step _ _ _ _ _ ?_ nj nn _ hs2v rfl rfl
                (Or.inr (Or.inr rfl)) (Or.inl rfl)
              exact removedBuf_step _ _ _ _ _ hbase pj pn _ hpjv rfl rfl
                (Or.inl rfl) (Or.inr (Or.inr rfl))

/-! ### Effect of `set` on an existing key -/

theorem set_existing_eq (c : LruCache V) (k : String) (v : V) (i : Nat)
    (inv : MapInv c) (hk : mapLookup c.map k = some i) :
    ∃ node, NodeAt c.buffer i node ∧ node.key = k ∧
      c.set k v = .ok
        { c with buffer := c.buffer.set i (some { node with value := v }) } := by
  have hkey := inv.map_occ k i hk
  rcases (keyAt_eq_some_iff _ _ _).mp hkey with ⟨node, hn, hkeq⟩
  refine ⟨node, hn, hkeq, ?_⟩
  have hrd : c.buffer[i]? = some (some node) := hn
  simp only [LruCache.set, hk, Option.isSome_some, if_pos,
    LruCache.replace_at_index, bufRead, hrd]

theorem mapInv_replace_value (c : LruCache V) (i : Nat) (node : Node V) (v : V)
    (inv : MapInv c) (hn : NodeAt c.buffer i node) :
    MapInv { c with buffer := c.buffer.set i (some { node with value := v }) } := by
  have hilt : i < c.buffer.length := nodeAt_lt_length _ _ _ hn
  have hdesc : ∀ j node1,
      NodeAt (c.buffer.set i (some { node with value := v })) j node1 →
      (j = i ∧ node1 = { node with value := v }) ∨ (j ≠ i ∧ NodeAt c.buffer j node1) := by
    intro j node1 h1
    by_cases hj : j = i
    · subst hj
      exact Or.inl ⟨rfl, nodeAt_unique _ _ _ _ h1 (nodeAt_set_self _ _ _ hilt)⟩
    · rw [nodeAt_set_ne _ _ _ _ _ (fun hh => hj hh.symm)] at h1
      exact Or.inr ⟨hj, h1⟩
  have hkeys : ∀ j, keyAt (c.buffer.set i (some { node with value := v })) j =
      keyAt c.buffer j := by
    intro j
    by_cases hj : j = i
    · subst hj
      rw [keyAt_set_self _ _ _ hilt, keyAt_of_nodeAt _ _ _ hn]
    · exact keyAt_set_ne _ _ _ _ (fun hh => hj hh.symm)
  refine ⟨by simpa using inv.buf_cap, inv.len_le, ?_, ?_, inv.keys_nd, ?_, ?_,
    ?_, inv.free_nd, ?_, ?_, ?_, ?_, ?_, ?_, ?_⟩
  · intro k' i' h'
    rw [hkeys]
    exact inv.map_occ k' i' h'
  · intro j node1 h1
    rcases hdesc j node1 h1 with ⟨hji, hnv⟩ | ⟨hji, h2⟩
    · subst hji
      rw [hnv]
      exact inv.occ_map j node hn
    · exact inv.occ_map j node1 h2
  · intro j node1 h1
    rcases hdesc j node1 h1 with ⟨hji, _⟩ | ⟨_, h2⟩
    · subst hji
      exact inv.occ_lt j node hn
    · exact inv.occ_lt j node1 h2
  · exact inv.free_lt
  · intro j hj
    have hji : j ≠ i := by
      intro hh
      exact not_nodeAt_of_none _ _ (hh ▸ inv.free_empty j hj) _ hn
    rw [List.getElem?_set_ne (fun hh => hji hh.symm)]
    exact inv.free_empty j hj
  · intro j hj
    rcases inv.parti j hj with ⟨node0, h0⟩ | hf
    · by_cases hji : j = i
      · subst hji
        exact Or.inl ⟨_, nodeAt_set_self _ _ _ hilt⟩
      · exact Or.inl ⟨node0, (nodeAt_set_ne _ _ _ _ _ (fun hh => hji hh.symm)).mpr h0⟩
    · exact Or.inr hf
  · exact inv.count
  · intro j node1 l h1 hl
    have hlen : (c.buffer.set i (some { node with value := v })).length =
        c.buffer.length := by simp
    rw [hlen]
    rcases hdesc j node1 h1 with ⟨_, hnv⟩ | ⟨_, h2⟩
    · refine inv.link_prev i node l hn ?_
      rw [hnv] at hl
      exact hl
    · exact inv.link_prev j node1 l h2 hl
  · intro j node1 l h1 hl
    have hlen : (c.buffer.set i (some { node with value := v })).length =
        c.buffer.length := by simp
    rw [hlen]
    rcases hdesc j node1 h1 with ⟨_, hnv⟩ | ⟨_, h2⟩
    · refine inv.link_next i node l hn ?_
      rw [hnv] at hl
      exact hl
    · exact inv.link_next j node1 l h2 hl
  · intro hlen
    rcases inv.head_occ hlen with ⟨node0, h0⟩
    by_cases hji : c.head_index = i
    · exact ⟨_, by rw [show ({ c with buffer := c.buffer.set i (some { node with value := v }) } : LruCache V).head_index = c.head_index from rfl, hji]; exact nodeAt_set_self _ _ _ hilt⟩
    · exact ⟨node0, (nodeAt_set_ne _ _ _ _ _ (fun hh => hji hh.symm)).mpr h0⟩
  · intro hlen
    have := inv.tail_lt hlen
    simpa using this
  · exact inv.len0_tail

/-! ### Slot lookup after one, two or three writes -/

theorem getElem?_writes2 (buf : List (Option (Node V))) (a b : Nat)
    (sa sb : Option (Node V)) (ha : a < buf.length) (hb : b < buf.length)
    (j : Nat) :
    ((buf.set a sa).set b sb)[j]? =
      if j = b then some sb else if j = a then some sa else buf[j]? := by
  by_cases hjb : j = b
  · rw [if_pos hjb, hjb, List.getElem?_set_self (by simpa using hb)]
  · rw [if_neg hjb, List.getElem?_set_ne (fun hh => hjb hh.symm)]
    by_cases hja : j = a
    · rw [if_pos hja, hja, List.getElem?_set_self (by simpa using ha)]
    · rw [if_neg hja, List.getElem?_set_ne (fun hh => hja hh.symm)]

theorem getElem?_writes3 (buf : List (Option (Node V))) (a b d : Nat)
    (sa sb sd : Option (Node V)) (ha : a < buf.length) (hb : b < buf.length)
    (hd : d < buf.length) (j : Nat) :
    (((buf.set a sa).set b sb).set d sd)[j]? =
      if j = d then some sd
      else if j = b then some sb
      else if j = a then some sa
      else buf[j]? := by
  by_cases hjd : j = d
  · rw [if_pos hjd, hjd, List.getElem?_set_self (by simpa using hd)]
  · rw [if_neg hjd, List.getElem?_set_ne (fun hh => hjd hh.symm),
      getElem?_writes2 buf a b sa sb ha hb j]

/-- Restates the `MapInv` constructor for a fully explicit record; every
hypothesis is one invariant clause. -/
theorem mapInv_build (MN : List (String × Nat)) (B : List (Option (Node V)))
    (hI tI L C : Nat) (F : List Nat)
    (h1 : B.length = C) (h2 : L ≤ C)
    (h3 : ∀ k i, mapLookup MN k = some i → keyAt B i = some k)
    (h4 : ∀ i node, NodeAt B i node → mapLookup MN node.key = some i)
    (h5 : (MN.map Prod.fst).Nodup)
    (h6 : ∀ i node, NodeAt B i node → i < L)
    (h7 : ∀ i, i ∈ F → i < L)
    (h8 : ∀ i, i ∈ F → B[i]? = some none)
    (h9 : F.Nodup)
    (h10 : ∀ i, i < L → (∃ node, NodeAt B i node) ∨ i ∈ F)
    (h11 : MN.length + F.length = L)
    (h12 : ∀ i node j, NodeAt B i node → node.previous = some j → j < B.length)
    (h13 : ∀ i node j, NodeAt B i node → node.next = some j → j < B.length)
    (h14 : 0 < L → ∃ node, NodeAt B hI node)
    (h15 : 0 < L → tI < B.length)
    (h16 : L = 0 → tI = 0) :
    MapInv { map := MN, buffer := B, head_index := hI, tail_index := tI,
             len := L, capacity := C, free := F } :=
  ⟨h1, h2, h3, h4, h5, h6, h7, h8, h9, h10, h11, h12, h13, h14, h15, h16⟩

/-! ### Effect of `set` on a fresh key -/

theorem set_fresh_reduce_none (c : LruCache V) (k : String) (v : V)
    (hk : mapLookup c.map k = none) (c1 : LruCache V) (ni : Nat)
    (hpf : c.push_front k v = .ok (c1, ni, none)) :
    c.set k v = .ok { c1 with map := mapInsert c1.map k ni } := by
  rw [LruCache.set, if_neg (by rw [hk]; simp)]
  rw [hpf]

theorem set_fresh_reduce_some (c : LruCache V) (k : String) (v : V)
    (hk : mapLookup c.map k = none) (c1 : LruCache V) (ni : Nat) (dk : String)
    (hpf : c.push_front k v = .ok (c1, ni, some dk)) :
    c.set k v = .ok { c1 with map := mapRemove (mapInsert c1.map k ni) dk } := by
  rw [LruCache.set, if_neg (by rw [hk]; simp)]
  rw [hpf]

theorem length_mapInsert_fresh (m : List (String × Nat)) (k : String) (i : Nat)
    (hk : mapLookup m k = none) : (mapInsert m k i).length = m.length + 1 := by
  rw [mapInsert, List.length_cons, mapRemove_of_lookup_none m k hk]

theorem set_fresh_fill_spec (c : LruCache V) (k : String) (v : V)
    (inv : MapInv c) (hk : mapLookup c.map k = none) (hlt : c.len < c.capacity) :
    ∃ c', c.set k v = .ok c' ∧ MapInv c' ∧
      c'.len = c.len + 1 ∧ c'.free = c.free ∧ c'.capacity = c.capacity ∧
      c'.head_index = c.len ∧
      mapLookup c'.map k = some c.len ∧
      (∀ q, q ≠ k → mapLookup c'.map q = mapLookup c.map q) ∧
      keyAt c'.buffer c.len = some k ∧ valAt c'.buffer c.len = some v ∧
      (∀ j, j ≠ c.len → keyAt c'.buffer j = keyAt c.buffer j) := by
  have hwb : c.len < c.buffer.length := by
    rw [inv.buf_cap]
    exact hlt
  have hlkq : ∀ q, q ≠ k →
      mapLookup (mapInsert c.map k c.len) q = mapLookup c.map q := by
    intro q hq
    exact mapLookup_insert_ne c.map k q c.len hq
  have hcnt : (mapInsert c.map k c.len).length + c.free.length = c.len + 1 := by
    rw [length_mapInsert_fresh c.map k c.len hk]
    have := inv.count
    omega
  by_cases h0 : c.len = 0
  · -- the cache is empty: the new node has no next link
    have hm0 : c.map = [] := by
      have := inv.count
      have hl : c.map.length = 0 := by omega
      exact List.length_eq_zero.mp hl
    have hnn : c.new_head_node k v = ⟨none, none, k, v⟩ := by
      rw [LruCache.new_head_node, if_pos h0]
    have hred := push_front_fill_reduce c k v hlt hwb
    rw [hnn] at hred
    have hat := attach_second_next_none
      { c with
        head_index := c.len
        len := c.len + 1
        buffer := c.buffer.set c.len (some ⟨none, none, k, v⟩) }
      none ⟨none, none, k, v⟩ (nodeAt_set_self _ _ _ hwb) rfl
    have hpf : c.push_front k v = .ok
        ({ c with
           head_index := c.len
           len := c.len + 1
           buffer := c.buffer.set c.len (some ⟨none, none, k, v⟩) },
         c.len, none) := by
      rw [hred, hat]
    have hset := set_fresh_reduce_none c k v hk _ _ hpf
    refine ⟨_, hset, ?_, rfl, rfl, rfl, rfl, mapLookup_insert_self _ _ _,
      hlkq, keyAt_set_self _ _ _ hwb, valAt_set_self _ _ _ hwb, ?_⟩
    · have hdesc : ∀ j n1,
          NodeAt (c.buffer.set c.len (some ⟨none, none, k, v⟩)) j n1 →
          j = c.len ∧ n1 = ⟨none, none, k, v⟩ := by
        intro j n1 h1
        by_cases hj : j = c.len
        · subst hj
          exact ⟨rfl, nodeAt_unique _ _ _ _ h1 (nodeAt_set_self _ _ _ hwb)⟩
        · rw [nodeAt_set_ne _ _ _ _ _ (fun hh => hj hh.symm)] at h1
          exact absurd (inv.occ_lt j n1 h1) (by omega)
      refine mapInv_build (mapInsert c.map k c.len)
        (c.buffer.set c.len (some ⟨none, none, k, v⟩)) c.len c.tail_index
        (c.len + 1) c.capacity c.free (by simpa using inv.buf_cap)
        (by omega) ?_ ?_ (keys_nodup_mapInsert _ _ _ inv.keys_nd) ?_ ?_ ?_
        inv.free_nd ?_ hcnt ?_ ?_ ?_ ?_ (by omega)
      · intro q i hq
        by_cases hqk : q = k
        · subst hqk
          rw [mapLookup_insert_self] at hq
          injection hq with hq2
          subst hq2
          rw [keyAt_set_self _ _ _ hwb]
        · rw [hlkq q hqk, hm0] at hq
          cases hq
      · intro j n1 h1
        rcases hdesc j n1 h1 with ⟨hj, hv⟩
        subst hj
        rw [hv]
        exact mapLookup_insert_self _ _ _
      · intro j n1 h1
        rcases hdesc j n1 h1 with ⟨hj, _⟩
        omega
      · intro i hi
        have := inv.free_lt i hi
        omega
      · intro i hi
        have hne : i ≠ c.len := by
          have := inv.free_lt i hi
          omega
        rw [List.getElem?_set_ne (fun hh => hne hh.symm)]
        exact inv.free_empty i hi
      · intro i hi
        by_cases hic : i = c.len
        · subst hic
          exact Or.inl ⟨_, nodeAt_set_self _ _ _ hwb⟩
        · rcases inv.parti i (by omega) with ⟨n0, hn0⟩ | hf
          · exact Or.inl ⟨n0, (nodeAt_set_ne _ _ _ _ _ (fun hh => hic hh.symm)).mpr hn0⟩
          · exact Or.inr hf
      · intro i n1 j h1 hl
        rcases hdesc i n1 h1 with ⟨_, hv⟩
        rw [hv] at hl
        cases hl
      · intro i n1 j h1 hl
        rcases hdesc i n1 h1 with ⟨_, hv⟩
        rw [hv] at hl
        cases hl
      · intro _
        exact ⟨_, nodeAt_set_self _ _ _ hwb⟩
      · intro _
        rw [inv.len0_tail h0]
        simpa using Nat.lt_of_lt_of_le (by omega : 0 < c.len + 1)
          (le_trans (by omega) (le_of_eq inv.buf_cap.symm))
    · intro j hj
      exact keyAt_set_ne _ _ _ _ (fun hh => hj hh.symm)
  · -- the cache is non-empty: the new node points at the old head slot
    rcases inv.head_occ (Nat.pos_of_ne_zero h0) with ⟨hn, hhn⟩
    have hhlt : c.head_index < c.buffer.length := nodeAt_lt_length _ _ _ hhn
    have hhlen : c.head_index < c.len := inv.occ_lt _ _ hhn
    have hhne : c.head_index ≠ c.len := by omega
    have hkne : hn.key ≠ k := by
      intro hh
      have := inv.occ_map _ _ hhn
      rw [hh, hk] at this
      cases this
    have hnn : c.new_head_node k v = ⟨none, some c.head_index, k, v⟩ := by
      rw [LruCache.new_head_node, if_neg h0]
    have hred := push_front_fill_reduce c k v hlt hwb
    rw [hnn] at hred
    have hat := attach_second_next_some
      { c with
        head_index := c.len
        len := c.len + 1
        buffer := c.buffer.set c.len (some ⟨none, some c.head_index, k, v⟩) }
      none ⟨none, some c.head_index, k, v⟩ hn c.head_index
      (nodeAt_set_self _ _ _ hwb) rfl
      ((nodeAt_set_ne _ _ _ _ _ (fun hh => hhne hh.symm)).mpr hhn)
    have hpf : c.push_front k v = .ok
        ({ c with
           head_index := c.len
           len := c.len + 1
           buffer := ((c.buffer.set c.len (some ⟨none, some c.head_index, k, v⟩)).set
             c.head_index (some { hn with previous := some c.len })) },
         c.len, none) := by
      rw [hred, hat]
    have hset := set_fresh_reduce_none c k v hk _ _ hpf
    have hB : ∀ j, ((c.buffer.set c.len (some ⟨none, some c.head_index, k, v⟩)).set
        c.head_index (some { hn with previous := some c.len }))[j]? =
        if j = c.head_index then some (some { hn with previous := some c.len })
        else if j = c.len then some (some ⟨none, some c.head_index, k, v⟩)
        else c.buffer[j]? := fun j => getElem?_writes2 _ _ _ _ _ hwb hhlt j
    have hBhead : NodeAt ((c.buffer.set c.len
        (some ⟨none, some c.head_index, k, v⟩)).set
        c.head_index (some { hn with previous := some c.len }))
        c.head_index { hn with previous := some c.len } := by
      rw [NodeAt, hB, if_pos rfl]
    have hBw : NodeAt ((c.buffer.set c.len
        (some ⟨none, some c.head_index, k, v⟩)).set
        c.head_index (some { hn with previous := some c.len }))
        c.len ⟨none, some c.head_index, k, v⟩ := by
      rw [NodeAt, hB, if_neg (fun hh => hhne hh.symm), if_pos rfl]
    have hdesc : ∀ j n1,
        NodeAt ((c.buffer.set c.len (some ⟨none, some c.head_index, k, v⟩)).set
          c.head_index (some { hn with previous := some c.len })) j n1 →
        (j = c.head_index ∧ n1 = { hn with previous := some c.len }) ∨
        (j ≠ c.head_index ∧ j = c.len ∧ n1 = ⟨none, some c.head_index, k, v⟩) ∨
        (j ≠ c.head_index ∧ j ≠ c.len ∧ NodeAt c.buffer j n1) := by
      intro j n1 h1
      rw [NodeAt, hB j] at h1
      by_cases hj1 : j = c.head_index
      · rw [if_pos hj1] at h1
        injection h1 with h2
        injection h2 with h3
        exact Or.inl ⟨hj1, h3.symm⟩
      · rw [if_neg hj1] at h1
        by_cases hj2 : j = c.len
        · rw [if_pos hj2] at h1
          injection h1 with h2
          injection h2 with h3
          exact Or.inr (Or.inl ⟨hj1, hj2, h3.symm⟩)
        · rw [if_neg hj2] at h1
          exact Or.inr (Or.inr ⟨hj1, hj2, h1⟩)
    have hkeyB : ∀ j, j ≠ c.len →
        keyAt ((c.buffer.set c.len (some ⟨none, some c.head_index, k, v⟩)).set
          c.head_index (some { hn with previous := some c.len })) j =
        keyAt c.buffer j := by
      intro j hj
      by_cases hjh : j = c.head_index
      · rw [hjh, keyAt_of_nodeAt _ _ _ hBhead, keyAt_of_nodeAt _ _ _ hhn]
      · rw [keyAt, hB j, if_neg hjh, if_neg hj, keyAt]
    refine ⟨_, hset, ?_, rfl, rfl, rfl, rfl, mapLookup_insert_self _ _ _,
      hlkq, keyAt_of_nodeAt _ _ _ hBw, valAt_of_nodeAt _ _ _ hBw, hkeyB⟩
    refine mapInv_build (mapInsert c.map k c.len)
      ((c.buffer.set c.len (some ⟨none, some c.head_index, k, v⟩)).set
        c.head_index (some { hn with previous := some c.len })) c.len
      c.tail_index (c.len + 1) c.capacity c.free (by simpa using inv.buf_cap)
      (by omega) ?_ ?_ (keys_nodup_mapInsert _ _ _ inv.keys_nd) ?_ ?_ ?_
      inv.free_nd ?_ hcnt ?_ ?_ ?_ ?_ (by omega)
    · intro q i hq
      by_cases hqk : q = k
      · subst hqk
        rw [mapLookup_insert_self] at hq
        injection hq with hq2
        subst hq2
        exact keyAt_of_nodeAt _ _ _ hBw
      · rw [hlkq q hqk] at hq
        have hko := inv.map_occ q i hq
        have hilt : i ≠ c.len := by
          rcases (keyAt_eq_some_iff _ _ _).mp hko with ⟨n0, hn0, _⟩
          have := inv.occ_lt i n0 hn0
          omega
        rw [hkeyB i hilt]
        exact hko
    · intro j n1 h1
      rcases hdesc j n1 h1 with ⟨hj, hv⟩ | ⟨_, hj, hv⟩ | ⟨_, _, h2⟩
      · rw [hv]
        have : ({ hn with previous := some c.len } : Node V).key = hn.key := rfl
        rw [this, mapLookup_insert_ne _ _ _ _ hkne, hj]
        exact inv.occ_map _ _ hhn
      · rw [hv, hj]
        exact mapLookup_insert_self _ _ _
      · have hne2 : n1.key ≠ k := by
          intro hh
          have := inv.occ_map _ _ h2
          rw [hh, hk] at this
          cases this
        rw [mapLookup_insert_ne _ _ _ _ hne2]
        exact inv.occ_map _ _ h2
    · intro j n1 h1
      rcases hdesc j n1 h1 with ⟨hj, _⟩ | ⟨_, hj, _⟩ | ⟨_, _, h2⟩
      · omega
      · omega
      · have := inv.occ_lt j n1 h2
        omega
    · intro i hi
      have := inv.free_lt i hi
      omega
    · intro i hi
      have hlt1 : i < c.len := inv.free_lt i hi
      have hne1 : i ≠ c.len := by omega
      have hne2 : i ≠ c.head_index := by
        intro hh
        exact not_nodeAt_of_none _ _ (hh ▸ inv.free_empty i hi) _ hhn
      rw [hB i, if_neg hne2, if_neg hne1]
      exact inv.free_empty i hi
    · intro i hi
      by_cases hic : i = c.len
      · subst hic
        exact Or.inl ⟨_, hBw⟩
      · rcases inv.parti i (by omega) with ⟨n0, hn0⟩ | hf
        · by_cases hih : i = c.head_index
          · refine Or.inl ⟨{ hn with previous := some c.len }, ?_⟩
            rw [hih]
            exact hBhead
          · refine Or.inl ⟨n0, ?_⟩
            rw [NodeAt, hB i, if_neg hih, if_neg hic]
            exact hn0
        · exact Or.inr hf
    · intro i n1 j h1 hl
      have hlen2 : ((c.buffer.set c.len
          (some ⟨none, some c.head_index, k, v⟩)).set
          c.head_index (some { hn with previous := some c.len })).length =
          c.buffer.length := by simp
      rw [hlen2]
      rcases hdesc i n1 h1 with ⟨_, hv⟩ | ⟨_, _, hv⟩ | ⟨_, _, h2⟩
      · rw [hv] at hl
        injection hl with hl2
        omega
      · rw [hv] at hl
        cases hl
      · exact inv.link_prev i n1 j h2 hl
    · intro i n1 j h1 hl
      have hlen2 : ((c.buffer.set c.len
          (some ⟨none, some c.head_index, k, v⟩)).set
          c.head_index (some { hn with previous := some c.len })).length =
          c.buffer.length := by simp
      rw [hlen2]
      rcases hdesc i n1 h1 with ⟨_, hv⟩ | ⟨_, _, hv⟩ | ⟨_, _, h2⟩
      · rw [hv] at hl
        exact inv.link_next c.head_index hn j hhn hl
      · rw [hv] at hl
        injection hl with hl2
        omega
      · exact inv.link_next i n1 j h2 hl
    · intro _
      exact ⟨_, hBw⟩
    · intro _
      have := inv.tail_lt (Nat.pos_of_ne_zero h0)
      simpa using this

/-- Key-index facts after inserting a fresh key `k` at slot `w`. -/
theorem fresh_map_facts (c : LruCache V) (k : String) (w : Nat)
    (B : List (Option (Node V))) (inv : MapInv c)
    (hk : mapLookup c.map k = none) (hkw : keyAt B w = some k)
    (hwempty : ∀ n0 : Node V, ¬ NodeAt c.buffer w n0)
    (hdesc : ∀ j n1, NodeAt B j n1 → (j = w ∧ n1.key = k) ∨
      (j ≠ w ∧ ∃ n0, NodeAt c.buffer j n0 ∧ n1.key = n0.key))
    (hkeyAt : ∀ j, j ≠ w → keyAt B j = keyAt c.buffer j) :
    (∀ q i, mapLookup (mapInsert c.map k w) q = some i → keyAt B i = some q) ∧
    (∀ i n1, NodeAt B i n1 → mapLookup (mapInsert c.map k w) n1.key = some i) := by
  constructor
  · intro q i hq
    by_cases hqk : q = k
    · subst hqk
      rw [mapLookup_insert_self] at hq
      injection hq with hq2
      subst hq2
      exact hkw
    · rw [mapLookup_insert_ne _ _ _ _ hqk] at hq
      have hko := inv.map_occ q i hq
      have hiw : i ≠ w := by
        intro hh
        rcases (keyAt_eq_some_iff _ _ _).mp hko with ⟨n0, hn0, _⟩
        exact hwempty n0 (hh ▸ hn0)
      rw [hkeyAt i hiw]
      exact hko
  · intro i n1 h1
    rcases hdesc i n1 h1 with ⟨hi, hkey⟩ | ⟨hiw, n0, hn0, hkey⟩
    · rw [hkey, hi]
      exact mapLookup_insert_self _ _ _
    · have hne : n1.key ≠ k := by
        intro hh
        have := inv.occ_map _ _ hn0
        rw [← hkey, hh, hk] at this
        cases this
      rw [mapLookup_insert_ne _ _ _ _ hne, hkey]
      exact inv.occ_map _ _ hn0

theorem set_fresh_pop_spec (c : LruCache V) (k : String) (v : V) (idx : Nat)
    (rest : List Nat) (inv : MapInv c) (hk : mapLookup c.map k = none)
    (hge : ¬ c.len < c.capacity) (hfree : c.free = idx :: rest) :
    ∃ c', c.set k v = .ok c' ∧ MapInv c' ∧
      c'.len = c.len ∧ c'.free = rest ∧ c'.capacity = c.capacity ∧
      c'.head_index = idx ∧
      mapLookup c'.map k = some idx ∧
      (∀ q, q ≠ k → mapLookup c'.map q = mapLookup c.map q) ∧
      keyAt c'.buffer idx = some k ∧ valAt c'.buffer idx = some v ∧
      (∀ j, j ≠ idx → keyAt c'.buffer j = keyAt c.buffer j) := by
  have hmem : idx ∈ c.free := by
    rw [hfree]
    exact List.mem_cons_self idx rest
  have hidxlen : idx < c.len := inv.free_lt idx hmem
  have h0 : c.len ≠ 0 := by omega
  have hidxlt : idx < c.buffer.length := by
    have := inv.len_le
    rw [inv.buf_cap]
    omega
  have hidxempty : c.buffer[idx]? = some none := inv.free_empty idx hmem
  rcases inv.head_occ (Nat.pos_of_ne_zero h0) with ⟨hn, hhn⟩
  have hhlt : c.head_index < c.buffer.length := nodeAt_lt_length _ _ _ hhn
  have hhlen : c.head_index < c.len := inv.occ_lt _ _ hhn
  have hhne : c.head_index ≠ idx := by
    intro hh
    exact not_nodeAt_of_none _ _ hidxempty hn (hh ▸ hhn)
  have hkne : hn.key ≠ k := by
    intro hh
    have := inv.occ_map _ _ hhn
    rw [hh, hk] at this
    cases this
  have hnn : c.new_head_node k v = ⟨none, some c.head_index, k, v⟩ := by
    rw [LruCache.new_head_node, if_neg h0]
  have hred := push_front_pop_reduce c k v idx rest hge hfree hidxlt
  rw [hnn] at hred
  have hat := attach_second_next_some
    { c with
      head_index := idx
      buffer := c.buffer.set idx (some ⟨none, some c.head_index, k, v⟩)
      free := rest }
    none ⟨none, some c.head_index, k, v⟩ hn c.head_index
    (nodeAt_set_self _ _ _ hidxlt) rfl
    ((nodeAt_set_ne _ _ _ _ _ (fun hh => hhne hh.symm)).mpr hhn)
  have hpf : c.push_front k v = .ok
      ({ c with
         head_index := idx
         buffer := ((c.buffer.set idx (some ⟨none, some c.head_index, k, v⟩)).set
           c.head_index (some { hn with previous := some idx }))
         free := rest },
       idx, none) := by
    rw [hred, hat]
  have hset := set_fresh_reduce_none c k v hk _ _ hpf
  have hB : ∀ j, ((c.buffer.set idx (some ⟨none, some c.head_index, k, v⟩)).set
      c.head_index (some { hn with previous := some idx }))[j]? =
      if j = c.head_index then some (some { hn with previous := some idx })
      else if j = idx then some (some ⟨none, some c.head_index, k, v⟩)
      else c.buffer[j]? := fun j => getElem?_writes2 _ _ _ _ _ hidxlt hhlt j
  have hBhead : NodeAt ((c.buffer.set idx
      (some ⟨none, some c.head_index, k, v⟩)).set
      c.head_index (some { hn with previous := some idx }))
      c.head_index { hn with previous := some idx } := by
    rw [NodeAt, hB, if_pos rfl]
  have hBw : NodeAt ((c.buffer.set idx
      (some ⟨none, some c.head_index, k, v⟩)).set
      c.head_index (some { hn with previous := some idx }))
      idx ⟨none, some c.head_index, k, v⟩ := by
    rw [NodeAt, hB, if_neg hhne.symm, if_pos rfl]
  have hdesc : ∀ j n1,
      NodeAt ((c.buffer.set idx (some ⟨none, some c.head_index, k, v⟩)).set
        c.head_index (some { hn with previous := some idx })) j n1 →
      (j = c.head_index ∧ n1 = { hn with previous := some idx }) ∨
      (j ≠ c.head_index ∧ j = idx ∧ n1 = ⟨none, some c.head_index, k, v⟩) ∨
      (j ≠ c.head_index ∧ j ≠ idx ∧ NodeAt c.buffer j n1) := by
    intro j n1 h1
    rw [NodeAt, hB j] at h1
    by_cases hj1 : j = c.head_index
    · rw [if_pos hj1] at h1
      injection h1 with h2
      injection h2 with h3
      exact Or.inl ⟨hj1, h3.symm⟩
    · rw [if_neg hj1] at h1
      by_cases hj2 : j = idx
      · rw [if_pos hj2] at h1
        injection h1 with h2
        injection h2 with h3
        exact Or.inr (Or.inl ⟨hj1, hj2, h3.symm⟩)
      · rw [if_neg hj2] at h1
        exact Or.inr (Or.inr ⟨hj1, hj2, h1⟩)
  have hkeyB : ∀ j, j ≠ idx →
      keyAt ((c.buffer.set idx (some ⟨none, some c.head_index, k, v⟩)).set
        c.head_index (some { hn with previous := some idx })) j =
      keyAt c.buffer j := by
    intro j hj
    by_cases hjh : j = c.head_index
    · rw [hjh, keyAt_of_nodeAt _ _ _ hBhead, keyAt_of_nodeAt _ _ _ hhn]
    · rw [keyAt, hB j, if_neg hjh, if_neg hj, keyAt]
  have hmf := fresh_map_facts c k idx _ inv hk (keyAt_of_nodeAt _ _ _ hBw)
    (fun n0 hn0 => not_nodeAt_of_none _ _ hidxempty n0 hn0)
    (by
      intro j n1 h1
      rcases hdesc j n1 h1 with ⟨hj, hv⟩ | ⟨_, hj, hv⟩ | ⟨_, hjw, h2⟩
      · exact Or.inr ⟨by rw [hj]; exact hhne, hn, hj ▸ hhn, by rw [hv]⟩
      · exact Or.inl ⟨hj, by rw [hv]⟩
      · exact Or.inr ⟨hjw, n1, h2, rfl⟩)
    hkeyB
  have hcnt : (mapInsert c.map k idx).length + rest.length = c.len := by
    rw [length_mapInsert_fresh c.map k idx hk]
    have := inv.count
    rw [hfree, List.length_cons] at this
    omega
  have hfnd : rest.Nodup := by
    have := inv.free_nd
    rw [hfree, List.nodup_cons] at this
    exact this.2
  have hidxrest : idx ∉ rest := by
    have := inv.free_nd
    rw [hfree, List.nodup_cons] at this
    exact this.1
  refine ⟨_, hset, ?_, rfl, rfl, rfl, rfl, mapLookup_insert_self _ _ _,
    (fun q hq => mapLookup_insert_ne c.map k q idx hq),
    keyAt_of_nodeAt _ _ _ hBw, valAt_of_nodeAt _ _ _ hBw, hkeyB⟩
  refine mapInv_build (mapInsert c.map k idx)
    ((c.buffer.set idx (some ⟨none, some c.head_index, k, v⟩)).set
      c.head_index (some { hn with previous := some idx })) idx
    c.tail_index c.len c.capacity rest (by simpa using inv.buf_cap)
    inv.len_le hmf.1 hmf.2 (keys_nodup_mapInsert _ _ _ inv.keys_nd) ?_ ?_ ?_
    hfnd ?_ hcnt ?_ ?_ ?_ ?_ (fun hh => absurd hh h0)
  · intro j n1 h1
    rcases hdesc j n1 h1 with ⟨hj, _⟩ | ⟨_, hj, _⟩ | ⟨_, _, h2⟩
    · omega
    · omega
    · exact inv.occ_lt j n1 h2
  · intro i hi
    exact inv.free_lt i (by rw [hfree]; exact List.mem_cons_of_mem idx hi)
  · intro i hi
    have hlt1 : i < c.len := inv.free_lt i
      (by rw [hfree]; exact List.mem_cons_of_mem idx hi)
    have hne1 : i ≠ idx := fun hh => hidxrest (hh ▸ hi)
    have hne2 : i ≠ c.head_index := by
      intro hh
      exact not_nodeAt_of_none _ _
        (hh ▸ inv.free_empty i (by rw [hfree]; exact List.mem_cons_of_mem idx hi))
        _ hhn
    rw [hB i, if_neg hne2, if_neg hne1]
    exact inv.free_empty i (by rw [hfree]; exact List.mem_cons_of_mem idx hi)
  · intro i hi
    by_cases hic : i = idx
    · subst hic
      exact Or.inl ⟨_, hBw⟩
    · rcases inv.parti i hi with ⟨n0, hn0⟩ | hf
      · by_cases hih : i = c.head_index
        · refine Or.inl ⟨{ hn with previous := some idx }, ?_⟩
          rw [hih]
          exact hBhead
        · refine Or.inl ⟨n0, ?_⟩
          rw [NodeAt, hB i, if_neg hih, if_neg hic]
          exact hn0
      · rw [hfree] at hf
        rcases List.mem_cons.mp hf with hh | hh
        · exact absurd hh hic
        · exact Or.inr hh
  · intro i n1 j h1 hl
    have hlen2 : ((c.buffer.set idx (some ⟨none, some c.head_index, k, v⟩)).set
        c.head_index (some { hn with previous := some idx })).length =
        c.buffer.length := by simp
    rw [hlen2]
    rcases hdesc i n1 h1 with ⟨_, hv⟩ | ⟨_, _, hv⟩ | ⟨_, _, h2⟩
    · rw [hv] at hl
      injection hl with hl2
      omega
    · rw [hv] at hl
      cases hl
    · exact inv.link_prev i n1 j h2 hl
  · intro i n1 j h1 hl
    have hlen2 : ((c.buffer.set idx (some ⟨none, some c.head_index, k, v⟩)).set
        c.head_index (some { hn with previous := some idx })).length =
        c.buffer.length := by simp
    rw [hlen2]
    rcases hdesc i n1 h1 with ⟨_, hv⟩ | ⟨_, _, hv⟩ | ⟨_, _, h2⟩
    · rw [hv] at hl
      exact inv.link_next c.head_index hn j hhn hl
    · rw [hv] at hl
      injection hl with hl2
      omega
    · exact inv.link_next i n1 j h2 hl
  · intro _
    exact ⟨_, hBw⟩
  · intro _
    have := inv.tail_lt (Nat.pos_of_ne_zero h0)
    simpa using this

/-! ### The eviction branch of `set` -/

/-- `buf1` differs from `buf` only by rewriting some `next`/`previous` links
of occupied slots to `none`; keys, values and occupancy are untouched. -/
def RelinkOnly (buf buf1 : List (Option (Node V))) : Prop :=
  buf1.length = buf.length ∧
  (∀ j, (∃ n1 : Node V, NodeAt buf1 j n1) ↔ (∃ n0 : Node V, NodeAt buf j n0)) ∧
  (∀ j n1, NodeAt buf1 j n1 → ∃ n0, NodeAt buf j n0 ∧ n1.key = n0.key ∧
    n1.value = n0.value ∧
    (n1.previous = n0.previous ∨ n1.previous = none) ∧
    (n1.next = n0.next ∨ n1.next = none))

theorem relinkOnly_refl (buf : List (Option (Node V))) : RelinkOnly buf buf :=
  ⟨rfl, fun _ => Iff.rfl,
   fun _ n1 h1 => ⟨n1, h1, rfl, rfl, Or.inl rfl, Or.inl rfl⟩⟩

theorem relinkOnly_clear_next (buf : List (Option (Node V))) (m : Nat)
    (mn : Node V) (hm : NodeAt buf m mn) :
    RelinkOnly buf (buf.set m (some { mn with next := none })) := by
  have hmlt : m < buf.length := nodeAt_lt_length _ _ _ hm
  refine ⟨by simp, ?_, ?_⟩
  · intro j
    by_cases hj : j = m
    · subst hj
      exact ⟨fun _ => ⟨mn, hm⟩, fun _ => ⟨_, nodeAt_set_self _ _ _ hmlt⟩⟩
    · constructor
      · rintro ⟨n1, h1⟩
        rw [nodeAt_set_ne _ _ _ _ _ (fun hh => hj hh.symm)] at h1
        exact ⟨n1, h1⟩
      · rintro ⟨n0, h0⟩
        exact ⟨n0, (nodeAt_set_ne _ _ _ _ _ (fun hh => hj hh.symm)).mpr h0⟩
  · intro j n1 h1
    by_cases hj : j = m
    · subst hj
      have := nodeAt_unique _ _ _ _ h1 (nodeAt_set_self _ _ _ hmlt)
      rw [this]
      exact ⟨mn, hm, rfl, rfl, Or.inl rfl, Or.inr rfl⟩
    · rw [nodeAt_set_ne _ _ _ _ _ (fun hh => hj hh.symm)] at h1
      exact ⟨n1, h1, rfl, rfl, Or.inl rfl, Or.inl rfl⟩

/-- Facts about the buffer produced by writing the new head node at `w` and
then rewiring the old head slot's `previous`, starting from a relink-only
variant `BUF1` of `buf0`. -/
theorem attach_shape (buf0 BUF1 : List (Option (Node V))) (w hd : Nat)
    (nn OCC : Node V) (hrel : RelinkOnly buf0 BUF1)
    (hw : w < BUF1.length)
    (hOCC : NodeAt (BUF1.set w (some nn)) hd OCC) :
    ((BUF1.set w (some nn)).set hd
        (some { OCC with previous := some w })).length = buf0.length ∧
    keyAt ((BUF1.set w (some nn)).set hd
      (some { OCC with previous := some w })) w = some nn.key ∧
    valAt ((BUF1.set w (some nn)).set hd
      (some { OCC with previous := some w })) w = some nn.value ∧
    (∀ j n1, NodeAt ((BUF1.set w (some nn)).set hd
        (some { OCC with previous := some w })) j n1 →
      (j = w ∧ n1.key = nn.key) ∨
      (j ≠ w ∧ ∃ n0, NodeAt buf0 j n0 ∧ n1.key = n0.key ∧ n1.value = n0.value)) ∧
    (∀ j n0, NodeAt buf0 j n0 → j ≠ w → ∃ n1,
      NodeAt ((BUF1.set w (some nn)).set hd
        (some { OCC with previous := some w })) j n1 ∧ n1.key = n0.key) ∧
    (∀ j, j ≠ w → j ≠ hd →
      (((BUF1.set w (some nn)).set hd
        (some { OCC with previous := some w }))[j]? = some none ↔
        buf0[j]? = some none)) := by
  obtain ⟨hlen, hocciff, hrdesc⟩ := hrel
  have hhd : hd < BUF1.length := by
    have := nodeAt_lt_length _ _ _ hOCC
    simpa using this
  have hB : ∀ j, ((BUF1.set w (some nn)).set hd
      (some { OCC with previous := some w }))[j]? =
      if j = hd then some (some { OCC with previous := some w })
      else if j = w then some (some nn)
      else BUF1[j]? := fun j => getElem?_writes2 _ _ _ _ _ hw hhd j
  have hOCCval : hd = w → OCC = nn := by
    intro hh
    refine nodeAt_unique _ _ _ _ hOCC ?_
    rw [hh]
    exact nodeAt_set_self _ _ _ hw
  have hOCC1 : hd ≠ w → NodeAt BUF1 hd OCC := by
    intro hh
    have := hOCC
    rw [NodeAt, List.getElem?_set_ne (fun h2 => hh (h2.symm))] at this
    exact this
  have hkeyw : keyAt ((BUF1.set w (some nn)).set hd
      (some { OCC with previous := some w })) w = some nn.key := by
    by_cases hhw : hd = w
    · rw [keyAt, hB w, if_pos hhw.symm]
      rw [hOCCval hhw]
    · rw [keyAt, hB w, if_neg (fun hh => hhw hh.symm), if_pos rfl]
  have hvalw : valAt ((BUF1.set w (some nn)).set hd
      (some { OCC with previous := some w })) w = some nn.value := by
    by_cases hhw : hd = w
    · rw [valAt, hB w, if_pos hhw.symm]
      rw [hOCCval hhw]
    · rw [valAt, hB w, if_neg (fun hh => hhw hh.symm), if_pos rfl]
  refine ⟨by simpa using hlen, hkeyw, hvalw, ?_, ?_, ?_⟩
  · intro j n1 h1
    rw [NodeAt, hB j] at h1
    by_cases hj1 : j = hd
    · rw [if_pos hj1] at h1
      injection h1 with h2
      injection h2 with h3
      by_cases hhw : hd = w
      · refine Or.inl ⟨hj1.trans hhw, ?_⟩
        rw [← h3, hOCCval hhw]
      · refine Or.inr ⟨fun hh => hhw (hj1 ▸ hh : hd = w), ?_⟩
        rcases hrdesc hd OCC (hOCC1 hhw) with ⟨n0, hn0, hk0, hv0, _, _⟩
        refine ⟨n0, hj1 ▸ hn0, ?_, ?_⟩
        · rw [← h3]
          exact hk0
        · rw [← h3]
          exact hv0
    · rw [if_neg hj1] at h1
      by_cases hj2 : j = w
      · rw [if_pos hj2] at h1
        injection h1 with h2
        injection h2 with h3
        exact Or.inl ⟨hj2, by rw [← h3]⟩
      · rw [if_neg hj2] at h1
        rcases hrdesc j n1 h1 with ⟨n0, hn0, hk0, hv0, _, _⟩
        exact Or.inr ⟨hj2, n0, hn0, hk0, hv0⟩
  · intro j n0 hn0 hjw
    by_cases hj1 : j = hd
    · refine ⟨{ OCC with previous := some w }, ?_, ?_⟩
      · rw [NodeAt, hB j, if_pos hj1]
      · have hhw : hd ≠ w := fun hh => hjw (hj1.trans hh)
        rcases hrdesc hd OCC (hOCC1 hhw) with ⟨n0b, hn0b, hk0, _, _, _⟩
        have : n0b = n0 := nodeAt_unique _ _ _ _ (hj1 ▸ hn0b) hn0
        rw [show ({ OCC with previous := some w } : Node V).key = OCC.key from rfl,
          hk0, this]
    · rcases (hocciff j).mpr ⟨n0, hn0⟩ with ⟨n1, hn1⟩
      refine ⟨n1, ?_, ?_⟩
      · rw [NodeAt, hB j, if_neg hj1, if_neg hjw]
        exact hn1
      · rcases hrdesc j n1 hn1 with ⟨n0b, hn0b, hk0, _, _, _⟩
        have : n0b = n0 := nodeAt_unique _ _ _ _ hn0b hn0
        rw [hk0, this]
  · intro j hjw hjh
    rw [hB j, if_neg hjh, if_neg hjw]
    constructor
    · intro hh
      by_contra hne
      have hjlt : j < buf0.length := by
        have : j < BUF1.length := by
          rw [List.getElem?_eq_some_iff] at hh
          exact hh.1
        omega
      cases hb : buf0[j]? with
      | none =>
        rw [List.getElem?_eq_none_iff] at hb
        omega
      | some s =>
        cases s with
        | none => exact hne hb
        | some n0 =>
          rcases (hocciff j).mpr ⟨n0, hb⟩ with ⟨n1, hn1⟩
          rw [NodeAt, hh] at hn1
          injection hn1 with h2
          exact Option.noConfusion h2
    · intro hh
      by_contra hne
      have hjlt : j < BUF1.length := by
        have : j < buf0.length := by
          rw [List.getElem?_eq_some_iff] at hh
          exact hh.1
        omega
      cases hb : BUF1[j]? with
      | none =>
        rw [List.getElem?_eq_none_iff] at hb
        omega
      | some s =>
        cases s with
        | none => exact hne hb
        | some n1 =>
          rcases (hocciff j).mp ⟨n1, hb⟩ with ⟨n0, hn0⟩
          rw [NodeAt, hh] at hn0
          injection hn0 with h2
          exact Option.noConfusion h2

theorem attach_shape_links (buf0 BUF1 : List (Option (Node V))) (w hd : Nat)
    (nn OCC : Node V) (hrel : RelinkOnly buf0 BUF1)
    (hw : w < BUF1.length)
    (hOCC : NodeAt (BUF1.set w (some nn)) hd OCC)
    (h0links : ∀ j n0 l, NodeAt buf0 j n0 →
      (n0.previous = some l ∨ n0.next = some l) → l < buf0.length)
    (hnnp : nn.previous = none)
    (hnnn : ∀ l, nn.next = some l → l < buf0.length) :
    ∀ j n1 l, NodeAt ((BUF1.set w (some nn)).set hd
        (some { OCC with previous := some w })) j n1 →
      (n1.previous = some l ∨ n1.next = some l) →
      l < ((BUF1.set w (some nn)).set hd
        (some { OCC with previous := some w })).length := by
  obtain ⟨hlen, hocciff, hrdesc⟩ := hrel
  have hhd : hd < BUF1.length := by
    have := nodeAt_lt_length _ _ _ hOCC
    simpa using this
  have hOCClinks : ∀ l, OCC.next = some l → l < buf0.length := by
    intro l hl
    by_cases hhw : hd = w
    · have : OCC = nn := by
        refine nodeAt_unique _ _ _ _ hOCC ?_
        rw [hhw]
        exact nodeAt_set_self _ _ _ hw
      exact hnnn l (by rw [← this]; exact hl)
    · have hO1 : NodeAt BUF1 hd OCC := by
        have := hOCC
        rw [NodeAt, List.getElem?_set_ne (fun h2 => hhw h2.symm)] at this
        exact this
      rcases hrdesc hd OCC hO1 with ⟨n0, hn0, _, _, _, hnx⟩
      rcases hnx with hnx | hnx
      · exact h0links hd n0 l hn0 (Or.inr (hnx ▸ hl))
      · rw [hnx] at hl
        cases hl
  intro j n1 l h1 hl
  have hBl : ((BUF1.set w (some nn)).set hd
      (some { OCC with previous := some w })).length = buf0.length := by
    simpa using hlen
  rw [hBl]
  rw [NodeAt, getElem?_writes2 _ _ _ _ _ hw hhd j] at h1
  by_cases hj1 : j = hd
  · rw [if_pos hj1] at h1
    injection h1 with h2
    injection h2 with h3
    rw [← h3] at hl
    rcases hl with hl | hl
    · injection hl with hl2
      omega
    · exact hOCClinks l hl
  · rw [if_neg hj1] at h1
    by_cases hj2 : j = w
    · rw [if_pos hj2] at h1
      injection h1 with h2
      injection h2 with h3
      rw [← h3] at hl
      rcases hl with hl | hl
      · rw [hnnp] at hl
        cases hl
      · exact hnnn l hl
    · rw [if_neg hj2] at h1
      rcases hrdesc j n1 h1 with ⟨n0, hn0, _, _, hpv, hnx⟩
      rcases hl with hl | hl
      · rcases hpv with hpv | hpv
        · exact h0links j n0 l hn0 (Or.inl (hpv ▸ hl))
        · rw [hpv] at hl
          cases hl
      · rcases hnx with hnx | hnx
        · exact h0links j n0 l hn0 (Or.inr (hnx ▸ hl))
        · rw [hnx] at hl
          cases hl

/-- Key-index facts after evicting the key `dk` (stored at slot `w`) and
inserting the fresh key `k` there. -/
theorem evict_map_facts (c : LruCache V) (k dk : String) (w : Nat)
    (B : List (Option (Node V))) (inv : MapInv c)
    (hk : mapLookup c.map k = none) (hdk : mapLookup c.map dk = some w)
    (hkw : keyAt B w = some k)
    (hdesc : ∀ j n1, NodeAt B j n1 → (j = w ∧ n1.key = k) ∨
      (j ≠ w ∧ ∃ n0, NodeAt c.buffer j n0 ∧ n1.key = n0.key))
    (hpres : ∀ j n0, NodeAt c.buffer j n0 → j ≠ w → ∃ n1,
      NodeAt B j n1 ∧ n1.key = n0.key) :
    (∀ q i, mapLookup (mapRemove (mapInsert c.map k w) dk) q = some i →
      keyAt B i = some q) ∧
    (∀ i n1, NodeAt B i n1 →
      mapLookup (mapRemove (mapInsert c.map k w) dk) n1.key = some i) ∧
    (mapRemove (mapInsert c.map k w) dk).length = c.map.length := by
  have hdkk : dk ≠ k := by
    intro hh
    rw [hh, hk] at hdk
    cases hdk
  have hlkk : mapLookup (mapRemove (mapInsert c.map k w) dk) k = some w := by
    rw [mapLookup_remove_ne _ _ _ (fun hh => hdkk hh.symm), mapLookup_insert_self]
  have hlkq : ∀ q, q ≠ k → q ≠ dk →
      mapLookup (mapRemove (mapInsert c.map k w) dk) q = mapLookup c.map q := by
    intro q hq1 hq2
    rw [mapLookup_remove_ne _ _ _ hq2, mapLookup_insert_ne _ _ _ _ hq1]
  refine ⟨?_, ?_, ?_⟩
  · intro q i hq
    by_cases hq2 : q = dk
    · rw [hq2, mapLookup_remove_self] at hq
      cases hq
    · by_cases hq1 : q = k
      · rw [hq1, hlkk] at hq
        injection hq with hq3
        subst hq3
        rw [hq1]
        exact hkw
      · rw [hlkq q hq1 hq2] at hq
        have hko := inv.map_occ q i hq
        have hiw : i ≠ w := by
          intro hh
          have hko2 := inv.map_occ dk w hdk
          rw [hh, hko2] at hko
          injection hko with hko3
          exact hq2 hko3.symm
        rcases (keyAt_eq_some_iff _ _ _).mp hko with ⟨n0, hn0, hkey0⟩
        rcases hpres i n0 hn0 hiw with ⟨n1, hn1, hk1⟩
        rw [keyAt_of_nodeAt _ _ _ hn1, hk1, hkey0]
  · intro i n1 h1
    rcases hdesc i n1 h1 with ⟨hi, hkey⟩ | ⟨hiw, n0, hn0, hkey⟩
    · rw [hkey, hi]
      exact hlkk
    · have hlo := inv.occ_map _ _ hn0
      have hne1 : n0.key ≠ k := by
        intro hh
        rw [hh, hk] at hlo
        cases hlo
      have hne2 : n0.key ≠ dk := by
        intro hh
        rw [hh, hdk] at hlo
        injection hlo with hlo2
        exact hiw hlo2.symm
      rw [hkey, hlkq n0.key hne1 hne2]
      exact hlo
  · have hfst : (mapInsert c.map k w).length = c.map.length + 1 :=
      length_mapInsert_fresh c.map k w hk
    have hdkin : mapLookup (mapInsert c.map k w) dk = some w := by
      rw [mapLookup_insert_ne _ _ _ _ hdkk]
      exact hdk
    have := length_mapRemove_of_lookup_some (mapInsert c.map k w) dk w
      (keys_nodup_mapInsert _ _ _ inv.keys_nd) hdkin
    omega

theorem mapInv_evict_assemble (c : LruCache V) (k dk : String)
    (w tN : Nat) (B : List (Option (Node V))) (inv : MapInv c)
    (hk : mapLookup c.map k = none) (hdk : mapLookup c.map dk = some w)
    (hlencap : c.len = c.capacity) (hfree : c.free = []) (h0 : 0 < c.len)
    (hBlen : B.length = c.buffer.length)
    (hkw : keyAt B w = some k)
    (hdesc : ∀ j n1, NodeAt B j n1 → (j = w ∧ n1.key = k) ∨
      (j ≠ w ∧ ∃ n0, NodeAt c.buffer j n0 ∧ n1.key = n0.key))
    (hpres : ∀ j n0, NodeAt c.buffer j n0 → j ≠ w → ∃ n1,
      NodeAt B j n1 ∧ n1.key = n0.key)
    (hlinkB : ∀ j n1 l, NodeAt B j n1 →
      (n1.previous = some l ∨ n1.next = some l) → l < B.length)
    (htN : tN < c.buffer.length) :
    MapInv { map := mapRemove (mapInsert c.map k w) dk
             buffer := B
             head_index := w
             tail_index := tN
             len := c.len
             capacity := c.capacity
             free := c.free } := by
  have hmf := evict_map_facts c k dk w B inv hk hdk hkw hdesc hpres
  have hall : ∀ i, i < c.buffer.length → ∃ n0, NodeAt c.buffer i n0 := by
    intro i hi
    rcases inv.parti i (by rw [inv.buf_cap] at hi; omega) with h | h
    · exact h
    · rw [hfree] at h
      cases h
  refine mapInv_build _ _ _ _ _ _ _ (hBlen.trans inv.buf_cap)
    inv.len_le hmf.1 hmf.2.1
    (keys_nodup_mapRemove _ _ (keys_nodup_mapInsert _ _ _ inv.keys_nd)) ?_
    (fun i hi => absurd (hfree ▸ hi) (List.not_mem_nil i))
    (fun i hi => absurd (hfree ▸ hi) (List.not_mem_nil i))
    (by rw [hfree]; exact List.nodup_nil) ?_ ?_
    (fun i n1 l h1 hl => hlinkB i n1 l h1 (Or.inl hl))
    (fun i n1 l h1 hl => hlinkB i n1 l h1 (Or.inr hl)) ?_ ?_ (by omega)
  · intro i n1 h1
    have := nodeAt_lt_length _ _ _ h1
    rw [hBlen, inv.buf_cap] at this
    omega
  · intro i hi
    by_cases hiw : i = w
    · subst hiw
      rcases (keyAt_eq_some_iff _ _ _).mp hkw with ⟨n1, hn1, _⟩
      exact Or.inl ⟨n1, hn1⟩
    · rcases hall i (by rw [inv.buf_cap]; omega) with ⟨n0, hn0⟩
      rcases hpres i n0 hn0 hiw with ⟨n1, hn1, _⟩
      exact Or.inl ⟨n1, hn1⟩
  · rw [hmf.2.2, hfree, List.length_nil]
    have := inv.count
    rw [hfree, List.length_nil] at this
    omega
  · intro _
    rcases (keyAt_eq_some_iff _ _ _).mp hkw with ⟨n1, hn1, _⟩
    exact ⟨n1, hn1⟩
  · intro _
    rw [hBlen]
    exact htN

theorem set_fresh_evict_spec (c : LruCache V) (k : String) (v : V)
    (inv : MapInv c) (hk : mapLookup c.map k = none)
    (hge : ¬ c.len < c.capacity) (hfree : c.free = []) (h0 : 0 < c.len) :
    ∃ c' tnode, NodeAt c.buffer c.tail_index tnode ∧
      c.set k v = .ok c' ∧ MapInv c' ∧
      c'.len = c.len ∧ c'.free = [] ∧ c'.capacity = c.capacity ∧
      c'.head_index = c.tail_index ∧
      mapLookup c'.map k = some c.tail_index ∧
      mapLookup c'.map tnode.key = none ∧
      (∀ q, q ≠ k → q ≠ tnode.key → mapLookup c'.map q = mapLookup c.map q) ∧
      keyAt c'.buffer c.tail_index = some k ∧
      valAt c'.buffer c.tail_index = some v := by
  have hlencap : c.len = c.capacity := by
    have := inv.len_le
    omega
  have h0' : c.len ≠ 0 := by omega
  have htlt : c.tail_index < c.buffer.length := inv.tail_lt h0
  have hall : ∀ i, i < c.buffer.length → ∃ n0, NodeAt c.buffer i n0 := by
    intro i hi
    rcases inv.parti i (by rw [inv.buf_cap] at hi; omega) with h | h
    · exact h
    · rw [hfree] at h
      cases h
  rcases hall _ htlt with ⟨tnode, htn⟩
  have hdkmap : mapLookup c.map tnode.key = some c.tail_index :=
    inv.occ_map _ _ htn
  have hdkk : tnode.key ≠ k := by
    intro hh
    rw [hh, hk] at hdkmap
    cases hdkmap
  rcases inv.head_occ h0 with ⟨hn, hhn⟩
  have hhlt : c.head_index < c.buffer.length := nodeAt_lt_length _ _ _ hhn
  have hnn : c.new_head_node k v = ⟨none, some c.head_index, k, v⟩ := by
    rw [LruCache.new_head_node, if_neg h0']
  have hlkq : ∀ q, q ≠ k → q ≠ tnode.key →
      mapLookup (mapRemove (mapInsert c.map k c.tail_index) tnode.key) q =
      mapLookup c.map q := by
    intro q hq1 hq2
    rw [mapLookup_remove_ne _ _ _ hq2, mapLookup_insert_ne _ _ _ _ hq1]
  have hlkk : mapLookup (mapRemove (mapInsert c.map k c.tail_index) tnode.key)
      k = some c.tail_index := by
    rw [mapLookup_remove_ne _ _ _ (fun hh => hdkk hh.symm), mapLookup_insert_self]
  cases hpr : tnode.previous with
  | none =>
    have hred := push_front_evict_none_reduce c k v tnode hge hfree htn hpr
    rw [hnn] at hred
    have hOcc : ∃ OCC, NodeAt (c.buffer.set c.tail_index
        (some ⟨none, some c.head_index, k, v⟩)) c.head_index OCC := by
      by_cases hw : c.head_index = c.tail_index
      · exact ⟨_, by rw [hw]; exact nodeAt_set_self _ _ _ htlt⟩
      · exact ⟨hn, (nodeAt_set_ne _ _ _ _ _ (fun hh => hw hh.symm)).mpr hhn⟩
    rcases hOcc with ⟨OCC, hOCC⟩
    have hat := attach_second_next_some
      { c with
        head_index := c.tail_index
        buffer := c.buffer.set c.tail_index
          (some ⟨none, some c.head_index, k, v⟩) }
      (some tnode.key) ⟨none, some c.head_index, k, v⟩ OCC c.head_index
      (nodeAt_set_self _ _ _ htlt) rfl hOCC
    have hpf : c.push_front k v = .ok
        ({ c with
           head_index := c.tail_index
           buffer := ((c.buffer.set c.tail_index
             (some ⟨none, some c.head_index, k, v⟩)).set c.head_index
             (some { OCC with previous := some c.tail_index })) },
         c.tail_index, some tnode.key) := by
      rw [hred, hat]
    have hset := set_fresh_reduce_some c k v hk _ _ _ hpf
    have hsh := attach_shape c.buffer c.buffer c.tail_index c.head_index
      ⟨none, some c.head_index, k, v⟩ OCC (relinkOnly_refl _) htlt hOCC
    have hlk := attach_shape_links c.buffer c.buffer c.tail_index c.head_index
      ⟨none, some c.head_index, k, v⟩ OCC (relinkOnly_refl _) htlt hOCC
      (fun j n0 l hj hl => hl.elim (inv.link_prev j n0 l hj)
        (inv.link_next j n0 l hj)) rfl
      (fun l hl => by injection hl with hl2; omega)
    obtain ⟨hBlen, hkw, hvw, hdesc, hpres, _⟩ := hsh
    refine ⟨_, tnode, htn, hset, ?_, rfl, hfree, rfl, rfl, hlkk,
      mapLookup_remove_self _ _, hlkq, hkw, hvw⟩
    exact mapInv_evict_assemble c k tnode.key c.tail_index c.tail_index _
      inv hk hdkmap hlencap hfree h0 hBlen hkw
      (fun j n1 h1 => (hdesc j n1 h1).imp id
        (fun ⟨hjw, n0, hn0, hk0, _⟩ => ⟨hjw, n0, hn0, hk0⟩))
      hpres hlk htlt
  | some m =>
    rcases hall m (inv.link_prev _ _ _ htn hpr) with ⟨mnode, hmn⟩
    have hred := push_front_evict_some_reduce c k v tnode mnode m hge hfree
      htn hpr hmn
    rw [hnn] at hred
    have hrel : RelinkOnly c.buffer
        (c.buffer.set m (some { mnode with next := none })) :=
      relinkOnly_clear_next c.buffer m mnode hmn
    have htlt2 : c.tail_index <
        (c.buffer.set m (some { mnode with next := none })).length := by
      simpa using htlt
    have hOcc : ∃ OCC, NodeAt ((c.buffer.set m
        (some { mnode with next := none })).set c.tail_index
        (some ⟨none, some c.head_index, k, v⟩)) c.head_index OCC := by
      by_cases hw : c.head_index = c.tail_index
      · exact ⟨_, by rw [hw]; exact nodeAt_set_self _ _ _ htlt2⟩
      · by_cases hw2 : c.head_index = m
        · refine ⟨{ mnode with next := none }, ?_⟩
          rw [NodeAt, List.getElem?_set_ne (fun hh => hw hh.symm), hw2]
          exact List.getElem?_set_self (by simpa using nodeAt_lt_length _ _ _ hmn)
        · refine ⟨hn, ?_⟩
          rw [NodeAt, List.getElem?_set_ne (fun hh => hw hh.symm),
            List.getElem?_set_ne (fun hh => hw2 hh.symm)]
          exact hhn
    rcases hOcc with ⟨OCC, hOCC⟩
    have hat := attach_second_next_some
      { c with
        head_index := c.tail_index
        tail_index := m
        buffer := ((c.buffer.set m (some { mnode with next := none })).set
          c.tail_index (some ⟨none, some c.head_index, k, v⟩)) }
      (some tnode.key) ⟨none, some c.head_index, k, v⟩ OCC c.head_index
      (nodeAt_set_self _ _ _ htlt2) rfl hOCC
    have hpf : c.push_front k v = .ok
        ({ c with
           head_index := c.tail_index
           tail_index := m
           buffer := (((c.buffer.set m (some { mnode with next := none })).set
             c.tail_index (some ⟨none, some c.head_index, k, v⟩)).set
             c.head_index (some { OCC with previous := some c.tail_index })) },
         c.tail_index, some tnode.key) := by
      rw [hred, hat]
    have hset := set_fresh_reduce_some c k v hk _ _ _ hpf
    have hsh := attach_shape c.buffer
      (c.buffer.set m (some { mnode with next := none })) c.tail_index
      c.head_index ⟨none, some c.head_index, k, v⟩ OCC hrel htlt2 hOCC
    have hlk := attach_shape_links c.buffer
      (c.buffer.set m (some { mnode with next := none })) c.tail_index
      c.head_index ⟨none, some c.head_index, k, v⟩ OCC hrel htlt2 hOCC
      (fun j n0 l hj hl => hl.elim (inv.link_prev j n0 l hj)
        (inv.link_next j n0 l hj)) rfl
      (fun l hl => by injection hl with hl2; omega)
    obtain ⟨hBlen, hkw, hvw, hdesc, hpres, _⟩ := hsh
    refine ⟨_, tnode, htn, hset, ?_, rfl, hfree, rfl, rfl, hlkk,
      mapLookup_remove_self _ _, hlkq, hkw, hvw⟩
    exact mapInv_evict_assemble c k tnode.key c.tail_index m _
      inv hk hdkmap hlencap hfree h0 hBlen hkw
      (fun j n1 h1 => (hdesc j n1 h1).imp id
        (fun ⟨hjw, n0, hn0, hk0, _⟩ => ⟨hjw, n0, hn0, hk0⟩))
      hpres hlk (inv.link_prev _ _ _ htn hpr)

/-- A fresh `set` on a full cache with an empty free list and `len = 0`
(that is, a zero-capacity cache) panics on the out-of-bounds arena read in
the eviction branch. -/
theorem set_fresh_evict_err (c : LruCache V) (k : String) (v : V)
    (inv : MapInv c) (hk : mapLookup c.map k = none)
    (hge : ¬ c.len < c.capacity) (hfree : c.free = []) (h0 : c.len = 0) :
    c.set k v = .error "index out of bounds" := by
  have hblen : c.buffer.length = 0 := by
    have := inv.len_le
    rw [inv.buf_cap]
    omega
  have htl : c.buffer[c.tail_index]? = none := List.getElem?_eq_none (by omega)
  rw [LruCache.set, if_neg (by rw [hk]; simp)]
  rw [LruCache.push_front]
  simp only [bufRead, if_neg hge, hfree, htl]

/-- Key-index facts after `get` re-inserts the key `k` (previously at slot
`S`) at slot `w`. -/
theorem get_map_facts (c : LruCache V) (k : String) (S w : Nat)
    (B : List (Option (Node V))) (inv : MapInv c)
    (hS : mapLookup c.map k = some S)
    (hkw : keyAt B w = some k)
    (hwfresh : ∀ q i, q ≠ k → mapLookup c.map q = some i → i ≠ w)
    (hdesc : ∀ j n1, NodeAt B j n1 → (j = w ∧ n1.key = k) ∨
      (j ≠ w ∧ j ≠ S ∧ ∃ n0, NodeAt c.buffer j n0 ∧ n1.key = n0.key))
    (hpres : ∀ j n0, NodeAt c.buffer j n0 → j ≠ w → j ≠ S → ∃ n1,
      NodeAt B j n1 ∧ n1.key = n0.key) :
    (∀ q i, mapLookup (mapInsert c.map k w) q = some i → keyAt B i = some q) ∧
    (∀ i n1, NodeAt B i n1 → mapLookup (mapInsert c.map k w) n1.key = some i) ∧
    (mapInsert c.map k w).length = c.map.length := by
  refine ⟨?_, ?_, ?_⟩
  · intro q i hq
    by_cases hq1 : q = k
    · rw [hq1, mapLookup_insert_self] at hq
      injection hq with hq3
      subst hq3
      rw [hq1]
      exact hkw
    · rw [mapLookup_insert_ne _ _ _ _ hq1] at hq
      have hko := inv.map_occ q i hq
      have hiS : i ≠ S := by
        intro hh
        have hkS := inv.map_occ k S hS
        rw [hh, hkS] at hko
        injection hko with hko2
        exact hq1 hko2.symm
      have hiw : i ≠ w := hwfresh q i hq1 hq
      rcases (keyAt_eq_some_iff _ _ _).mp hko with ⟨n0, hn0, hkey0⟩
      rcases hpres i n0 hn0 hiw hiS with ⟨n1, hn1, hk1⟩
      rw [keyAt_of_nodeAt _ _ _ hn1, hk1, hkey0]
  · intro i n1 h1
    rcases hdesc i n1 h1 with ⟨hi, hkey⟩ | ⟨hiw, hiS, n0, hn0, hkey⟩
    · rw [hkey, hi]
      exact mapLookup_insert_self _ _ _
    · have hlo := inv.occ_map _ _ hn0
      have hne1 : n0.key ≠ k := by
        intro hh
        rw [hh, hS] at hlo
        injection hlo with hlo2
        exact hiS hlo2.symm
      rw [hkey, mapLookup_insert_ne _ _ _ _ hne1]
      exact hlo
  · have : (mapRemove c.map k).length + 1 = c.map.length :=
      length_mapRemove_of_lookup_some c.map k S inv.keys_nd hS
    rw [mapInsert, List.length_cons]
    omega

theorem get_present_cap_spec (c : LruCache V) (k : String) (S : Nat)
    (inv : MapInv c) (hS : mapLookup c.map k = some S)
    (hge : ¬ c.len < c.capacity) :
    ∃ v c', c.get k = .ok (some v, c') ∧ MapInv c' ∧
      valAt c.buffer S = some v ∧
      c'.len = c.len ∧ c'.free = c.free ∧ c'.capacity = c.capacity ∧
      c'.head_index = S ∧ c'.tail_index = c.tail_index ∧
      mapLookup c'.map k = some S ∧
      (∀ q, q ≠ k → mapLookup c'.map q = mapLookup c.map q) ∧
      keyAt c'.buffer S = some k ∧ valAt c'.buffer S = some v := by
  rcases (keyAt_eq_some_iff _ _ _).mp (inv.map_occ k S hS) with ⟨node, hSn, hkeq⟩
  obtain ⟨p0, nx0, k0, v0⟩ := node
  obtain rfl : k0 = k := hkeq
  have hSlen : S < c.len := inv.occ_lt _ _ hSn
  have h0 : 0 < c.len := by omega
  have hSlt : S < c.buffer.length := nodeAt_lt_length _ _ _ hSn
  rcases inv.head_occ h0 with ⟨hn, hhn⟩
  have hhlt : c.head_index < c.buffer.length := nodeAt_lt_length _ _ _ hhn
  rcases remove_spec c S ⟨p0, nx0, k0, v0⟩ inv hSn with
    ⟨c1, hrm, hc1map, hc1len, hc1cap, hc1head, hc1tail, hc1free, hrb⟩
  obtain ⟨hrlen, hrS, hrkeys, hrvals, hrocc, hrdesc⟩ := hrb
  have hSlt1 : S < c1.buffer.length := by
    rw [hrlen]
    exact hSlt
  have hge1 : ¬ c1.len < c1.capacity := by
    rw [hc1len, hc1cap]
    exact hge
  have hred := push_front_pop_reduce c1 k0 v0 S c.free hge1 hc1free hSlt1
  have hlen1 : c1.len ≠ 0 := by omega
  have hnn : c1.new_head_node k0 v0 = ⟨none, some c.head_index, k0, v0⟩ := by
    rw [LruCache.new_head_node, if_neg hlen1, hc1head]
  rw [hnn] at hred
  have hOcc : ∃ OCC, NodeAt (c1.buffer.set S
      (some ⟨none, some c.head_index, k0, v0⟩)) c.head_index OCC := by
    by_cases hw : c.head_index = S
    · exact ⟨_, by rw [hw]; exact nodeAt_set_self _ _ _ hSlt1⟩
    · rcases removedBuf_occ _ _ _ _ _
        ⟨hrlen, hrS, hrkeys, hrvals, hrocc, hrdesc⟩ c.head_index hn hhn hw with
        ⟨h1n, hh1n, _, _⟩
      exact ⟨h1n, (nodeAt_set_ne _ _ _ _ _ (fun hh => hw hh.symm)).mpr hh1n⟩
  rcases hOcc with ⟨OCC, hOCC⟩
  have hat := attach_second_next_some
    { c1 with
      head_index := S
      buffer := c1.buffer.set S (some ⟨none, some c.head_index, k0, v0⟩)
      free := c.free }
    none ⟨none, some c.head_index, k0, v0⟩ OCC c.head_index
    (nodeAt_set_self _ _ _ hSlt1) rfl hOCC
  have hpf : c1.push_front k0 v0 = .ok
      ({ c1 with
         head_index := S
         buffer := ((c1.buffer.set S (some ⟨none, some c.head_index, k0, v0⟩)).set
           c.head_index (some { OCC with previous := some S }))
         free := c.free },
       S, none) := by
    rw [hred, hat]
  have hsh := attach_shape c1.buffer c1.buffer S c.head_index
    ⟨none, some c.head_index, k0, v0⟩ OCC (relinkOnly_refl _) hSlt1 hOCC
  obtain ⟨hBlen, hkw, hvw, hdescB, hpresB, hoccB⟩ := hsh
  have hlk := attach_shape_links c1.buffer c1.buffer S c.head_index
    ⟨none, some c.head_index, k0, v0⟩ OCC (relinkOnly_refl _) hSlt1 hOCC
    (by
      intro j n1 l hj hl
      rcases hrdesc j n1 hj with ⟨m0, hm0, _, _, hpv, hnx⟩
      have horig : ∀ x, (m0.previous = some x ∨ m0.next = some x) →
          x < c1.buffer.length := by
        intro x hx
        rw [hrlen]
        exact hx.elim (inv.link_prev j m0 x hm0) (inv.link_next j m0 x hm0)
      rcases hl with hl | hl
      · rcases hpv with hpv | hpv | hpv
        · exact horig l (Or.inl (hpv ▸ hl))
        · rw [hpv] at hl
          cases hl
        · rw [hpv] at hl
          rw [hrlen]
          exact inv.link_prev S ⟨p0, nx0, k0, v0⟩ l hSn hl
      · rcases hnx with hnx | hnx | hnx
        · exact horig l (Or.inr (hnx ▸ hl))
        · rw [hnx] at hl
          cases hl
        · rw [hnx] at hl
          rw [hrlen]
          exact inv.link_next S ⟨p0, nx0, k0, v0⟩ l hSn hl) rfl
    (fun l hl => by
      injection hl with hl2
      rw [← hl2]
      exact hhlt.trans_eq hrlen.symm)
  -- the final cache state and the value read back
  rcases (keyAt_eq_some_iff _ _ _).mp hkw with ⟨nf, hnf, hnfk⟩
  have hnfv : nf.value = v0 := by
    have := valAt_of_nodeAt _ _ _ hnf
    rw [hvw] at this
    injection this with h2
    exact h2.symm
  have hrm2 : c.remove S = .ok (c1, some (k0, v0)) := hrm
  have hB : ((c1.buffer.set S (some ⟨none, some c.head_index, k0, v0⟩)).set
      c.head_index (some { OCC with previous := some S }))[S]? =
      some (some nf) := hnf
  have hget : c.get k0 = .ok (some nf.value,
      { c1 with
        map := mapInsert c1.map k0 S
        head_index := S
        buffer := ((c1.buffer.set S (some ⟨none, some c.head_index, k0, v0⟩)).set
          c.head_index (some { OCC with previous := some S }))
        free := c.free }) := by
    simp only [LruCache.get, hS, hrm2, hpf, bufRead, hB]
    rfl
  -- composed slot descriptions relative to the original buffer
  have hdescC : ∀ j n1, NodeAt ((c1.buffer.set S
      (some ⟨none, some c.head_index, k0, v0⟩)).set
      c.head_index (some { OCC with previous := some S })) j n1 →
      (j = S ∧ n1.key = k0) ∨
      (j ≠ S ∧ ∃ m0, NodeAt c.buffer j m0 ∧ n1.key = m0.key) := by
    intro j n1 h1
    rcases hdescB j n1 h1 with ⟨hj, hkey⟩ | ⟨hjw, m1, hm1, hk1, _⟩
    · exact Or.inl ⟨hj, hkey⟩
    · rcases hrdesc j m1 hm1 with ⟨m0, hm0, hk0, _, _, _⟩
      exact Or.inr ⟨hjw, m0, hm0, hk1.trans hk0⟩
  have hpresC : ∀ j m0, NodeAt c.buffer j m0 → j ≠ S → ∃ n1,
      NodeAt ((c1.buffer.set S (some ⟨none, some c.head_index, k0, v0⟩)).set
        c.head_index (some { OCC with previous := some S })) j n1 ∧
      n1.key = m0.key := by
    intro j m0 hm0 hjS
    rcases removedBuf_occ _ _ _ _ _
      ⟨hrlen, hrS, hrkeys, hrvals, hrocc, hrdesc⟩ j m0 hm0 hjS with
      ⟨m1, hm1, hk1, _⟩
    rcases hpresB j m1 hm1 hjS with ⟨n1, hn1, hk2⟩
    exact ⟨n1, hn1, hk2.trans hk1⟩
  have hmf := get_map_facts c k0 S S _ inv hS hkw
    (by
      intro q i hq hqi
      intro hh
      have := inv.map_occ q i hqi
      rw [hh] at this
      rw [keyAt_of_nodeAt _ _ _ hSn] at this
      injection this with h2
      exact hq h2.symm)
    (by
      intro j n1 h1
      rcases hdescC j n1 h1 with ⟨hj, hkey⟩ | ⟨hjS, m0, hm0, hk0⟩
      · exact Or.inl ⟨hj, hkey⟩
      · exact Or.inr ⟨hjS, hjS, m0, hm0, hk0⟩)
    (fun j m0 hm0 hjw hjS => hpresC j m0 hm0 hjS)
  refine ⟨nf.value, _, hget, ?_, by rw [valAt_of_nodeAt _ _ _ hSn, hnfv], ?_, ?_,
    ?_, rfl, ?_, ?_, ?_, hkw, by rw [hnfv]; exact hvw⟩
  · -- the invariant for the final state
    refine mapInv_build (mapInsert c1.map k0 S) _ S c1.tail_index c1.len
      c1.capacity c.free ?_ ?_ ?_ ?_ ?_ ?_ ?_ ?_ ?_ ?_ ?_ ?_ ?_ ?_ ?_ ?_
    · rw [hBlen, hrlen, inv.buf_cap, hc1cap]
    · rw [hc1len, hc1cap]
      exact inv.len_le
    · rw [hc1map]
      exact hmf.1
    · rw [hc1map]
      exact hmf.2.1
    · rw [hc1map]
      exact keys_nodup_mapInsert _ _ _ inv.keys_nd
    · intro j n1 h1
      rw [hc1len]
      rcases hdescC j n1 h1 with ⟨hj, _⟩ | ⟨_, m0, hm0, _⟩
      · omega
      · exact inv.occ_lt j m0 hm0
    · intro i hi
      rw [hc1len]
      exact inv.free_lt i hi
    · intro i hi
      have hiS : i ≠ S := by
        intro hh
        exact not_nodeAt_of_none _ _ (hh ▸ inv.free_empty i hi) _ hSn
      have hih : i ≠ c.head_index := by
        intro hh
        exact not_nodeAt_of_none _ _ (hh ▸ inv.free_empty i hi) _ hhn
      rw [(hoccB i hiS hih), (hrocc i hiS)]
      exact inv.free_empty i hi
    · exact inv.free_nd
    · intro i hi
      rw [hc1len] at hi
      by_cases hiS : i = S
      · subst hiS
        exact Or.inl ⟨nf, hnf⟩
      · rcases inv.parti i hi with ⟨m0, hm0⟩ | hf
        · rcases hpresC i m0 hm0 hiS with ⟨n1, hn1, _⟩
          exact Or.inl ⟨n1, hn1⟩
        · exact Or.inr hf
    · rw [hc1map, hc1len, hmf.2.2]
      exact inv.count
    · intro i n1 l h1 hl
      exact hlk i n1 l h1 (Or.inl hl)
    · intro i n1 l h1 hl
      exact hlk i n1 l h1 (Or.inr hl)
    · intro _
      exact ⟨nf, hnf⟩
    · intro _
      rw [hBlen, hrlen, hc1tail]
      exact inv.tail_lt h0
    · intro hh
      rw [hc1len] at hh
      omega
  · rw [hc1len]
  · rfl
  · rw [hc1cap]
  · rw [hc1tail]
  · rw [hc1map]
    exact mapLookup_insert_self _ _ _
  · intro q hq
    rw [hc1map]
    exact mapLookup_insert_ne _ _ _ _ hq

theorem get_present_fill_spec (c : LruCache V) (k : String) (S : Nat)
    (inv : MapInv c) (hS : mapLookup c.map k = some S)
    (hlt : c.len < c.capacity) :
    (∃ e, c.get k = .error e) ∨
    (∃ v c', c.get k = .ok (some v, c') ∧ MapInv c' ∧
      valAt c.buffer S = some v ∧
      c'.len = c.len + 1 ∧ c'.free = S :: c.free ∧ c'.capacity = c.capacity ∧
      c'.head_index = c.len ∧ c'.tail_index = c.tail_index ∧
      mapLookup c'.map k = some c.len ∧ S ≠ c.len ∧
      (∀ q, q ≠ k → mapLookup c'.map q = mapLookup c.map q) ∧
      keyAt c'.buffer c.len = some k ∧ valAt c'.buffer c.len = some v) := by
  rcases (keyAt_eq_some_iff _ _ _).mp (inv.map_occ k S hS) with ⟨node, hSn, hkeq⟩
  obtain ⟨p0, nx0, k0, v0⟩ := node
  obtain rfl : k0 = k := hkeq
  have hSlen : S < c.len := inv.occ_lt _ _ hSn
  have h0 : 0 < c.len := by omega
  have hSlt : S < c.buffer.length := nodeAt_lt_length _ _ _ hSn
  have hwb : c.len < c.buffer.length := by
    rw [inv.buf_cap]
    exact hlt
  rcases inv.head_occ h0 with ⟨hn, hhn⟩
  have hhlt : c.head_index < c.buffer.length := nodeAt_lt_length _ _ _ hhn
  have hhlen : c.head_index < c.len := inv.occ_lt _ _ hhn
  rcases remove_spec c S ⟨p0, nx0, k0, v0⟩ inv hSn with
    ⟨c1, hrm, hc1map, hc1len, hc1cap, hc1head, hc1tail, hc1free, hrb⟩
  obtain ⟨hrlen, hrS, hrkeys, hrvals, hrocc, hrdesc⟩ := hrb
  have hrm2 : c.remove S = .ok (c1, some (k0, v0)) := hrm
  have hwb1 : c1.len < c1.buffer.length := by
    rw [hrlen, hc1len]
    exact hwb
  have hlt1 : c1.len < c1.capacity := by
    rw [hc1len, hc1cap]
    exact hlt
  have hred := push_front_fill_reduce c1 k0 v0 hlt1 hwb1
  have hlen1 : c1.len ≠ 0 := by omega
  have hnn : c1.new_head_node k0 v0 = ⟨none, some c.head_index, k0, v0⟩ := by
    rw [LruCache.new_head_node, if_neg hlen1, hc1head]
  rw [hnn] at hred
  have hwS : c.len ≠ S := by omega
  have hheadne : c.head_index ≠ c.len := by omega
  by_cases hw : c.head_index = S
  · -- the key being fetched sits at the head slot: the rewiring panics
    left
    have hmiss : (c1.buffer.set c1.len
        (some ⟨none, some c.head_index, k0, v0⟩))[c.head_index]? = some none := by
      rw [List.getElem?_set_ne (fun hh => hheadne (hc1len ▸ hh.symm)), hw]
      exact hrS
    have hatm := attach_second_next_missing
      { c1 with
        head_index := c1.len
        len := c1.len + 1
        buffer := c1.buffer.set c1.len (some ⟨none, some c.head_index, k0, v0⟩) }
      none ⟨none, some c.head_index, k0, v0⟩ c.head_index
      (nodeAt_set_self _ _ _ hwb1) rfl hmiss
    have hpferr : c1.push_front k0 v0 =
        .error "The next node should be a valid Node and not None." := by
      rw [hred, hatm]
    refine ⟨"The next node should be a valid Node and not None.", ?_⟩
    simp only [LruCache.get, hS, hrm2, hpferr]
  · -- the key is not at the head slot: the relocation succeeds
    right
    rcases removedBuf_occ _ _ _ _ _
      ⟨hrlen, hrS, hrkeys, hrvals, hrocc, hrdesc⟩ c.head_index hn hhn hw with
      ⟨h1n, hh1n, hh1k, _⟩
    have hOCC : NodeAt (c1.buffer.set c1.len
        (some ⟨none, some c.head_index, k0, v0⟩)) c.head_index h1n := by
      rw [nodeAt_set_ne _ _ _ _ _ (fun hh => hheadne (hc1len ▸ hh.symm))]
      exact hh1n
    have hat := attach_second_next_some
      { c1 with
        head_index := c1.len
        len := c1.len + 1
        buffer := c1.buffer.set c1.len (some ⟨none, some c.head_index, k0, v0⟩) }
      none ⟨none, some c.head_index, k0, v0⟩ h1n c.head_index
      (nodeAt_set_self _ _ _ hwb1) rfl hOCC
    have hpf : c1.push_front k0 v0 = .ok
        ({ c1 with
           head_index := c1.len
           len := c1.len + 1
           buffer := ((c1.buffer.set c1.len
             (some ⟨none, some c.head_index, k0, v0⟩)).set
             c.head_index (some { h1n with previous := some c1.len })) },
         c1.len, none) := by
      rw [hred, hat]
    have hsh := attach_shape c1.buffer c1.buffer c1.len c.head_index
      ⟨none, some c.head_index, k0, v0⟩ h1n (relinkOnly_refl _) hwb1 hOCC
    obtain ⟨hBlen, hkw, hvw, hdescB, hpresB, hoccB⟩ := hsh
    have hlk := attach_shape_links c1.buffer c1.buffer c1.len c.head_index
      ⟨none, some c.head_index, k0, v0⟩ h1n (relinkOnly_refl _) hwb1 hOCC
      (by
        intro j n1 l hj hl
        rcases hrdesc j n1 hj with ⟨m0, hm0, _, _, hpv, hnx⟩
        have horig : ∀ x, (m0.previous = some x ∨ m0.next = some x) →
            x < c1.buffer.length := by
          intro x hx
          rw [hrlen]
          exact hx.elim (inv.link_prev j m0 x hm0) (inv.link_next j m0 x hm0)
        rcases hl with hl | hl
        · rcases hpv with hpv | hpv | hpv
          · exact horig l (Or.inl (hpv ▸ hl))
          · rw [hpv] at hl
            cases hl
          · rw [hpv] at hl
            rw [hrlen]
            exact inv.link_prev S ⟨p0, nx0, k0, v0⟩ l hSn hl
        · rcases hnx with hnx | hnx | hnx
          · exact horig l (Or.inr (hnx ▸ hl))
          · rw [hnx] at hl
            cases hl
          · rw [hnx] at hl
            rw [hrlen]
            exact inv.link_next S ⟨p0, nx0, k0, v0⟩ l hSn hl) rfl
      (fun l hl => by
        injection hl with hl2
        rw [← hl2]
        exact hhlt.trans_eq hrlen.symm)
    rcases (keyAt_eq_some_iff _ _ _).mp hkw with ⟨nf, hnf, hnfk⟩
    have hnfv : nf.value = v0 := by
      have := valAt_of_nodeAt _ _ _ hnf
      rw [hvw] at this
      injection this with h2
      exact h2.symm
    have hB : ((c1.buffer.set c1.len (some ⟨none, some c.head_index, k0, v0⟩)).set
        c.head_index (some { h1n with previous := some c1.len }))[c1.len]? =
        some (some nf) := hnf
    have hget : c.get k0 = .ok (some nf.value,
        { c1 with
          map := mapInsert c1.map k0 c1.len
          head_index := c1.len
          len := c1.len + 1
          buffer := ((c1.buffer.set c1.len
            (some ⟨none, some c.head_index, k0, v0⟩)).set
            c.head_index (some { h1n with previous := some c1.len })) }) := by
      simp only [LruCache.get, hS, hrm2, hpf, bufRead, hB]
      rfl
    have hdescC : ∀ j n1, NodeAt ((c1.buffer.set c1.len
        (some ⟨none, some c.head_index, k0, v0⟩)).set
        c.head_index (some { h1n with previous := some c1.len })) j n1 →
        (j = c1.len ∧ n1.key = k0) ∨
        (j ≠ c1.len ∧ j ≠ S ∧ ∃ m0, NodeAt c.buffer j m0 ∧ n1.key = m0.key) := by
      intro j n1 h1
      rcases hdescB j n1 h1 with ⟨hj, hkey⟩ | ⟨hjw, m1, hm1, hk1, _⟩
      · exact Or.inl ⟨hj, hkey⟩
      · rcases hrdesc j m1 hm1 with ⟨m0, hm0, hk0a, _, _, _⟩
        have hjS : j ≠ S := by
          intro hh
          exact not_nodeAt_of_none _ _ (hh ▸ hrS) _ hm1
        exact Or.inr ⟨hjw, hjS, m0, hm0, hk1.trans hk0a⟩
    have hpresC : ∀ j m0, NodeAt c.buffer j m0 → j ≠ S → ∃ n1,
        NodeAt ((c1.buffer.set c1.len
          (some ⟨none, some c.head_index, k0, v0⟩)).set
          c.head_index (some { h1n with previous := some c1.len })) j n1 ∧
        n1.key = m0.key := by
      intro j m0 hm0 hjS
      rcases removedBuf_occ _ _ _ _ _
        ⟨hrlen, hrS, hrkeys, hrvals, hrocc, hrdesc⟩ j m0 hm0 hjS with
        ⟨m1, hm1, hk1, _⟩
      have hjw : j ≠ c1.len := by
        intro hh
        have := inv.occ_lt j m0 hm0
        rw [hh, hc1len] at this
        omega
      rcases hpresB j m1 hm1 hjw with ⟨n1, hn1, hk2⟩
      exact ⟨n1, hn1, hk2.trans hk1⟩
    have hmf := get_map_facts c k0 S c1.len _ inv hS hkw
      (by
        intro q i hq hqi
        intro hh
        have := inv.map_occ q i hqi
        rcases (keyAt_eq_some_iff _ _ _).mp this with ⟨mq, hmq, _⟩
        have := inv.occ_lt i mq hmq
        rw [hh, hc1len] at this
        omega)
      hdescC
      (fun j m0 hm0 _ hjS => hpresC j m0 hm0 hjS)
    have hSnotfree : S ∉ c.free := by
      intro hh
      exact not_nodeAt_of_none _ _ (inv.free_empty S hh) _ hSn
    refine ⟨nf.value, _, hget, ?_, by rw [valAt_of_nodeAt _ _ _ hSn, hnfv],
      by rw [hc1len], by rw [hc1free], by rw [hc1cap], by rw [hc1len],
      by rw [hc1tail], ?_, by omega, ?_, by rw [← hc1len]; exact hkw,
      by rw [← hc1len, hnfv]; exact hvw⟩
    · -- the invariant for the final state
      refine mapInv_build (mapInsert c1.map k0 c1.len) _ c1.len c1.tail_index
        (c1.len + 1) c1.capacity c1.free ?_ ?_ ?_ ?_ ?_ ?_ ?_ ?_ ?_ ?_ ?_ ?_
        ?_ ?_ ?_ ?_
      · rw [hBlen, hrlen, inv.buf_cap, hc1cap]
      · rw [hc1len, hc1cap]
        omega
      · rw [hc1map]
        exact hmf.1
      · rw [hc1map]
        exact hmf.2.1
      · rw [hc1map]
        exact keys_nodup_mapInsert _ _ _ inv.keys_nd
      · intro j n1 h1
        rcases hdescC j n1 h1 with ⟨hj, _⟩ | ⟨_, _, m0, hm0, _⟩
        · omega
        · have := inv.occ_lt j m0 hm0
          omega
      · intro i hi
        rw [hc1free] at hi
        rcases List.mem_cons.mp hi with hh | hh
        · omega
        · have := inv.free_lt i hh
          omega
      · intro i hi
        rw [hc1free] at hi
        rcases List.mem_cons.mp hi with hh | hh
        · subst hh
          rw [hoccB i (by omega) (fun h2 => hw h2.symm)]
          exact hrS
        · have hiS : i ≠ S := fun h2 => hSnotfree (h2 ▸ hh)
          have hih : i ≠ c.head_index := by
            intro h2
            exact not_nodeAt_of_none _ _ (h2 ▸ inv.free_empty i hh) _ hhn
          have hiw : i ≠ c1.len := by
            have := inv.free_lt i hh
            omega
          rw [hoccB i hiw hih, hrocc i hiS]
          exact inv.free_empty i hh
      · rw [hc1free, List.nodup_cons]
        exact ⟨hSnotfree, inv.free_nd⟩
      · intro i hi
        by_cases hic : i = c1.len
        · subst hic
          exact Or.inl ⟨nf, hnf⟩
        · rcases Nat.lt_or_ge i c.len with hilt | hige
          · rcases inv.parti i hilt with ⟨m0, hm0⟩ | hf
            · by_cases hiS : i = S
              · refine Or.inr ?_
                rw [hc1free, hiS]
                exact List.mem_cons_self _ _
              · rcases hpresC i m0 hm0 hiS with ⟨n1, hn1, _⟩
                exact Or.inl ⟨n1, hn1⟩
            · refine Or.inr ?_
              rw [hc1free]
              exact List.mem_cons_of_mem _ hf
          · omega
      · rw [hc1map, hc1free, List.length_cons, hmf.2.2]
        have := inv.count
        omega
      · intro i n1 l h1 hl
        exact hlk i n1 l h1 (Or.inl hl)
      · intro i n1 l h1 hl
        exact hlk i n1 l h1 (Or.inr hl)
      · intro _
        exact ⟨nf, hnf⟩
      · intro _
        rw [hBlen, hrlen, hc1tail]
        exact inv.tail_lt h0
      · intro hh
        omega
    · rw [hc1map, hc1len]
      exact mapLookup_insert_self _ _ _
    · intro q hq
      rw [hc1map]
      exact mapLookup_insert_ne _ _ _ _ hq

/-! ### Every reachable state satisfies the key-index invariant -/

theorem get_absent (c : LruCache V) (k : String)
    (h : mapLookup c.map k = none) : c.get k = .ok (none, c) := by
  rw [LruCache.get, h]

theorem mapInv_set (c c' : LruCache V) (k : String) (v : V) (inv : MapInv c)
    (h : c.set k v = .ok c') : MapInv c' := by
  cases hlk : mapLookup c.map k with
  | some i =>
    rcases set_existing_eq c k v i inv hlk with ⟨node, hn, _, heq⟩
    rw [heq] at h
    injection h with h2
    rw [← h2]
    exact mapInv_replace_value c i node v inv hn
  | none =>
    by_cases hlt : c.len < c.capacity
    · rcases set_fresh_fill_spec c k v inv hlk hlt with ⟨c2, heq, hinv, _⟩
      rw [heq] at h
      injection h with h2
      rw [← h2]
      exact hinv
    · cases hfree : c.free with
      | cons idx rest =>
        rcases set_fresh_pop_spec c k v idx rest inv hlk hlt hfree with
          ⟨c2, heq, hinv, _⟩
        rw [heq] at h
        injection h with h2
        rw [← h2]
        exact hinv
      | nil =>
        by_cases h0 : 0 < c.len
        · rcases set_fresh_evict_spec c k v inv hlk hlt hfree h0 with
            ⟨c2, tnode, _, heq, hinv, _⟩
          rw [heq] at h
          injection h with h2
          rw [← h2]
          exact hinv
        · have herr := set_fresh_evict_err c k v inv hlk hlt hfree (by omega)
          rw [herr] at h
          cases h

theorem mapInv_get (c c' : LruCache V) (k : String) (r : Option V)
    (inv : MapInv c) (h : c.get k = .ok (r, c')) : MapInv c' := by
  cases hlk : mapLookup c.map k with
  | none =>
    rw [get_absent c k hlk] at h
    injection h with h2
    injection h2 with h3 h4
    rw [← h4]
    exact inv
  | some S =>
    by_cases hlt : c.len < c.capacity
    · rcases get_present_fill_spec c k S inv hlk hlt with ⟨e, herr⟩ | hok
      · rw [herr] at h
        cases h
      · rcases hok with ⟨v, c2, heq, hinv, _⟩
        rw [heq] at h
        injection h with h2
        injection h2 with h3 h4
        rw [← h4]
        exact hinv
    · rcases get_present_cap_spec c k S inv hlk hlt with ⟨v, c2, heq, hinv, _⟩
      rw [heq] at h
      injection h with h2
      injection h2 with h3 h4
      rw [← h4]
      exact hinv

theorem reachable_mapInv (c : LruCache V) (h : Reachable c) : MapInv c := by
  induction h with
  | base size => exact mapInv_new V size
  | set_step c0 c1 k v hr hstep ih => exact mapInv_set c0 c1 k v ih hstep
  | get_step c0 c1 k r hr hstep ih => exact mapInv_get c0 c1 k r ih hstep

/-! ### The recency chain of set-only states

For states produced by `set` alone (no `get`), the buffer is a well-formed
doubly linked list.  `ChainInv` carries the explicit chain (head first);
`ChainP` is the traversal property claimed by the spec, phrased with
`walkNext`/`walkPrev`. -/

/-- Slot `i` of the buffer holds a node. -/
def Occ (buf : List (Option (Node V))) (i : Nat) : Prop :=
  ∃ node, NodeAt buf i node

/-- The head of the list, or the fallback when the list is empty. -/
def headOrElse : List Nat → Option Nat → Option Nat
  | [], o => o
  | j :: _, _ => some j

/-- Successive slots of the list are linked by `next`; the final slot's
`next` is `o`. -/
def NextChain (buf : List (Option (Node V))) : List Nat → Option Nat → Prop
  | [], _ => True
  | i :: rest, o =>
    Occ buf i ∧ nextOf buf i = headOrElse rest o ∧ NextChain buf rest o

/-- Successive slots of the list are linked backwards by `previous`; the
first slot's `previous` is `p`. -/
def PrevChain (buf : List (Option (Node V))) : Option Nat → List Nat → Prop
  | _, [] => True
  | p, i :: rest => Occ buf i ∧ prevOf buf i = p ∧ PrevChain buf (some i) rest

theorem headOrElse_append_singleton (ys : List Nat) (a : Nat) (p : Option Nat) :
    headOrElse (ys ++ [a]) p = headOrElse ys (some a) := by
  cases ys <;> rfl

theorem nextChain_append (buf : List (Option (Node V))) :
    ∀ (ys : List Nat) (t : Nat) (o : Option Nat),
    NextChain buf (ys ++ [t]) o ↔
      NextChain buf ys (some t) ∧ Occ buf t ∧ nextOf buf t = o := by
  intro ys
  induction ys with
  | nil =>
    intro t o
    simp only [List.nil_append, NextChain, headOrElse]
    constructor
    · rintro ⟨h1, h2, _⟩
      exact ⟨trivial, h1, h2⟩
    · rintro ⟨_, h1, h2⟩
      exact ⟨h1, h2, trivial⟩
  | cons a ys ih =>
    intro t o
    cases ys with
    | nil =>
      simp only [List.cons_append, List.nil_append, NextChain, headOrElse]
      constructor
      · rintro ⟨h1, h2, h3, h4, _⟩
        exact ⟨⟨h1, h2, trivial⟩, h3, h4⟩
      · rintro ⟨⟨h1, h2, _⟩, h3, h4⟩
        exact ⟨h1, h2, h3, h4, trivial⟩
    | cons b ys2 =>
      simp only [List.cons_append, NextChain, headOrElse]
      have ih2 := ih t o
      simp only [List.cons_append, NextChain, headOrElse] at ih2
      constructor
      · rintro ⟨h1, h2, h3⟩
        rcases ih2.mp h3 with ⟨h4, h5, h6⟩
        exact ⟨⟨h1, h2, h4⟩, h5, h6⟩
      · rintro ⟨⟨h1, h2, h3⟩, h4, h5⟩
        exact ⟨h1, h2, ih2.mpr ⟨h3, h4, h5⟩⟩

theorem prevChain_append (buf : List (Option (Node V))) :
    ∀ (ys : List Nat) (p : Option Nat) (t : Nat),
    PrevChain buf p (ys ++ [t]) ↔
      PrevChain buf p ys ∧ Occ buf t ∧
        prevOf buf t = headOrElse ys.reverse p := by
  intro ys
  induction ys with
  | nil =>
    intro p t
    simp only [List.nil_append, PrevChain, List.reverse_nil, headOrElse]
    constructor
    · rintro ⟨h1, h2, _⟩
      exact ⟨trivial, h1, h2⟩
    · rintro ⟨_, h1, h2⟩
      exact ⟨h1, h2, trivial⟩
  | cons a ys ih =>
    intro p t
    simp only [List.cons_append, PrevChain]
    have ih2 := ih (some a) t
    have hho : headOrElse ((a :: ys).reverse) p = headOrElse ys.reverse (some a) := by
      rw [List.reverse_cons]
      exact headOrElse_append_singleton ys.reverse a p
    rw [hho]
    constructor
    · rintro ⟨h1, h2, h3⟩
      rcases ih2.mp h3 with ⟨h4, h5, h6⟩
      exact ⟨⟨h1, h2, h4⟩, h5, h6⟩
    · rintro ⟨⟨h1, h2, h3⟩, h4, h5⟩
      exact ⟨h1, h2, ih2.mpr ⟨h3, h4, h5⟩⟩

theorem nextChain_congr (buf buf1 : List (Option (Node V))) :
    ∀ (l : List Nat) (o : Option Nat),
    (∀ i, i ∈ l → (Occ buf1 i ↔ Occ buf i)) →
    (∀ i, i ∈ l → nextOf buf1 i = nextOf buf i) →
    NextChain buf l o → NextChain buf1 l o := by
  intro l
  induction l with
  | nil =>
    intro o _ _ _
    trivial
  | cons a rest ih =>
    intro o hocc hnx h
    simp only [NextChain] at h ⊢
    obtain ⟨h1, h2, h3⟩ := h
    refine ⟨(hocc a (List.mem_cons_self a rest)).mpr h1, ?_, ?_⟩
    · rw [hnx a (List.mem_cons_self a rest)]
      exact h2
    · exact ih o (fun i hi => hocc i (List.mem_cons_of_mem a hi))
        (fun i hi => hnx i (List.mem_cons_of_mem a hi)) h3

theorem prevChain_congr (buf buf1 : List (Option (Node V))) :
    ∀ (l : List Nat),
    (∀ i, i ∈ l → (Occ buf1 i ↔ Occ buf i)) →
    (∀ i, i ∈ l → prevOf buf1 i = prevOf buf i) →
    ∀ p, PrevChain buf p l → PrevChain buf1 p l := by
  intro l
  induction l with
  | nil =>
    intro _ _ p _
    trivial
  | cons a rest ih =>
    intro hocc hpv p h
    simp only [PrevChain] at h ⊢
    obtain ⟨h1, h2, h3⟩ := h
    refine ⟨(hocc a (List.mem_cons_self a rest)).mpr h1, ?_, ?_⟩
    · rw [hpv a (List.mem_cons_self a rest)]
      exact h2
    · exact ih (fun i hi => hocc i (List.mem_cons_of_mem a hi))
        (fun i hi => hpv i (List.mem_cons_of_mem a hi)) (some a) h3

theorem walkNext_zero (buf : List (Option (Node V))) (o : Option Nat) :
    walkNext buf o 0 = [] := by
  cases o <;> rfl

theorem walkNext_some_succ (buf : List (Option (Node V))) (i n : Nat) :
    walkNext buf (some i) (n + 1) = i :: walkNext buf (nextOf buf i) n := by
  rfl

theorem walkPrev_zero (buf : List (Option (Node V))) (o : Option Nat) :
    walkPrev buf o 0 = [] := by
  cases o <;> rfl

theorem walkPrev_some_succ (buf : List (Option (Node V))) (i n : Nat) :
    walkPrev buf (some i) (n + 1) = i :: walkPrev buf (prevOf buf i) n := by
  rfl

theorem walkNext_of_nextChain (buf : List (Option (Node V))) :
    ∀ (l : List Nat) (i : Nat), NextChain buf (i :: l) none →
    walkNext buf (some i) (l.length + 1) = i :: l := by
  intro l
  induction l with
  | nil =>
    intro i _
    simp only [List.length_nil]
    rw [walkNext_some_succ, walkNext_zero]
  | cons j rest ih =>
    intro i h
    simp only [NextChain, headOrElse] at h
    obtain ⟨_, h2, h3⟩ := h
    have h3' : NextChain buf (j :: rest) none := h3
    simp only [List.length_cons]
    rw [walkNext_some_succ, h2, ih j h3']

theorem walkPrev_of_prevChain (buf : List (Option (Node V))) :
    ∀ (ys : List Nat) (t : Nat), PrevChain buf none (ys ++ [t]) →
    walkPrev buf (some t) (ys.length + 1) = t :: ys.reverse := by
  intro ys
  induction ys using List.reverseRecOn with
  | nil =>
    intro t _
    simp only [List.length_nil, List.reverse_nil]
    rw [walkPrev_some_succ, walkPrev_zero]
  | append_singleton zs p ih =>
    intro t h
    rw [prevChain_append] at h
    obtain ⟨h1, _, h3⟩ := h
    have hho : headOrElse ((zs ++ [p]).reverse) (none : Option Nat) = some p := by
      rw [List.reverse_append]
      rfl
    rw [hho] at h3
    simp only [List.length_append, List.length_cons, List.length_nil]
    rw [walkPrev_some_succ, h3, ih p h1, List.reverse_append]
    rfl

theorem nextChain_last (buf : List (Option (Node V))) (ys : List Nat) (t : Nat)
    (h : NextChain buf (ys ++ [t]) none) : nextOf buf t = none :=
  ((nextChain_append buf ys t none).mp h).2.2

/-- The doubly-linked-list invariant of set-only states: an explicit recency
chain, head first, matching occupancy, both link directions, `head_index`,
`tail_index`, and `len`; the free list is empty. -/
def ChainInv (c : LruCache V) : Prop :=
  ∃ chain : List Nat,
    c.free = [] ∧
    chain.length = c.len ∧
    chain.Nodup ∧
    (∀ i, Occ c.buffer i ↔ i ∈ chain) ∧
    NextChain c.buffer chain none ∧
    PrevChain c.buffer none chain ∧
    (0 < c.len → chain.head? = some c.head_index ∧
      chain.getLast? = some c.tail_index)

/-- The traversal property the spec claims: walking `next` from `head_index`
exactly `len` steps lists every occupied slot exactly once, ends at
`tail_index` whose `next` is `None`, and walking `previous` from `tail_index`
yields the reverse. -/
def ChainP (c : LruCache V) : Prop :=
  (walkNext c.buffer (some c.head_index) c.len).length = c.len ∧
  (walkNext c.buffer (some c.head_index) c.len).Nodup ∧
  (∀ i, Occ c.buffer i ↔ i ∈ walkNext c.buffer (some c.head_index) c.len) ∧
  (0 < c.len →
    (walkNext c.buffer (some c.head_index) c.len).getLast? = some c.tail_index ∧
    nextOf c.buffer c.tail_index = none) ∧
  walkPrev c.buffer (some c.tail_index) c.len =
    (walkNext c.buffer (some c.head_index) c.len).reverse

theorem chainP_of_chainInv (c : LruCache V) (h : ChainInv c) : ChainP c := by
  obtain ⟨chain, hfree, hlen, hnd, hocc, hnext, hprev, hht⟩ := h
  cases chain with
  | nil =>
    have hlen0 : c.len = 0 := by
      rw [← hlen]
      rfl
    refine ⟨by rw [hlen0]; rfl, by rw [hlen0]; exact List.nodup_nil, ?_, ?_, ?_⟩
    · intro i
      rw [hlen0]
      exact hocc i
    · intro h0
      omega
    · rw [hlen0]
      rfl
  | cons hd0 rest =>
    have h0 : 0 < c.len := by
      rw [← hlen]
      simp
    obtain ⟨hh, ht⟩ := hht h0
    have hhd : hd0 = c.head_index := by
      simpa using hh
    have hlen1 : c.len = rest.length + 1 := by
      rw [← hlen]
      rfl
    have hwn : walkNext c.buffer (some c.head_index) c.len = hd0 :: rest := by
      rw [← hhd, hlen1]
      exact walkNext_of_nextChain c.buffer rest hd0 hnext
    rcases List.eq_nil_or_concat (hd0 :: rest) with habs | ⟨ys, t, hconcat⟩
    · cases habs
    rw [List.concat_eq_append] at hconcat
    have htt : t = c.tail_index := by
      rw [hconcat, List.getLast?_concat] at ht
      injection ht
    have hlen2 : c.len = ys.length + 1 := by
      rw [← hlen, hconcat]
      simp
    refine ⟨by rw [hwn]; exact hlen, by rw [hwn]; exact hnd, ?_, ?_, ?_⟩
    · intro i
      rw [hwn]
      exact hocc i
    · intro _
      refine ⟨by rw [hwn]; exact ht, ?_⟩
      rw [hconcat] at hnext
      rw [← htt]
      exact nextChain_last c.buffer ys t hnext
    · rw [hwn, hconcat, ← htt, hlen2]
      rw [hconcat] at hprev
      rw [walkPrev_of_prevChain c.buffer ys t hprev]
      rw [List.reverse_append]
      rfl

theorem chainInv_new (V : Type) (size : Nat) : ChainInv (LruCache.new V size) := by
  refine ⟨[], rfl, rfl, List.nodup_nil, ?_, trivial, trivial, ?_⟩
  · intro i
    simp only [List.not_mem_nil, iff_false]
    rintro ⟨node, hn⟩
    rw [NodeAt] at hn
    have hb : (List.replicate size (none : Option (Node V)))[i]? = some (some node) := hn
    rcases Nat.lt_or_ge i size with hi | hi
    · rw [List.getElem?_replicate, if_pos hi] at hb
      injection hb with hb2
      exact Option.noConfusion hb2
    · rw [List.getElem?_eq_none (by simpa using hi)] at hb
      exact Option.noConfusion hb
  · intro h0
    have hl : (LruCache.new V size).len = 0 := rfl
    omega

theorem occ_set_ne (buf : List (Option (Node V))) (i j : Nat)
    (s : Option (Node V)) (h : i ≠ j) : Occ (buf.set i s) j ↔ Occ buf j :=
  exists_congr fun node => nodeAt_set_ne buf i j s node h

theorem occ_set_some_self (buf : List (Option (Node V))) (i : Nat)
    (node : Node V) (h : i < buf.length) : Occ (buf.set i (some node)) i :=
  ⟨node, nodeAt_set_self _ _ _ h⟩

theorem nextOf_set_ne (buf : List (Option (Node V))) (i j : Nat)
    (s : Option (Node V)) (h : i ≠ j) : nextOf (buf.set i s) j = nextOf buf j := by
  rw [nextOf, nextOf, List.getElem?_set_ne h]

theorem prevOf_set_ne (buf : List (Option (Node V))) (i j : Nat)
    (s : Option (Node V)) (h : i ≠ j) : prevOf (buf.set i s) j = prevOf buf j := by
  rw [prevOf, prevOf, List.getElem?_set_ne h]

theorem nextOf_set_self (buf : List (Option (Node V))) (i : Nat) (node : Node V)
    (h : i < buf.length) : nextOf (buf.set i (some node)) i = node.next := by
  rw [nextOf, List.getElem?_set_self (by simpa using h)]

theorem prevOf_set_self (buf : List (Option (Node V))) (i : Nat) (node : Node V)
    (h : i < buf.length) : prevOf (buf.set i (some node)) i = node.previous := by
  rw [prevOf, List.getElem?_set_self (by simpa using h)]

theorem nextOf_of_nodeAt (buf : List (Option (Node V))) (i : Nat) (node : Node V)
    (h : NodeAt buf i node) : nextOf buf i = node.next := by
  rw [nextOf, h]

theorem prevOf_of_nodeAt (buf : List (Option (Node V))) (i : Nat) (node : Node V)
    (h : NodeAt buf i node) : prevOf buf i = node.previous := by
  rw [prevOf, h]

theorem chainInv_replace (c : LruCache V) (i : Nat) (node : Node V) (v : V)
    (hci : ChainInv c) (hn : NodeAt c.buffer i node) :
    ChainInv { c with buffer := c.buffer.set i (some { node with value := v }) } := by
  obtain ⟨chain, hfree, hlen, hnd, hocc, hnext, hprev, hht⟩ := hci
  have hilt : i < c.buffer.length := nodeAt_lt_length _ _ _ hn
  have hoccp : ∀ j, Occ (c.buffer.set i (some { node with value := v })) j ↔
      Occ c.buffer j := by
    intro j
    by_cases hj : j = i
    · subst hj
      exact ⟨fun _ => ⟨node, hn⟩, fun _ => occ_set_some_self _ _ _ hilt⟩
    · exact occ_set_ne _ _ _ _ (fun hh => hj hh.symm)
  have hnx : ∀ j, nextOf (c.buffer.set i (some { node with value := v })) j =
      nextOf c.buffer j := by
    intro j
    by_cases hj : j = i
    · subst hj
      rw [nextOf_set_self _ _ _ hilt, nextOf_of_nodeAt _ _ _ hn]
    · exact nextOf_set_ne _ _ _ _ (fun hh => hj hh.symm)
  have hpv : ∀ j, prevOf (c.buffer.set i (some { node with value := v })) j =
      prevOf c.buffer j := by
    intro j
    by_cases hj : j = i
    · subst hj
      rw [prevOf_set_self _ _ _ hilt, prevOf_of_nodeAt _ _ _ hn]
    · exact prevOf_set_ne _ _ _ _ (fun hh => hj hh.symm)
  exact ⟨chain, hfree, hlen, hnd,
    fun j => (hoccp j).trans (hocc j),
    nextChain_congr _ _ chain none (fun j _ => hoccp j) (fun j _ => hnx j) hnext,
    prevChain_congr _ _ chain (fun j _ => hoccp j) (fun j _ => hpv j) none hprev,
    hht⟩

theorem chainInv_fill (c c' : LruCache V) (k : String) (v : V)
    (inv : MapInv c) (hci : ChainInv c) (hk : mapLookup c.map k = none)
    (hlt : c.len < c.capacity) (h : c.set k v = .ok c') : ChainInv c' := by
  obtain ⟨chain, hfree, hlen, hnd, hocc, hnext, hprev, hht⟩ := hci
  have hwb : c.len < c.buffer.length := by
    rw [inv.buf_cap]
    exact hlt
  by_cases h0 : c.len = 0
  · -- the empty cache: the new chain is the single fresh slot
    have hchain0 : chain = [] := List.length_eq_zero.mp (by rw [hlen, h0])
    subst hchain0
    have hnn : c.new_head_node k v = ⟨none, none, k, v⟩ := by
      rw [LruCache.new_head_node, if_pos h0]
    have hred := push_front_fill_reduce c k v hlt hwb
    rw [hnn] at hred
    have hat := attach_second_next_none
      { c with
        head_index := c.len
        len := c.len + 1
        buffer := c.buffer.set c.len (some ⟨none, none, k, v⟩) }
      none ⟨none, none, k, v⟩ (nodeAt_set_self _ _ _ hwb) rfl
    have hpf : c.push_front k v = .ok
        ({ c with
           head_index := c.len
           len := c.len + 1
           buffer := c.buffer.set c.len (some ⟨none, none, k, v⟩) },
         c.len, none) := by
      rw [hred, hat]
    have hset := set_fresh_reduce_none c k v hk _ _ hpf
    rw [hset] at h
    injection h with h2
    subst h2
    refine ⟨[c.len], hfree, by simp only [List.length_singleton]; omega,
      List.nodup_singleton _, ?_, ?_, ?_, ?_⟩
    · intro i
      rw [List.mem_singleton]
      by_cases hic : i = c.len
      · subst hic
        simp only [iff_true]
        exact occ_set_some_self _ _ _ hwb
      · rw [occ_set_ne _ _ _ _ (fun hh => hic hh.symm), hocc i]
        simp [hic]
    · refine ⟨occ_set_some_self _ _ _ hwb, ?_, trivial⟩
      rw [nextOf_set_self _ _ _ hwb]
      rfl
    · refine ⟨occ_set_some_self _ _ _ hwb, ?_, trivial⟩
      rw [prevOf_set_self _ _ _ hwb]
    · intro _
      refine ⟨rfl, ?_⟩
      have ht0 : c.tail_index = 0 := inv.len0_tail h0
      simp [ht0, h0]
  · -- the non-empty cache: push the fresh slot in front of the old chain
    have h0p : 0 < c.len := Nat.pos_of_ne_zero h0
    obtain ⟨hh, ht⟩ := hht h0p
    cases chain with
    | nil => cases hh
    | cons hd0 rest =>
    have hhd : hd0 = c.head_index := by simpa using hh
    subst hhd
    rcases inv.head_occ h0p with ⟨hn, hhn⟩
    have hhlt : c.head_index < c.buffer.length := nodeAt_lt_length _ _ _ hhn
    have hhlen : c.head_index < c.len := inv.occ_lt _ _ hhn
    have hhne : c.head_index ≠ c.len := by omega
    have hnn : c.new_head_node k v = ⟨none, some c.head_index, k, v⟩ := by
      rw [LruCache.new_head_node, if_neg h0]
    have hred := push_front_fill_reduce c k v hlt hwb
    rw [hnn] at hred
    have hat := attach_second_next_some
      { c with
        head_index := c.len
        len := c.len + 1
        buffer := c.buffer.set c.len (some ⟨none, some c.head_index, k, v⟩) }
      none ⟨none, some c.head_index, k, v⟩ hn c.head_index
      (nodeAt_set_self _ _ _ hwb) rfl
      ((nodeAt_set_ne _ _ _ _ _ (fun hh => hhne hh.symm)).mpr hhn)
    have hpf : c.push_front k v = .ok
        ({ c with
           head_index := c.len
           len := c.len + 1
           buffer := ((c.buffer.set c.len (some ⟨none, some c.head_index, k, v⟩)).set
             c.head_index (some { hn with previous := some c.len })) },
         c.len, none) := by
      rw [hred, hat]
    have hset := set_fresh_reduce_none c k v hk _ _ hpf
    rw [hset] at h
    injection h with h2
    subst h2
    have hB : ∀ j, ((c.buffer.set c.len (some ⟨none, some c.head_index, k, v⟩)).set
        c.head_index (some { hn with previous := some c.len }))[j]? =
        if j = c.head_index then some (some { hn with previous := some c.len })
        else if j = c.len then some (some ⟨none, some c.head_index, k, v⟩)
        else c.buffer[j]? := fun j => getElem?_writes2 _ _ _ _ _ hwb hhlt j
    have hmemlt : ∀ j, j ∈ c.head_index :: rest → j < c.len := by
      intro j hj
      rcases (hocc j).mpr hj with ⟨nj, hnj⟩
      exact inv.occ_lt _ _ hnj
    have hoccw : Occ ((c.buffer.set c.len (some ⟨none, some c.head_index, k, v⟩)).set
        c.head_index (some { hn with previous := some c.len })) c.len :=
      ⟨⟨none, some c.head_index, k, v⟩, by
        rw [NodeAt, hB, if_neg hhne.symm, if_pos rfl]⟩
    have hoccp : ∀ j, j ≠ c.len →
        (Occ ((c.buffer.set c.len (some ⟨none, some c.head_index, k, v⟩)).set
          c.head_index (some { hn with previous := some c.len })) j ↔
          Occ c.buffer j) := by
      intro j hj
      by_cases hjh : j = c.head_index
      · subst hjh
        constructor
        · intro _
          exact ⟨hn, hhn⟩
        · intro _
          exact ⟨{ hn with previous := some c.len }, by
            rw [NodeAt, hB, if_pos rfl]⟩
      · constructor
        · rintro ⟨nj, hnj⟩
          rw [NodeAt, hB, if_neg hjh, if_neg hj] at hnj
          exact ⟨nj, hnj⟩
        · rintro ⟨nj, hnj⟩
          exact ⟨nj, by rw [NodeAt, hB, if_neg hjh, if_neg hj]; exact hnj⟩
    have hnxp : ∀ j, j ≠ c.len →
        nextOf ((c.buffer.set c.len (some ⟨none, some c.head_index, k, v⟩)).set
          c.head_index (some { hn with previous := some c.len })) j =
          nextOf c.buffer j := by
      intro j hj
      by_cases hjh : j = c.head_index
      · subst hjh
        rw [nextOf, hB, if_pos rfl, nextOf_of_nodeAt _ _ _ hhn]
      · rw [nextOf, hB, if_neg hjh, if_neg hj, nextOf]
    have hpvp : ∀ j, j ≠ c.len → j ≠ c.head_index →
        prevOf ((c.buffer.set c.len (some ⟨none, some c.head_index, k, v⟩)).set
          c.head_index (some { hn with previous := some c.len })) j =
          prevOf c.buffer j := by
      intro j hj hjh
      rw [prevOf, hB, if_neg hjh, if_neg hj, prevOf]
    have hndchain : (c.head_index :: rest).Nodup := hnd
    refine ⟨c.len :: c.head_index :: rest, hfree, ?_, ?_, ?_, ?_, ?_, ?_⟩
    · simp only [List.length_cons] at hlen ⊢
      omega
    · rw [List.nodup_cons]
      refine ⟨?_, hndchain⟩
      intro hmem
      have := hmemlt _ hmem
      omega
    · intro i
      rw [List.mem_cons]
      by_cases hic : i = c.len
      · subst hic
        simp only [true_or, iff_true]
        exact hoccw
      · rw [hoccp i hic, hocc i]
        simp [hic]
    · refine ⟨hoccw, ?_, ?_⟩
      · rw [nextOf, hB, if_neg hhne.symm, if_pos rfl]
        rfl
      · refine nextChain_congr c.buffer _ (c.head_index :: rest) none ?_ ?_ hnext
        · intro i hi
          exact hoccp i (by have := hmemlt i hi; omega)
        · intro i hi
          exact hnxp i (by have := hmemlt i hi; omega)
    · refine ⟨hoccw, ?_, ?_, ?_, ?_⟩
      · rw [prevOf, hB, if_neg hhne.symm, if_pos rfl]
      · exact (hoccp c.head_index hhne).mpr ⟨hn, hhn⟩
      · rw [prevOf, hB, if_pos rfl]
      · have hrest : PrevChain c.buffer (some c.head_index) rest := hprev.2.2
        refine prevChain_congr c.buffer _ rest ?_ ?_ (some c.head_index) hrest
        · intro i hi
          exact hoccp i
            (by have := hmemlt i (List.mem_cons_of_mem _ hi); omega)
        · intro i hi
          have hine : i ≠ c.head_index := by
            intro hh
            subst hh
            exact (List.nodup_cons.mp hndchain).1 hi
          exact hpvp i
            (by have := hmemlt i (List.mem_cons_of_mem _ hi); omega) hine
    · intro _
      refine ⟨rfl, ?_⟩
      rw [List.getLast?_cons_cons]
      exact ht

theorem chainInv_evict (c c' : LruCache V) (k : String) (v : V)
    (inv : MapInv c) (hci : ChainInv c) (hk : mapLookup c.map k = none)
    (hge : ¬ c.len < c.capacity) (hcap : c.capacity ≠ 1)
    (h : c.set k v = .ok c') : ChainInv c' := by
  obtain ⟨chain, hfree, hlen, hnd, hocc, hnext, hprev, hht⟩ := hci
  by_cases h0 : c.len = 0
  · have herr := set_fresh_evict_err c k v inv hk hge hfree h0
    rw [herr] at h
    cases h
  have h0p : 0 < c.len := Nat.pos_of_ne_zero h0
  have hlencap : c.len = c.capacity := by
    have := inv.len_le
    omega
  have hlen2 : 2 ≤ c.len := by omega
  obtain ⟨hh, ht⟩ := hht h0p
  rcases List.eq_nil_or_concat chain with hnil | ⟨ys, t, hconcat⟩
  · rw [hnil] at hlen
    simp at hlen
    omega
  rw [List.concat_eq_append] at hconcat
  subst hconcat
  have htt : t = c.tail_index := by
    rw [List.getLast?_concat] at ht
    injection ht
  subst htt
  cases ys with
  | nil =>
    simp at hlen
    omega
  | cons hd ys2 =>
  have hhd : hd = c.head_index := by
    simpa using hh
  subst hhd
  rcases List.eq_nil_or_concat (c.head_index :: ys2) with habs | ⟨zs, p, hys⟩
  · cases habs
  rw [List.concat_eq_append] at hys
  have hmemchain : ∀ j, j ∈ (c.head_index :: ys2) ++ [c.tail_index] →
      Occ c.buffer j := fun j hj => (hocc j).mpr hj
  obtain ⟨tnode, htn⟩ := hmemchain c.tail_index (by simp)
  have hpmem : p ∈ c.head_index :: ys2 := by
    rw [hys]
    simp
  obtain ⟨mnode, hmn⟩ := hmemchain p (List.mem_append_left _ hpmem)
  obtain ⟨hn, hhn⟩ := hmemchain c.head_index
    (List.mem_append_left _ (List.mem_cons_self _ _))
  have htlt : c.tail_index < c.buffer.length := nodeAt_lt_length _ _ _ htn
  have hplt : p < c.buffer.length := nodeAt_lt_length _ _ _ hmn
  have hhlt : c.head_index < c.buffer.length := nodeAt_lt_length _ _ _ hhn
  -- distinctness of head, tail, and the new tail p
  have hperm : ((c.head_index :: ys2) ++ [c.tail_index]).Perm
      (c.tail_index :: c.head_index :: ys2) :=
    List.perm_append_singleton _ _
  have hndt : (c.tail_index :: c.head_index :: ys2).Nodup :=
    hperm.nodup_iff.mp hnd
  have htnotin : c.tail_index ∉ c.head_index :: ys2 := (List.nodup_cons.mp hndt).1
  have hndys : (c.head_index :: ys2).Nodup := (List.nodup_cons.mp hndt).2
  have hhdnt : c.head_index ≠ c.tail_index := by
    intro hh
    exact htnotin (by rw [← hh]; exact List.mem_cons_self _ _)
  have hpnt : p ≠ c.tail_index := by
    intro hh
    exact htnotin (hh ▸ hpmem)
  have hpnotzs : p ∉ zs := by
    have hnd2 : (zs ++ [p]).Nodup := by
      rw [← hys]
      exact hndys
    have := (List.perm_append_singleton p zs).nodup_iff.mp hnd2
    exact (List.nodup_cons.mp this).1
  -- the old tail's `previous` points at p, the new tail
  have hprev2 := hprev
  rw [prevChain_append] at hprev2
  obtain ⟨hprevys, _, hprevt⟩ := hprev2
  have hpt : prevOf c.buffer c.tail_index = some p := by
    rw [hprevt, hys, List.reverse_append]
    rfl
  have htprev : tnode.previous = some p := by
    rw [prevOf_of_nodeAt _ _ _ htn] at hpt
    exact hpt
  -- reduce `set` to the explicit final state
  have hnn : c.new_head_node k v = ⟨none, some c.head_index, k, v⟩ := by
    rw [LruCache.new_head_node, if_neg h0]
  have hred := push_front_evict_some_reduce c k v tnode mnode p hge hfree htn
    htprev hmn
  rw [hnn] at hred
  have hhd'ex : ∃ hnode : Node V,
      NodeAt ((c.buffer.set p (some { mnode with next := none })).set
        c.tail_index (some ⟨none, some c.head_index, k, v⟩)) c.head_index hnode ∧
      hnode.next = (if c.head_index = p then none else hn.next) := by
    by_cases hdp : c.head_index = p
    · refine ⟨{ mnode with next := none }, ?_, by rw [if_pos hdp]⟩
      rw [NodeAt, List.getElem?_set_ne (fun hh => hhdnt hh.symm), hdp,
        List.getElem?_set_self (by simpa using hplt)]
    · refine ⟨hn, ?_, by rw [if_neg hdp]⟩
      rw [NodeAt, List.getElem?_set_ne (fun hh => hhdnt hh.symm),
        List.getElem?_set_ne (fun hh => hdp hh.symm)]
      exact hhn
  obtain ⟨HD, hhd', hhdnext⟩ := hhd'ex
  have hB0t : NodeAt ((c.buffer.set p (some { mnode with next := none })).set
      c.tail_index (some ⟨none, some c.head_index, k, v⟩)) c.tail_index
      ⟨none, some c.head_index, k, v⟩ :=
    nodeAt_set_self _ _ _ (by simpa using htlt)
  have hat := attach_second_next_some
    { c with
      head_index := c.tail_index
      tail_index := p
      buffer := ((c.buffer.set p (some { mnode with next := none })).set
        c.tail_index (some ⟨none, some c.head_index, k, v⟩)) }
    (some tnode.key) ⟨none, some c.head_index, k, v⟩ HD c.head_index hB0t rfl hhd'
  have hpf : c.push_front k v = .ok
      ({ c with
         head_index := c.tail_index
         tail_index := p
         buffer := (((c.buffer.set p (some { mnode with next := none })).set
           c.tail_index (some ⟨none, some c.head_index, k, v⟩)).set
           c.head_index (some { HD with previous := some c.tail_index })) },
       c.tail_index, some tnode.key) := by
    rw [hred, hat]
  have hset := set_fresh_reduce_some c k v hk _ _ tnode.key hpf
  rw [hset] at h
  injection h with h2
  subst h2
  -- pointwise description of the final buffer
  have hBj : ∀ j, ((((c.buffer.set p (some { mnode with next := none })).set
      c.tail_index (some ⟨none, some c.head_index, k, v⟩)).set
      c.head_index (some { HD with previous := some c.tail_index })))[j]? =
      if j = c.head_index then some (some { HD with previous := some c.tail_index })
      else if j = c.tail_index then some (some ⟨none, some c.head_index, k, v⟩)
      else if j = p then some (some { mnode with next := none })
      else c.buffer[j]? :=
    fun j => getElem?_writes3 _ _ _ _ _ _ _ hplt htlt hhlt j
  have hoccB : ∀ j, Occ ((((c.buffer.set p (some { mnode with next := none })).set
      c.tail_index (some ⟨none, some c.head_index, k, v⟩)).set
      c.head_index (some { HD with previous := some c.tail_index }))) j ↔
      Occ c.buffer j := by
    intro j
    by_cases hj1 : j = c.head_index
    · subst hj1
      exact ⟨fun _ => ⟨hn, hhn⟩,
        fun _ => ⟨_, by rw [NodeAt, hBj, if_pos rfl]⟩⟩
    · by_cases hj2 : j = c.tail_index
      · subst hj2
        exact ⟨fun _ => ⟨tnode, htn⟩,
          fun _ => ⟨_, by rw [NodeAt, hBj, if_neg hj1, if_pos rfl]⟩⟩
      · by_cases hj3 : j = p
        · subst hj3
          exact ⟨fun _ => ⟨mnode, hmn⟩,
            fun _ => ⟨_, by rw [NodeAt, hBj, if_neg hj1, if_neg hj2, if_pos rfl]⟩⟩
        · constructor
          · rintro ⟨nj, hnj⟩
            rw [NodeAt, hBj, if_neg hj1, if_neg hj2, if_neg hj3] at hnj
            exact ⟨nj, hnj⟩
          · rintro ⟨nj, hnj⟩
            refine ⟨nj, ?_⟩
            rw [NodeAt, hBj, if_neg hj1, if_neg hj2, if_neg hj3]
            exact hnj
  have hnxBhd : nextOf ((((c.buffer.set p (some { mnode with next := none })).set
      c.tail_index (some ⟨none, some c.head_index, k, v⟩)).set
      c.head_index (some { HD with previous := some c.tail_index })))
      c.head_index = HD.next := by
    rw [nextOf, hBj, if_pos rfl]
  have hpvBhd : prevOf ((((c.buffer.set p (some { mnode with next := none })).set
      c.tail_index (some ⟨none, some c.head_index, k, v⟩)).set
      c.head_index (some { HD with previous := some c.tail_index })))
      c.head_index = some c.tail_index := by
    rw [prevOf, hBj, if_pos rfl]
  have hnxBt : nextOf ((((c.buffer.set p (some { mnode with next := none })).set
      c.tail_index (some ⟨none, some c.head_index, k, v⟩)).set
      c.head_index (some { HD with previous := some c.tail_index })))
      c.tail_index = some c.head_index := by
    rw [nextOf, hBj, if_neg (fun hh => hhdnt hh.symm), if_pos rfl]
  have hpvBt : prevOf ((((c.buffer.set p (some { mnode with next := none })).set
      c.tail_index (some ⟨none, some c.head_index, k, v⟩)).set
      c.head_index (some { HD with previous := some c.tail_index })))
      c.tail_index = none := by
    rw [prevOf, hBj, if_neg (fun hh => hhdnt hh.symm), if_pos rfl]
  have hnxBp : nextOf ((((c.buffer.set p (some { mnode with next := none })).set
      c.tail_index (some ⟨none, some c.head_index, k, v⟩)).set
      c.head_index (some { HD with previous := some c.tail_index }))) p = none := by
    by_cases hdp : c.head_index = p
    · rw [nextOf, hBj, if_pos hdp.symm]
      show HD.next = none
      rw [hhdnext, if_pos hdp]
    · rw [nextOf, hBj, if_neg (fun hh => hdp hh.symm), if_neg hpnt, if_pos rfl]
  have hnxOther : ∀ j, j ≠ c.head_index → j ≠ c.tail_index → j ≠ p →
      nextOf ((((c.buffer.set p (some { mnode with next := none })).set
        c.tail_index (some ⟨none, some c.head_index, k, v⟩)).set
        c.head_index (some { HD with previous := some c.tail_index }))) j =
      nextOf c.buffer j := by
    intro j h1 h2 h3
    rw [nextOf, hBj, if_neg h1, if_neg h2, if_neg h3, nextOf]
  have hpvOther : ∀ j, j ≠ c.head_index → j ≠ c.tail_index →
      prevOf ((((c.buffer.set p (some { mnode with next := none })).set
        c.tail_index (some ⟨none, some c.head_index, k, v⟩)).set
        c.head_index (some { HD with previous := some c.tail_index }))) j =
      prevOf c.buffer j := by
    intro j h1 h2
    by_cases h3 : j = p
    · subst h3
      rw [prevOf, hBj, if_neg h1, if_neg h2, if_pos rfl,
        prevOf_of_nodeAt _ _ _ hmn]
    · rw [prevOf, hBj, if_neg h1, if_neg h2, if_neg h3, prevOf]
  have hzsne : ∀ j, j ∈ zs → j ≠ c.tail_index ∧ j ≠ p := by
    intro j hj
    have hjys : j ∈ c.head_index :: ys2 := by
      rw [hys]
      exact List.mem_append_left _ hj
    exact ⟨fun hh => htnotin (hh ▸ hjys), fun hh => hpnotzs (hh ▸ hj)⟩
  have hhdnp : c.head_index ≠ p ∨ zs = [] := by
    cases zs with
    | nil => exact Or.inr rfl
    | cons z0 zrest =>
      left
      intro hh
      have hz0 : z0 = c.head_index := by
        have : (c.head_index :: ys2).head? = (z0 :: zrest ++ [p]).head? := by
          rw [hys]
        simpa using this.symm
      exact hpnotzs (by rw [← hh, ← hz0]; exact List.mem_cons_self _ _)
  refine ⟨c.tail_index :: c.head_index :: ys2, hfree, ?_, hndt, ?_, ?_, ?_, ?_⟩
  · simp only [List.length_append, List.length_cons, List.length_nil] at hlen ⊢
    omega
  · intro i
    rw [(hoccB i), (hocc i)]
    exact hperm.mem_iff
  · refine ⟨(hoccB c.tail_index).mpr ⟨tnode, htn⟩, by rw [hnxBt]; rfl, ?_⟩
    have hnys : NextChain c.buffer (c.head_index :: ys2) (some c.tail_index) :=
      ((nextChain_append c.buffer _ _ _).mp hnext).1
    rw [hys] at hnys
    obtain ⟨hnzs, _, _⟩ := (nextChain_append c.buffer _ _ _).mp hnys
    have hgoal : NextChain ((((c.buffer.set p
        (some { mnode with next := none })).set
        c.tail_index (some ⟨none, some c.head_index, k, v⟩)).set
        c.head_index (some { HD with previous := some c.tail_index })))
        (zs ++ [p]) none := by
      refine (nextChain_append _ _ _ _).mpr ⟨?_, (hoccB p).mpr ⟨mnode, hmn⟩, hnxBp⟩
      refine nextChain_congr c.buffer _ zs (some p) (fun j _ => hoccB j) ?_ hnzs
      intro j hj
      obtain ⟨hjt, hjp⟩ := hzsne j hj
      by_cases hjh : j = c.head_index
      · subst hjh
        rw [hnxBhd, hhdnext, if_neg hjp, nextOf_of_nodeAt _ _ _ hhn]
      · exact hnxOther j hjh hjt hjp
    rw [← hys] at hgoal
    exact hgoal
  · refine ⟨(hoccB c.tail_index).mpr ⟨tnode, htn⟩, hpvBt, ?_, ?_, ?_⟩
    · exact (hoccB c.head_index).mpr ⟨hn, hhn⟩
    · exact hpvBhd
    · have hprevys2 : PrevChain c.buffer (some c.head_index) ys2 := hprevys.2.2
      refine prevChain_congr c.buffer _ ys2 (fun j _ => hoccB j) ?_ _ hprevys2
      intro j hj
      have hjh : j ≠ c.head_index := by
        intro hh
        exact (List.nodup_cons.mp hndys).1 (hh ▸ hj)
      have hjt : j ≠ c.tail_index := by
        intro hh
        exact htnotin (hh ▸ List.mem_cons_of_mem _ hj)
      exact hpvOther j hjh hjt
  · intro _
    refine ⟨rfl, ?_⟩
    rw [List.getLast?_cons_cons, hys, List.getLast?_concat]

theorem set_preserves_capacity (c c' : LruCache V) (k : String) (v : V)
    (inv : MapInv c) (h : c.set k v = .ok c') : c'.capacity = c.capacity := by
  cases hlk : mapLookup c.map k with
  | some i =>
    rcases set_existing_eq c k v i inv hlk with ⟨node, _, _, heq⟩
    rw [heq] at h
    injection h with h2
    subst h2
    rfl
  | none =>
    by_cases hlt : c.len < c.capacity
    · rcases set_fresh_fill_spec c k v inv hlk hlt with ⟨c2, heq, _, _, _, hcap, _⟩
      rw [heq] at h
      injection h with h2
      subst h2
      exact hcap
    · cases hfree : c.free with
      | cons idx rest =>
        rcases set_fresh_pop_spec c k v idx rest inv hlk hlt hfree with
          ⟨c2, heq, _, _, _, hcap, _⟩
        rw [heq] at h
        injection h with h2
        subst h2
        exact hcap
      | nil =>
        by_cases h0 : 0 < c.len
        · rcases set_fresh_evict_spec c k v inv hlk hlt hfree h0 with
            ⟨c2, tnode, _, heq, _, _, _, hcap, _⟩
          rw [heq] at h
          injection h with h2
          subst h2
          exact hcap
        · have herr := set_fresh_evict_err c k v inv hlk hlt hfree (by omega)
          rw [herr] at h
          cases h

theorem chainInv_set (c c' : LruCache V) (k : String) (v : V)
    (inv : MapInv c) (hci : ChainInv c) (hcap : c.capacity ≠ 1)
    (h : c.set k v = .ok c') : ChainInv c' := by
  cases hlk : mapLookup c.map k with
  | some i =>
    rcases set_existing_eq c k v i inv hlk with ⟨node, hn, _, heq⟩
    rw [heq] at h
    injection h with h2
    subst h2
    exact chainInv_replace c i node v hci hn
  | none =>
    by_cases hlt : c.len < c.capacity
    · exact chainInv_fill c c' k v inv hci hlk hlt h
    · exact chainInv_evict c c' k v inv hci hlk hlt hcap h

theorem setReachable_reachable (c : LruCache V) (h : SetReachable c) :
    Reachable c := by
  induction h with
  | base size => exact Reachable.base size
  | set_step c0 c1 k v hr hstep ih => exact Reachable.set_step c0 c1 k v ih hstep

theorem setReachable_chainInv (c : LruCache V) (h : SetReachable c) :
    c.capacity ≠ 1 → ChainInv c := by
  induction h with
  | base size =>
    intro _
    exact chainInv_new V size
  | set_step c0 c1 k v hr hstep ih =>
    intro hcap1
    have hinv : MapInv c0 := reachable_mapInv c0 (setReachable_reachable c0 hr)
    have hcapeq : c1.capacity = c0.capacity :=
      set_preserves_capacity c0 c1 k v hinv hstep
    have hcap0 : c0.capacity ≠ 1 := by
      rw [← hcapeq]
      exact hcap1
    exact chainInv_set c0 c1 k v hinv (ih hcap0) hcap0 hstep

/-! ### Concrete reachable states used as witnesses and counterexamples -/

/-- The capacity-1 cache after `new 1; set "a" 1`. -/
def cacheA1 : LruCache Nat :=
  { map := [("a", 0)]
    buffer := [some { previous := none, next := none, key := "a", value := 1 }]
    head_index := 0
    tail_index := 0
    len := 1
    capacity := 1
    free := [] }

/-- The capacity-1 cache after `new 1; set "a" 1; get "a"`: the single node
now links to itself in both directions. -/
def cacheA2 : LruCache Nat :=
  { map := [("a", 0)]
    buffer := [some { previous := some 0, next := some 0, key := "a", value := 1 }]
    head_index := 0
    tail_index := 0
    len := 1
    capacity := 1
    free := [] }

/-- The capacity-2 cache after `new 2; set "a" 1`. -/
def cacheB1 : LruCache Nat :=
  { map := [("a", 0)]
    buffer := [some { previous := none, next := none, key := "a", value := 1 },
               none]
    head_index := 0
    tail_index := 0
    len := 1
    capacity := 2
    free := [] }

/-- The capacity-3 cache after `new 3; set "a" 1`. -/
def cacheD1 : LruCache Nat :=
  { map := [("a", 0)]
    buffer := [some { previous := none, next := none, key := "a", value := 1 },
               none, none]
    head_index := 0
    tail_index := 0
    len := 1
    capacity := 3
    free := [] }

/-- The capacity-3 cache after `new 3; set "a" 1; set "b" 2`. -/
def cacheD2 : LruCache Nat :=
  { map := [("b", 1), ("a", 0)]
    buffer := [some { previous := some 1, next := none, key := "a", value := 1 },
               some { previous := none, next := some 0, key := "b", value := 2 },
               none]
    head_index := 1
    tail_index := 0
    len := 2
    capacity := 3
    free := [] }

/-- The capacity-3 cache after `new 3; set "a" 1; set "b" 2; get "a"`:
`len` is 3 although only two keys are stored, and slot 0 sits on the free
list while `tail_index` still points at it. -/
def cacheD3 : LruCache Nat :=
  { map := [("a", 2), ("b", 1)]
    buffer := [none,
               some { previous := some 2, next := none, key := "b", value := 2 },
               some { previous := none, next := some 1, key := "a", value := 1 }]
    head_index := 2
    tail_index := 0
    len := 3
    capacity := 3
    free := [0] }

theorem cacheA1_step : (LruCache.new Nat 1).set "a" 1 = .ok cacheA1 := by
  rfl

theorem cacheA2_step : cacheA1.get "a" = .ok (some 1, cacheA2) := by
  rfl

theorem reachable_cacheA1 : Reachable cacheA1 :=
  Reachable.set_step (LruCache.new Nat 1) cacheA1 "a" 1
    (Reachable.base 1) cacheA1_step

theorem reachable_cacheA2 : Reachable cacheA2 :=
  Reachable.get_step cacheA1 cacheA2 "a" (some 1) reachable_cacheA1 cacheA2_step

theorem cacheD3_steps : (LruCache.new Nat 3).set "a" 1 = .ok cacheD1 ∧
    cacheD1.set "b" 2 = .ok cacheD2 ∧ cacheD2.get "a" = .ok (some 1, cacheD3) := by
  refine ⟨?_, ?_, ?_⟩ <;> rfl

theorem setReachable_cacheD2 : SetReachable cacheD2 :=
  SetReachable.set_step cacheD1 cacheD2 "b" 2
    (SetReachable.set_step (LruCache.new Nat 3) cacheD1 "a" 1
      (SetReachable.base 3) cacheD3_steps.1)
    cacheD3_steps.2.1

theorem reachable_cacheD3 : Reachable cacheD3 :=
  Reachable.get_step cacheD2 cacheD3 "a" (some 1)
    (Reachable.set_step cacheD1 cacheD2 "b" 2
      (Reachable.set_step (LruCache.new Nat 3) cacheD1 "a" 1
        (Reachable.base 3) cacheD3_steps.1)
      cacheD3_steps.2.1)
    cacheD3_steps.2.2

/-- A fresh iterator yields the value stored at `head_index` first. -/
theorem iter_first (c : LruCache V) (v : V)
    (h : valAt c.buffer c.head_index = some v) :
    ∃ it', c.iter.next = .ok (some v, it') := by
  rw [valAt] at h
  cases hb : c.buffer[c.head_index]? with
  | none =>
    rw [hb] at h
    cases h
  | some s =>
    cases s with
    | none =>
      rw [hb] at h
      cases h
    | some n =>
      rw [hb] at h
      injection h with h1
      refine ⟨{ current_idx := n.next, buffer := c.buffer }, ?_⟩
      simp only [LruCache.iter, LruCacheIter.next, hb, h1]

/-! ### The claims -/

/-- C1: for a cache at capacity (`len = capacity`, empty free list, at least
one entry), `set` with an absent key evicts exactly the key stored at the
recency-list tail slot: afterwards that key is absent (`get` reports `none`)
while every other key's index entry is untouched, and the new key sits in the
old tail slot. -/
theorem c1_at_capacity_set_evicts_lru (c : LruCache V) (k tk : String) (v : V)
    (h : Reachable c) (hk : mapLookup c.map k = none)
    (hlen : c.len = c.capacity) (hfree : c.free = []) (h0 : 0 < c.len)
    (htk : keyAt c.buffer c.tail_index = some tk) :
    ∃ c', c.set k v = .ok c' ∧
      mapLookup c'.map k = some c.tail_index ∧
      c'.get tk = .ok (none, c') ∧
      (∀ q, q ≠ k → q ≠ tk → mapLookup c'.map q = mapLookup c.map q) := by
  have inv := reachable_mapInv c h
  have hge : ¬ c.len < c.capacity := by omega
  rcases set_fresh_evict_spec c k v inv hk hge hfree h0 with
    ⟨c', tnode, htn, hset, _, _, _, _, _, hnewk, hgone, hpres, _, _⟩
  have hkeq : tnode.key = tk := by
    have := keyAt_of_nodeAt _ _ _ htn
    rw [this] at htk
    injection htk
  refine ⟨c', hset, hnewk, ?_, ?_⟩
  · rw [← hkeq]
    exact get_absent c' tnode.key hgone
  · intro q hqk hqtk
    exact hpres q hqk (by rw [hkeq]; exact hqtk)

/-- C1 witness: the full capacity-1 cache holding `"a"`; `set "b" 2` evicts
`"a"`. -/
theorem c1_witness :
    Reachable cacheA1 ∧ mapLookup cacheA1.map "b" = none ∧
    cacheA1.len = cacheA1.capacity ∧ cacheA1.free = [] ∧ 0 < cacheA1.len ∧
    keyAt cacheA1.buffer cacheA1.tail_index = some "a" ∧
    (∃ c', cacheA1.set "b" 2 = .ok c' ∧
      mapLookup c'.map "b" = some cacheA1.tail_index ∧
      c'.get "a" = .ok (none, c') ∧
      (∀ q, q ≠ "b" → q ≠ "a" → mapLookup c'.map q = mapLookup cacheA1.map q)) :=
  ⟨reachable_cacheA1, rfl, rfl, rfl, by decide, rfl,
   c1_at_capacity_set_evicts_lru cacheA1 "b" "a" 2 reachable_cacheA1
     rfl rfl rfl (by decide) rfl⟩

/-- C3: the claim that `get` after a fresh `set` returns the value (with only
a capacity-1 carve-out) is refuted by the code: on a fresh capacity-2 cache,
`set "a" 1` succeeds and then `get "a"` panics inside `push_front` with
"The next node should be a valid Node and not None." — no eviction was
involved. -/
theorem c3_set_then_get_panics :
    (LruCache.new Nat 2).set "a" 1 = .ok cacheB1 ∧
    mapLookup cacheB1.map "a" = some 0 ∧
    cacheB1.get "a" = .error "The next node should be a valid Node and not None." :=
  ⟨rfl, rfl, rfl⟩

/-- C4 counterexample: a reachable state (capacity 3 after
`set "a" 1; set "b" 2; get "a"`) in which `len = 3` but the key index holds
only two keys: `len` is a high-water mark of arena usage, not the number of
mapped keys. -/
theorem c4_len_counterexample :
    ∃ c : LruCache Nat, Reachable c ∧ c.len ≠ c.map.length :=
  ⟨cacheD3, reachable_cacheD3, by decide⟩

/-- C4 (amended): in every reachable state, `len` equals the number of mapped
keys plus the number of free-listed slots; each mapped key points at an
occupied slot that stores that key, and distinct keys point at distinct
slots. -/
theorem c4_len_amended (c : LruCache V) (h : Reachable c) :
    c.len = c.map.length + c.free.length ∧
    (∀ k i, mapLookup c.map k = some i → keyAt c.buffer i = some k) ∧
    (∀ k1 k2 i, mapLookup c.map k1 = some i → mapLookup c.map k2 = some i →
      k1 = k2) := by
  have inv := reachable_mapInv c h
  refine ⟨inv.count.symm, inv.map_occ, ?_⟩
  intro k1 k2 i h1 h2
  have e1 := inv.map_occ k1 i h1
  have e2 := inv.map_occ k2 i h2
  rw [e1] at e2
  injection e2

/-- C4 witness: the amended accounting at the concrete state `cacheD3`
(two mapped keys, one free slot, `len = 3`). -/
theorem c4_witness :
    Reachable cacheD3 ∧
    (cacheD3.len = cacheD3.map.length + cacheD3.free.length ∧
     (∀ k i, mapLookup cacheD3.map k = some i → keyAt cacheD3.buffer i = some k) ∧
     (∀ k1 k2 i, mapLookup cacheD3.map k1 = some i →
       mapLookup cacheD3.map k2 = some i → k1 = k2)) :=
  ⟨reachable_cacheD3, c4_len_amended cacheD3 reachable_cacheD3⟩

/-- C5: when `get` of a present key returns, it returns the key's value, the
key's entry is at `head_index`, and a fresh iterator yields that value
first. -/
theorem c5_get_moves_head (c c' : LruCache V) (k : String) (r : Option V)
    (h : Reachable c) (hk : (mapLookup c.map k).isSome)
    (hok : c.get k = .ok (r, c')) :
    ∃ v, r = some v ∧ mapLookup c'.map k = some c'.head_index ∧
      (∃ it', c'.iter.next = .ok (some v, it')) := by
  have inv := reachable_mapInv c h
  cases hS : mapLookup c.map k with
  | none =>
    rw [hS] at hk
    cases hk
  | some S =>
    by_cases hlt : c.len < c.capacity
    · rcases get_present_fill_spec c k S inv hS hlt with ⟨e, herr⟩ | hokk
      · rw [herr] at hok
        cases hok
      · rcases hokk with ⟨v, c2, heq, _, _, _, _, _, hhead, _, hmap, _, _, _, hval⟩
        rw [heq] at hok
        injection hok with h1
        injection h1 with h2 h3
        subst h3
        refine ⟨v, h2.symm, by rw [hhead]; exact hmap, ?_⟩
        apply iter_first
        rw [hhead]
        exact hval
    · rcases get_present_cap_spec c k S inv hS hlt with
        ⟨v, c2, heq, _, _, _, _, _, hhead, _, hmap, _, _, hval⟩
      rw [heq] at hok
      injection hok with h1
      injection h1 with h2 h3
      subst h3
      refine ⟨v, h2.symm, by rw [hhead]; exact hmap, ?_⟩
      apply iter_first
      rw [hhead]
      exact hval

/-- C5 witness: `get "a"` on the full capacity-1 cache returns `1` and leaves
`"a"` at the head; the iterator yields `1` first. -/
theorem c5_witness :
    Reachable cacheA1 ∧ (mapLookup cacheA1.map "a").isSome = true ∧
    cacheA1.get "a" = .ok (some 1, cacheA2) ∧
    (∃ v, some 1 = some v ∧ mapLookup cacheA2.map "a" = some cacheA2.head_index ∧
      (∃ it', cacheA2.iter.next = .ok (some v, it'))) :=
  ⟨reachable_cacheA1, rfl, cacheA2_step,
   c5_get_moves_head cacheA1 cacheA2 "a" (some 1) reachable_cacheA1
     (by decide) cacheA2_step⟩

/-- C6: iteration does not always terminate. After `set "a" 1; get "a"` on a
capacity-1 cache (state `cacheA2`, reachable), the single node's `next` points
back at itself, so the iterator returns its own state along with a value:
driving it any number of steps keeps yielding `1` and never reaches `none`. -/
theorem c6_iter_nonterminating :
    Reachable cacheA2 ∧
    cacheA2.iter.next = .ok (some 1, cacheA2.iter) ∧
    ∀ n, iterN cacheA2.iter n = .ok (List.replicate n 1, cacheA2.iter) := by
  refine ⟨reachable_cacheA2, rfl, ?_⟩
  intro n
  induction n with
  | zero => rfl
  | succ m ih =>
    have hnext : cacheA2.iter.next = .ok (some 1, cacheA2.iter) := rfl
    simp only [iterN, hnext, ih]
    rfl

/-- C7: `set` on a present key only overwrites the stored value at the key's
slot: the key index, `len`, the free list, `head_index`, `tail_index`, every
slot's key and both links, and all other slots are unchanged. -/
theorem c7_set_existing_frame (c : LruCache V) (k : String) (v : V) (i : Nat)
    (h : Reachable c) (hk : mapLookup c.map k = some i) :
    ∃ c', c.set k v = .ok c' ∧
      c'.map = c.map ∧ c'.len = c.len ∧ c'.free = c.free ∧
      c'.head_index = c.head_index ∧ c'.tail_index = c.tail_index ∧
      c'.capacity = c.capacity ∧
      valAt c'.buffer i = some v ∧
      (∀ j, j ≠ i → c'.buffer[j]? = c.buffer[j]?) ∧
      (∀ j, keyAt c'.buffer j = keyAt c.buffer j) ∧
      (∀ j, nextOf c'.buffer j = nextOf c.buffer j) ∧
      (∀ j, prevOf c'.buffer j = prevOf c.buffer j) := by
  have inv := reachable_mapInv c h
  rcases set_existing_eq c k v i inv hk with ⟨node, hn, hkeq, heq⟩
  have hilt : i < c.buffer.length := nodeAt_lt_length _ _ _ hn
  refine ⟨_, heq, rfl, rfl, rfl, rfl, rfl, rfl, ?_, ?_, ?_, ?_, ?_⟩
  · exact valAt_set_self _ _ _ hilt
  · intro j hj
    exact List.getElem?_set_ne (fun hh => hj hh.symm)
  · intro j
    by_cases hj : j = i
    · subst hj
      rw [keyAt_set_self _ _ _ hilt, keyAt_of_nodeAt _ _ _ hn]
    · rw [keyAt, keyAt, List.getElem?_set_ne (fun hh => hj hh.symm)]
  · intro j
    by_cases hj : j = i
    · subst hj
      rw [nextOf, List.getElem?_set_self hilt, nextOf, hn]
    · rw [nextOf, nextOf, List.getElem?_set_ne (fun hh => hj hh.symm)]
  · intro j
    by_cases hj : j = i
    · subst hj
      rw [prevOf, List.getElem?_set_self hilt, prevOf, hn]
    · rw [prevOf, prevOf, List.getElem?_set_ne (fun hh => hj hh.symm)]

/-- C7 witness: overwriting `"a"` on the capacity-1 cache keeps everything but
the stored value. -/
theorem c7_witness :
    Reachable cacheA1 ∧ mapLookup cacheA1.map "a" = some 0 ∧
    (∃ c', cacheA1.set "a" 5 = .ok c' ∧
      c'.map = cacheA1.map ∧ c'.len = cacheA1.len ∧ c'.free = cacheA1.free ∧
      c'.head_index = cacheA1.head_index ∧ c'.tail_index = cacheA1.tail_index ∧
      c'.capacity = cacheA1.capacity ∧
      valAt c'.buffer 0 = some 5 ∧
      (∀ j, j ≠ 0 → c'.buffer[j]? = cacheA1.buffer[j]?) ∧
      (∀ j, keyAt c'.buffer j = keyAt cacheA1.buffer j) ∧
      (∀ j, nextOf c'.buffer j = nextOf cacheA1.buffer j) ∧
      (∀ j, prevOf c'.buffer j = prevOf cacheA1.buffer j)) :=
  ⟨reachable_cacheA1, rfl,
   c7_set_existing_frame cacheA1 "a" 5 0 reachable_cacheA1 rfl⟩

/-- C8 counterexample: on the full capacity-1 cache holding `"a"` at slot 0,
`get "a"` succeeds and the entry ends up at slot 0 again — the relocation
reuses exactly the slot the entry was detached from, contradicting S′ ≠ S. -/
theorem c8_slot_counterexample :
    ∃ (c c' : LruCache Nat) (v : Nat), Reachable c ∧
      mapLookup c.map "a" = some 0 ∧ c.get "a" = .ok (some v, c') ∧
      mapLookup c'.map "a" = some 0 :=
  ⟨cacheA1, cacheA2, 1, reachable_cacheA1, rfl, cacheA2_step, rfl⟩

/-- C8 (amended): when `get` of a key present at slot S returns, the entry's
new slot is S itself whenever the cache is at its high-water mark
(`¬ len < capacity`); only when `len < capacity` does the entry move, namely
to the fresh slot `len`, which differs from S. -/
theorem c8_slot_amended (c c' : LruCache V) (k : String) (S : Nat)
    (r : Option V) (h : Reachable c) (hS : mapLookup c.map k = some S)
    (hok : c.get k = .ok (r, c')) :
    (¬ c.len < c.capacity → mapLookup c'.map k = some S) ∧
    (c.len < c.capacity → mapLookup c'.map k = some c.len ∧ S ≠ c.len) := by
  have inv := reachable_mapInv c h
  constructor
  · intro hge
    rcases get_present_cap_spec c k S inv hS hge with
      ⟨v, c2, heq, _, _, _, _, _, _, _, hmap, _, _, _⟩
    rw [heq] at hok
    injection hok with h1
    injection h1 with h2 h3
    subst h3
    exact hmap
  · intro hlt
    rcases get_present_fill_spec c k S inv hS hlt with ⟨e, herr⟩ | hokk
    · rw [herr] at hok
      cases hok
    · rcases hokk with ⟨v, c2, heq, _, _, _, _, _, _, _, hmap, hne, _, _, _⟩
      rw [heq] at hok
      injection hok with h1
      injection h1 with h2 h3
      subst h3
      exact ⟨hmap, hne⟩

/-- C8 witness: the capacity-1 `get "a"` lands back in slot 0 because the
cache is at its high-water mark. -/
theorem c8_witness :
    Reachable cacheA1 ∧ mapLookup cacheA1.map "a" = some 0 ∧
    cacheA1.get "a" = .ok (some 1, cacheA2) ∧
    ((¬ cacheA1.len < cacheA1.capacity → mapLookup cacheA2.map "a" = some 0) ∧
     (cacheA1.len < cacheA1.capacity →
       mapLookup cacheA2.map "a" = some cacheA1.len ∧ 0 ≠ cacheA1.len)) :=
  ⟨reachable_cacheA1, rfl, cacheA2_step,
   c8_slot_amended cacheA1 cacheA2 "a" 0 (some 1) reachable_cacheA1 rfl
     cacheA2_step⟩

/-- C9: every state reachable by successful `set`/`get` calls satisfies
`len ≤ capacity`. -/
theorem c9_len_le_capacity (c : LruCache V) (h : Reachable c) :
    c.len ≤ c.capacity :=
  (reachable_mapInv c h).len_le

/-- C9 witness: the bound at the concrete reachable state `cacheD3`. -/
theorem c9_witness : Reachable cacheD3 ∧ cacheD3.len ≤ cacheD3.capacity :=
  ⟨reachable_cacheD3, c9_len_le_capacity cacheD3 reachable_cacheD3⟩

/-- C10: `new 0` succeeds and returns a zero-capacity cache, but the first
`set` on it panics with an out-of-bounds arena access (the eviction branch
indexes the empty buffer), and `iter().next()` likewise panics instead of
yielding nothing. -/
theorem c10_zero_capacity_panics :
    (LruCache.new Nat 0).capacity = 0 ∧ (LruCache.new Nat 0).len = 0 ∧
    (LruCache.new Nat 0).set "a" 1 = .error "index out of bounds" ∧
    (LruCache.new Nat 0).iter.next = .error "index out of bounds" :=
  ⟨rfl, rfl, rfl, rfl⟩

/-- C2 counterexample: the reachable capacity-1 state after
`set "a" 1; get "a"` breaks the claimed traversal invariant — its single
node is the tail, yet its `next` is `some 0` rather than `None` (a
self-loop), so not every reachable state satisfies the chain property. -/
theorem c2_chain_counterexample :
    ∃ c : LruCache Nat, Reachable c ∧ ¬ ChainP c := by
  refine ⟨cacheA2, reachable_cacheA2, ?_⟩
  intro hp
  have h4 := (hp.2.2.2.1 (by decide)).2
  exact absurd h4 (by decide)

/-- C2 (amended): for states reachable by `set` alone on a cache whose
capacity is not 1, walking `next` from `head_index` exactly `len` steps
visits every occupied slot exactly once, ends at `tail_index` whose `next`
is `None`, and walking `previous` from `tail_index` yields the reverse
sequence. -/
theorem c2_chain_amended (c : LruCache V) (h : SetReachable c)
    (hcap : c.capacity ≠ 1) : ChainP c :=
  chainP_of_chainInv c (setReachable_chainInv c h hcap)

/-- C2 witness: the chain property at the concrete set-only state `cacheD2`
(capacity 3 holding "a" and "b"). -/
theorem c2_witness :
    SetReachable cacheD2 ∧ cacheD2.capacity ≠ 1 ∧ ChainP cacheD2 :=
  ⟨setReachable_cacheD2, by decide,
   c2_chain_amended cacheD2 setReachable_cacheD2 (by decide)⟩

end LruSpec
